import Mathlib

/-!
A shallow embedding of the PNG decoder (`dynamic_array.c`, `huffman_tree.c`, `png.c`)

Conventions of the embedding.

* Bytes and `uint32_t`/`uint64_t` values are natural numbers; `int32_t` values are
  integers.  Conversions that can wrap are written out (`to_u8`, `to_u32`, `to_i32`).
  `uint64_t` sizes and positions are kept as unbounded naturals: no buffer of
  `2^64` bytes exists.
* A `dynamic_array` is the list of its `count` stored bytes together with the size
  `max_size` of its allocation and the bit cursor.  Bytes of the allocation that were
  never written read as `0` (the block comes from `calloc` in `create_array`; after a
  `realloc` C leaves them indeterminate, and no result below depends on them).
* Loops that C does not bound (`get_symbol`, the block loops, the chunk loop) take a
  fuel argument and return `none` when it runs out; `abort()` is the `aborted` outcome.
-/

namespace PngDecoder


/-! ## Machine integers -/

/-- Conversion to `uint8_t`. -/
def to_u8 (x : Int) : Nat := (x % 256).toNat

/-- Conversion to `uint32_t`. -/
def to_u32 (x : Int) : Nat := (x % 4294967296).toNat

/-- Conversion to `int32_t` (twos-complement wrap): the residue modulo `2^32` that
lies in `[-2^31, 2^31)`. -/
def to_i32 (x : Int) : Int :=
  if x % 4294967296 ≥ 2147483648 then x % 4294967296 - 4294967296 else x % 4294967296

/-- Conversion of a signed value to `uint64_t`, as happens when an `int32_t` is passed
for a `uint64_t index`. -/
def to_u64 (x : Int) : Nat := (x % 18446744073709551616).toNat

/-! ## dynamic_array.c -/

/-- The struct `dynamic_array`: `data` holds the `count` stored bytes. -/
structure dynamic_array where
  data : List Nat
  max_size : Nat
  byte_position : Nat
  bit_position : Nat
deriving DecidableEq, Repr

/-- The field `count`: the number of stored bytes. -/
def dynamic_array.count (arr : dynamic_array) : Nat := arr.data.length

/-- Embedding of `create_array`: an empty array over a zeroed allocation of 25 bytes. -/
def create_array : dynamic_array :=
  { data := [], max_size := 25, byte_position := 0, bit_position := 0 }

/-- Embedding of `expand_array`: `realloc` to `count` bytes (allocation failure is not modelled). -/
def expand_array (to_expand : dynamic_array) (count : Nat) : dynamic_array :=
  { to_expand with max_size := count }

/-- Embedding of `array_add`: append `count` bytes, growing the allocation when they do not fit.
`max_size - count` is the C `uint64_t` difference whenever `count ≤ max_size`, which
every function of this file maintains. -/
def array_add (arr : dynamic_array) (data : List Nat) (count : Nat) : dynamic_array :=
  let free_slots := arr.max_size - arr.count
  let arr1 := if count > free_slots then expand_array arr (arr.max_size + count + 10000) else arr
  { arr1 with data := arr1.data ++ data.take count }

/-- Embedding of `push_byte`: append one byte, growing the allocation when it is full. -/
def push_byte (arr : dynamic_array) (data : Nat) : dynamic_array :=
  let free_slots := arr.max_size - arr.count
  let arr1 := if free_slots < 1 then expand_array arr (arr.max_size + 10000) else arr
  { arr1 with data := arr1.data ++ [data] }

/-- Embedding of `array_get`: the byte at `index`; an index above `max_size` yields the first
element (C prints a message and returns `*(arr->data)`). -/
def array_get (arr : dynamic_array) (index : Nat) : Nat :=
  if index > arr.max_size then arr.data.getD 0 0 else arr.data.getD index 0

/-- Embedding of `next_boundry`: skip the rest of the current byte. -/
def next_boundry (cur : dynamic_array) : dynamic_array :=
  { cur with bit_position := 0, byte_position := cur.byte_position + 1 }

/-- Embedding of `pull_bit`: the bit under the cursor and the advanced array. -/
def pull_bit (to_pull : dynamic_array) : Nat × dynamic_array :=
  let data := array_get to_pull to_pull.byte_position
  let to_and := (1 <<< to_pull.bit_position) % 256
  let a1 := { to_pull with bit_position := to_pull.bit_position + 1 }
  let a2 := if a1.bit_position = 8 then next_boundry a1 else a1
  (if (data &&& to_and) > 0 then 1 else 0, a2)

/-- One iteration of the `for` loop of `pull_bits` on `(to_return, to_pull)`. -/
def pull_bits_step (length to_add : Nat) (st : Nat × dynamic_array) (i : Nat) :
    Nat × dynamic_array :=
  let r := pull_bit st.2
  let to_return := if r.1 > 0 then (st.1 + to_add) % 4294967296 else st.1
  let to_return := if i < length - 1 then to_return >>> 1 else to_return
  (to_return, r.2)

/-- Embedding of `pull_bits`: `length` bits assembled into a `uint32_t`. -/
def pull_bits (to_pull : dynamic_array) (length : Nat) : Nat × dynamic_array :=
  let to_add := (1 <<< (length - 1)) % 4294967296
  (List.range length).foldl (pull_bits_step length to_add) (0, to_pull)

/-- The array after a `pull_bit` call. -/
def skip_bit (arr : dynamic_array) : dynamic_array := (pull_bit arr).2

/-- The bit returned by the `i`-th (from 0) of successive `pull_bit` calls. -/
def nth_bit (arr : dynamic_array) (i : Nat) : Nat := (pull_bit (skip_bit^[i] arr)).1



/-! ## huffman_tree.c -/

/-- The struct `node`, with `null` for the NULL pointer.  Pointers to nodes are values
of this type; updating a child in place is rebuilding the path to it. -/
inductive node where
  | null : node
  | mk (symbol : Nat) (left right : node) (is_leaf : Bool) : node
deriving DecidableEq, Repr

/-- Field `symbol` (only read on non-NULL nodes). -/
def node.symbol : node → Nat
  | node.null => 0
  | node.mk s _ _ _ => s

/-- Field `left`. -/
def node.left : node → node
  | node.null => node.null
  | node.mk _ l _ _ => l

/-- Field `right`. -/
def node.right : node → node
  | node.null => node.null
  | node.mk _ _ r _ => r

/-- Field `is_leaf`. -/
def node.is_leaf : node → Bool
  | node.null => false
  | node.mk _ _ _ f => f

/-- Embedding of `create_node`: a zeroed node without children. -/
def create_node : node := node.mk 0 node.null node.null false

/-- Embedding of `alphabet_indexes`. -/
def alphabet_indexes : List Nat :=
  [3, 17, 15, 13, 11, 9, 7, 5, 4, 6, 8, 10, 12, 14, 16, 18, 0, 1, 2]

/-- Embedding of `add_node`: walk `code_length` levels from the root following the bits of `code`,
least significant first (right on 1, left on 0), creating missing nodes, and make the
node reached a leaf for `symbol`. -/
def add_node : node → Nat → Nat → Nat → node
  | node.null, _, _, _ => node.null
  | node.mk _ l r _, symbol, _, 0 => node.mk symbol l r true
  | node.mk s l r f, symbol, code, n + 1 =>
    if code &&& 1 = 1 then
      node.mk s l (add_node (if r ≠ node.null then r else create_node) symbol (code >>> 1) n) f
    else
      node.mk s (add_node (if l ≠ node.null then l else create_node) symbol (code >>> 1) n) r f

/-- Embedding of `traverse`: one level down; on a NULL child C prints a message and leaves `*cur`
where it is. -/
def traverse (cur : node) (bit : Nat) : node :=
  if bit ≠ 0 then
    if cur.right ≠ node.null then cur.right else cur
  else
    if cur.left ≠ node.null then cur.left else cur

/-- One iteration of the loop of `reverse_bits` on `(to_return, input)`. -/
def reverse_bits_step (num_bits : Nat) (st : Nat × Nat) (i : Nat) : Nat × Nat :=
  let to_return := (st.1 + (st.2 &&& 1)) % 4294967296
  if i ≠ num_bits - 1 then ((to_return <<< 1) % 4294967296, st.2 >>> 1) else (to_return, st.2)

/-- Embedding of `reverse_bits`: the low `num_bits` bits of `input` in reverse order. -/
def reverse_bits (input num_bits : Nat) : Nat :=
  ((List.range num_bits).foldl (reverse_bits_step num_bits) (0, input)).1

/-- Embedding of `static_symbol`: the fixed literal/length tree. -/
def static_symbol : node :=
  let t := (List.range 144).foldl
    (fun (t : node) k => add_node t k (reverse_bits (48 + k) 8) 8) create_node
  let t := (List.range 112).foldl
    (fun (t : node) k => add_node t (144 + k) (reverse_bits (400 + k) 9) 9) t
  let t := (List.range 24).foldl
    (fun (t : node) k => add_node t (256 + k) (reverse_bits k 7) 7) t
  (List.range 8).foldl
    (fun (t : node) k => add_node t (280 + k) (reverse_bits (192 + k) 8) 8) t

/-- Embedding of `static_distance`: the fixed distance tree. -/
def static_distance : node :=
  (List.range 30).foldl (fun (t : node) i => add_node t i (reverse_bits i 5) 5) create_node

/-- Embedding of `get_symbol`: walk from the root, one `pull_bit` per level, until a leaf.  The C
loop has no bound (a NULL child leaves the node unchanged), so the walk takes `fuel`
iterations at most; the result is converted to `int32_t`. -/
def get_symbol : Nat → dynamic_array → node → Option (Int × dynamic_array)
  | fuel, cur, tree =>
    if tree.is_leaf then some (to_i32 tree.symbol, cur)
    else match fuel with
      | 0 => none
      | fuel + 1 => get_symbol fuel (pull_bit cur).2 (traverse tree (pull_bit cur).1)

/-- First loop of `generate_codes` on `(bl_count, array_max)`. -/
def count_lengths_step (code_lengths : List Nat) (st : List Nat × Nat) (i : Nat) :
    List Nat × Nat :=
  let len := code_lengths.getD i 0
  (st.1.set len ((st.1.getD len 0 + 1) % 4294967296), if len > st.2 then len else st.2)

/-- Second loop of `generate_codes` on `(next_code, code)`, iteration `bits = k + 1`. -/
def next_code_step (bl_count : List Nat) (st : List Nat × Nat) (k : Nat) : List Nat × Nat :=
  let code := ((st.2 + bl_count.getD k 0) <<< 1) % 4294967296
  (st.1.set (k + 1) code, code)

/-- Embedding of `generate_codes`: the first code of every length (`bl_count` has 33 entries). -/
def generate_codes (code_lengths : List Nat) (num_codes : Nat) : List Nat :=
  let st := (List.range num_codes).foldl (count_lengths_step code_lengths)
    (List.replicate 33 0, 0)
  let array_max := st.2
  let bl_count := st.1.set 0 0
  ((List.range array_max).foldl (next_code_step bl_count)
    (List.replicate (array_max + 1) 0, 0)).1

/-- Body of the loop of `create_dynamic_tree` on `(to_return, next_code)`. -/
def dynamic_tree_step (code_lengths : List Nat) (st : node × List Nat) (i : Nat) :
    node × List Nat :=
  let length := code_lengths.getD i 0
  if length > 0 then
    (add_node st.1 i (reverse_bits (st.2.getD length 0) length) length,
      st.2.set length ((st.2.getD length 0 + 1) % 4294967296))
  else st

/-- Embedding of `create_dynamic_tree`: the tree of the canonical code of `code_lengths`. -/
def create_dynamic_tree (code_lengths : List Nat) (num_codes : Nat) : node :=
  ((List.range num_codes).foldl (dynamic_tree_step code_lengths)
    (create_node, generate_codes code_lengths num_codes)).1

/-- Inner loop body of `create_alphabet` for length `i` and position `x`. -/
def alphabet_step (code_lengths : List Nat) (i : Nat) (st : node × List Nat) (x : Nat) :
    node × List Nat :=
  let len := code_lengths.getD (alphabet_indexes.getD x 0) 0
  if len = i ∧ len ≠ 0 then
    (add_node st.1 x (reverse_bits (st.2.getD i 0) i) i,
      st.2.set i ((st.2.getD i 0 + 1) % 4294967296))
  else st

/-- Embedding of `create_alphabet`: the tree of the code-length alphabet. -/
def create_alphabet (code_lengths : List Nat) (num_codes : Nat) : node :=
  let next_code := generate_codes code_lengths num_codes
  let biggest_length := (List.range num_codes).foldl
    (fun (m : Nat) i => if code_lengths.getD i 0 > m then code_lengths.getD i 0 else m) 0
  ((List.range (biggest_length + 1)).foldl
    (fun (st : node × List Nat) i => (List.range 19).foldl (alphabet_step code_lengths i) st)
    (create_node, next_code)).1


/-! ## png.c -/

/-- Embedding of `png_signature`. -/
def png_signature : List Nat := [137, 80, 78, 71, 13, 10, 26, 10]

/-- Embedding of `length_values` (grouped by the number of extra bits). -/
def length_values : List Nat :=
  [3, 4, 5, 6, 7, 8, 9, 10] ++ [11, 13, 15, 17] ++ [19, 23, 27, 31] ++ [35, 43, 51, 59]
    ++ [67, 83, 99, 115] ++ [131, 163, 195, 227] ++ [258]

/-- Embedding of `length_extra_bits`. -/
def length_extra_bits : List Nat :=
  List.replicate 8 0 ++ List.replicate 4 1 ++ List.replicate 4 2 ++ List.replicate 4 3
    ++ List.replicate 4 4 ++ List.replicate 4 5 ++ [0]

/-- Embedding of `distance_values` (grouped by the number of extra bits). -/
def distance_values : List Nat :=
  [1, 2, 3, 4] ++ [5, 7] ++ [9, 13] ++ [17, 25] ++ [33, 49] ++ [65, 97] ++ [129, 193]
    ++ [257, 385] ++ [513, 769] ++ [1025, 1537] ++ [2049, 3073] ++ [4097, 6145]
    ++ [8193, 12289] ++ [16385, 24577]

/-- Embedding of `distance_extra_bits`. -/
def distance_extra_bits : List Nat :=
  [0, 0, 0, 0] ++ [1, 1] ++ [2, 2] ++ [3, 3] ++ [4, 4] ++ [5, 5] ++ [6, 6] ++ [7, 7]
    ++ [8, 8] ++ [9, 9] ++ [10, 10] ++ [11, 11] ++ [12, 12] ++ [13, 13]

/-- Ways in which a run does not return: `abort()` (or a crash on a NULL buffer), and
the fuel of the model running out. -/
inductive Err where
  | aborted
  | out_of_fuel
deriving DecidableEq, Repr

/-- Byte order of the machine the decoder runs on. -/
inductive Host where
  | little
  | big
deriving DecidableEq, Repr

/-- The `int` that four bytes in memory represent on `host`. -/
def mem_to_int (host : Host) (bytes : List Nat) : Int :=
  let b0 := bytes.getD 0 0
  let b1 := bytes.getD 1 0
  let b2 := bytes.getD 2 0
  let b3 := bytes.getD 3 0
  match host with
  | Host.little => to_i32 (b0 + b1 * 256 + b2 * 65536 + b3 * 16777216 : Nat)
  | Host.big => to_i32 (b3 + b2 * 256 + b1 * 65536 + b0 * 16777216 : Nat)

/-- The four bytes in memory of an `int` on `host`. -/
def int_to_mem (host : Host) (x : Int) : List Nat :=
  let u := to_u32 x
  let le := [u % 256, u / 256 % 256, u / 65536 % 256, u / 16777216 % 256]
  match host with
  | Host.little => le
  | Host.big => le.reverse

/-- Embedding of `check_endian`: `if(*(int8_t*)&num = 1)` stores 1 into the first byte of `num` and
tests the stored value. -/
def check_endian (host : Host) : Int :=
  let num := int_to_mem host 1
  let stored : Int := 1
  let _num := num.set 0 (to_u8 stored)
  if stored ≠ 0 then 1 else 0

/-- Embedding of `byte_swap` on the 32-bit pattern of `to_swap`. -/
def byte_swap (to_swap : Int) : Int :=
  let u := to_u32 to_swap
  let to_return : Int := 0
  let to_return := to_i32 (to_return + (((u &&& 0x000000FF) <<< 24 : Nat) : Int))
  let to_return := to_i32 (to_return + (((u &&& 0x0000FF00) <<< 8 : Nat) : Int))
  let to_return := to_i32 (to_return + (((u &&& 0x00FF0000) >>> 8 : Nat) : Int))
  let to_return := to_i32 (to_return + (((u &&& 0xFF000000) >>> 24 : Nat) : Int))
  to_return

/-- A `FILE` opened for reading: its bytes and the read position. -/
structure FILE where
  bytes : List Nat
  pos : Nat
deriving DecidableEq, Repr

/-- Embedding of `fread` of `n` single bytes: the bytes obtained (fewer than `n` at end of file) and
the advanced stream. -/
def fread (f : FILE) (n : Nat) : List Nat × FILE :=
  let got := (f.bytes.drop f.pos).take n
  (got, { f with pos := f.pos + got.length })

/-- Embedding of `fseek(f, offset, SEEK_CUR)`; a seek to before the start fails and moves nothing. -/
def fseek (f : FILE) (offset : Int) : FILE :=
  if 0 ≤ (f.pos : Int) + offset then { f with pos := ((f.pos : Int) + offset).toNat } else f

/-- The struct `png`. -/
structure png where
  raw_data : dynamic_array
  pixel_data : dynamic_array
  w : Int
  h : Int
  bytes_per_pixel : Nat
  bits_per_pixel : Nat
  color_type : Nat
  compression_method : Nat
  filter_method : Nat
  interlace_method : Nat
  is_valid : Int
deriving DecidableEq, Repr

/-- Embedding of `is_required`: bit 0x20 of the first type byte is clear. -/
def is_required (input : Nat) : Bool := (input &&& 0x20) = 0

/-- Embedding of `handle_IDAT`: append the chunk body to `raw_data`.  A short read leaves `raw_data`
as it is.  A negative `length` makes `calloc` fail, so `fread` gets a NULL buffer: at
the end of the file it reads nothing and the function returns (0 differs from
`length`); with a byte left to read, the store through NULL is modelled as a crash. -/
def handle_IDAT (p : png) (length : Int) (png_file : FILE) : Except Err (png × FILE) :=
  if length < 0 then
    if (fread png_file 1).1.length = 0 then Except.ok (p, png_file)
    else Except.error Err.aborted
  else
    let r := fread png_file length.toNat
    if r.1.length ≠ length.toNat then Except.ok (p, r.2)
    else Except.ok ({ p with raw_data := array_add p.raw_data r.1 length.toNat }, r.2)

/-- The supported-options part of `handle_IHDR`, after the fields are read and the
byte order of `w` and `h` is fixed. -/
def check_IHDR (p : png) : Int × png :=
  if p.color_type ≠ 2 ∧ p.color_type ≠ 6 then (0, p)
  else if p.bytes_per_pixel ≠ 8 then (0, p)
  else if p.interlace_method ≠ 0 then (0, p)
  else
    let p1 := if p.color_type = 2 then { p with bytes_per_pixel := 3 } else p
    let p2 := if p1.color_type = 6 then { p1 with bytes_per_pixel := 4 } else p1
    (1, p2)

/-- Embedding of `handle_IHDR`: read the 13 bytes of the header into the struct, fix the byte order
of `w` and `h` (`if(check_endian)` tests the address of the function, which is never
null) and check the supported options; the first component is the C return value.  A
short read returns 0; of `w` and `h` the bytes that were read are stored over the first
bytes of the field, a one-byte field stays as it was. -/
def handle_IHDR (host : Host) (p : png) (_length : Int) (png_file : FILE) : Int × png × FILE :=
  let r1 := fread png_file 4
  let r2 := fread r1.2 4
  let r3 := fread r2.2 1
  let r4 := fread r3.2 1
  let r5 := fread r4.2 1
  let r6 := fread r5.2 1
  let r7 := fread r6.2 1
  let w := mem_to_int host r1.1
  let h := mem_to_int host r2.1
  if r1.1.length ≠ 4 then
    (0, { p with w := mem_to_int host (r1.1 ++ (int_to_mem host p.w).drop r1.1.length) },
      r1.2)
  else if r2.1.length ≠ 4 then
    (0, { p with w := w,
                 h := mem_to_int host (r2.1 ++ (int_to_mem host p.h).drop r2.1.length) },
      r2.2)
  else if r3.1.length ≠ 1 then (0, { p with w := w, h := h }, r3.2)
  else if r4.1.length ≠ 1 then
    (0, { p with w := w, h := h, bytes_per_pixel := r3.1.getD 0 0 }, r4.2)
  else if r5.1.length ≠ 1 then
    (0, { p with w := w, h := h, bytes_per_pixel := r3.1.getD 0 0,
                 color_type := r4.1.getD 0 0 }, r5.2)
  else if r6.1.length ≠ 1 then
    (0, { p with w := w, h := h, bytes_per_pixel := r3.1.getD 0 0,
                 color_type := r4.1.getD 0 0, compression_method := r5.1.getD 0 0 }, r6.2)
  else if r7.1.length ≠ 1 then
    (0, { p with w := w, h := h, bytes_per_pixel := r3.1.getD 0 0,
                 color_type := r4.1.getD 0 0, compression_method := r5.1.getD 0 0,
                 filter_method := r6.1.getD 0 0 }, r7.2)
  else
    let c := check_IHDR
      { p with w := byte_swap w, h := byte_swap h, bytes_per_pixel := r3.1.getD 0 0,
               color_type := r4.1.getD 0 0, compression_method := r5.1.getD 0 0,
               filter_method := r6.1.getD 0 0, interlace_method := r7.1.getD 0 0 }
    (c.1, c.2, r7.2)

/-- Embedding of `handle_chunk`: dispatch on the chunk type (`IHDR`, `IDAT`, `IEND`). -/
def handle_chunk (host : Host) (p : png) (chunk_length : Int) (chunk_header : List Nat)
    (png_file : FILE) : Except Err (Int × png × FILE) :=
  if chunk_header.take 4 = [73, 72, 68, 82] then
    let r := handle_IHDR host p chunk_length png_file
    if r.1 = 0 then Except.ok (0, r.2) else Except.ok (1, r.2)
  else if chunk_header.take 4 = [73, 68, 65, 84] then
    match handle_IDAT p chunk_length png_file with
    | Except.error e => Except.error e
    | Except.ok r => Except.ok (1, r)
  else if chunk_header.take 4 = [73, 69, 78, 68] then
    Except.ok (1, { p with is_valid := 1 }, png_file)
  else Except.ok (0, p, png_file)

/-- Embedding of `handle_zlib`: read CMF and FLG; the result is the C return value. -/
def handle_zlib (cur : png) : Int × png :=
  let r1 := pull_bits cur.raw_data 8
  let cmf := r1.1 % 256
  let r2 := pull_bits r1.2 8
  let flg := r2.1 % 256
  let cur := { cur with raw_data := r2.2 }
  let compression_method := cmf &&& 0x0F
  if compression_method ≠ 8 then (0, cur)
  else
    let cur := if (flg &&& 0x20) > 0 then
        { cur with raw_data := { cur.raw_data with byte_position := cur.raw_data.byte_position + 4 } }
      else cur
    (1, cur)

/-- The `length` bytes at `cur->data + cur->byte_position` (bytes past the stored data
read as 0). -/
def bytes_at (cur : dynamic_array) (length : Nat) : List Nat :=
  (List.range length).map (fun k => cur.data.getD (cur.byte_position + k) 0)

/-- Embedding of `uncompressed_block`: returns `(cur, output_stream)`. -/
def uncompressed_block (host : Host) (cur output_stream : dynamic_array) :
    dynamic_array × dynamic_array :=
  let cur := next_boundry cur
  let r := pull_bits cur 16
  let length := r.1
  let cur := r.2
  let length := if check_endian host = 0 then to_u32 (byte_swap (to_i32 length)) else length
  let cur := { cur with byte_position := cur.byte_position + 2 }
  let output_stream := array_add output_stream (bytes_at cur length) length
  let cur := { cur with byte_position := cur.byte_position + (length + 4) % 4294967296 }
  (cur, output_stream)

/-- The loop of `handle_length_copy` on `(output_stream, current_position)`, with
`n` iterations left (`counter = length - n`).  The last argument and the second
component of the result are a ghost of the model: the positions passed to `array_get`,
in order. -/
def length_copy_loop (max distance : Int) :
    Nat → dynamic_array → Int → List Int → dynamic_array × List Int
  | 0, output_stream, _, reads => (output_stream, reads)
  | n + 1, output_stream, current_position, reads =>
    let data_temp := array_get output_stream (to_u64 current_position)
    let output_stream := push_byte output_stream data_temp
    let reads := reads ++ [current_position]
    let current_position := current_position + 1
    let current_position := if current_position ≥ max then to_i32 (max - distance)
      else current_position
    length_copy_loop max distance n output_stream current_position reads

/-- Embedding of `handle_length_copy` with the positions it reads: `abort()` when the source lies
before the start of the output, else copy `length` bytes. -/
def length_copy_run (output_stream : dynamic_array) (length distance : Int) :
    Except Err (dynamic_array × List Int) :=
  let max := to_i32 output_stream.count
  let current_position := to_i32 (max - distance)
  if current_position < 0 then Except.error Err.aborted
  else Except.ok (length_copy_loop max distance length.toNat output_stream current_position [])

/-- Embedding of `handle_length_copy`: the output stream after the copy. -/
def handle_length_copy (output_stream : dynamic_array) (length distance : Int) :
    Except Err dynamic_array :=
  match length_copy_run output_stream length distance with
  | Except.error e => Except.error e
  | Except.ok r => Except.ok r.1

/-- The positions of `output_stream` that `handle_length_copy` reads (none when it
aborts). -/
def length_copy_reads (output_stream : dynamic_array) (length distance : Int) : List Int :=
  match length_copy_run output_stream length distance with
  | Except.error _ => []
  | Except.ok r => r.2

/-- The copy in the words of the specification: append `output[cursor - distance]`,
one byte at a time, `n` times. -/
def lz77_naive (distance : Nat) : Nat → List Nat → List Nat
  | 0, output => output
  | n + 1, output =>
    lz77_naive distance n (output ++ [output.getD (output.length - distance) 0])

/-- Embedding of `huffman_block`: decode symbols until end of block; returns `(cur, output_stream)`. -/
def huffman_block : Nat → dynamic_array → dynamic_array → node → node →
    Except Err (dynamic_array × dynamic_array)
  | 0, _, _, _, _ => Except.error Err.out_of_fuel
  | fuel + 1, cur, output_stream, literal_tree, distance_tree =>
    match get_symbol fuel cur literal_tree with
    | none => Except.error Err.out_of_fuel
    | some (symbol, cur) =>
      let output_stream := if symbol < 256 then push_byte output_stream (to_u8 symbol)
        else output_stream
      if symbol = 256 then Except.ok (cur, output_stream)
      else if symbol > 256 then
        let index := symbol - 257
        let length_bits : Int := length_extra_bits.getD index.toNat 0
        let length : Int := length_values.getD index.toNat 0
        let r := pull_bits cur (to_u8 length_bits)
        let length := to_i32 (length + r.1)
        let cur := r.2
        match get_symbol fuel cur distance_tree with
        | none => Except.error Err.out_of_fuel
        | some (distance_code, cur) =>
          let distance_bits : Int := distance_extra_bits.getD distance_code.toNat 0
          let r := pull_bits cur (to_u8 distance_bits)
          let distance := to_i32 (distance_values.getD distance_code.toNat 0 + r.1)
          let cur := r.2
          match handle_length_copy output_stream length distance with
          | Except.error e => Except.error e
          | Except.ok output_stream =>
            huffman_block fuel cur output_stream literal_tree distance_tree
      else huffman_block fuel cur output_stream literal_tree distance_tree

/-- Embedding of `paeth`: the Paeth predictor (no `int32_t` overflow occurs on byte arguments). -/
def paeth (a b c : Int) : Int :=
  let p := a + b - c
  let pa := |p - a|
  let pb := |p - b|
  let pc := |p - c|
  if pa ≤ pb ∧ pa ≤ pc then a
  else if pb ≤ pc then b
  else c

/-- One byte of a scanline in `handle_filter`: the body of the inner `for` loop, on
`cur->pixel_data`. -/
def filter_step (bytes_per_pixel : Nat) (output_stream : dynamic_array)
    (scanline_size scanline_counter position output_position : Int) (filter_method : Nat)
    (pixel_data : dynamic_array) (i : Nat) : dynamic_array :=
  let bpp : Int := bytes_per_pixel
  let x : Nat := array_get output_stream (to_u64 (position + i + 1))
  let c : Nat := if (i : Int) ≥ bpp ∧ scanline_counter > 0 then
      array_get pixel_data (to_u64 (output_position + i - scanline_size - bpp)) else 0
  let b : Nat := if scanline_counter > 0 then
      array_get pixel_data (to_u64 (output_position + i - scanline_size)) else 0
  let a : Nat := if (i : Int) ≥ bpp then
      array_get pixel_data (to_u64 (output_position + i - bpp)) else 0
  match filter_method with
  | 0 => push_byte pixel_data x
  | 1 => push_byte pixel_data (to_u8 (x + a : Nat))
  | 2 => push_byte pixel_data (to_u8 (x + b : Nat))
  | 3 => push_byte pixel_data (to_u8 (x + (a + b) / 2 : Nat))
  | 4 => push_byte pixel_data (to_u8 (x + paeth a b c))
  | _ => pixel_data

/-- One scanline of `handle_filter`: the body of the outer `while` loop. -/
def filter_scanline (bytes_per_pixel : Nat) (output_stream : dynamic_array)
    (scanline_size : Int) (pixel_data : dynamic_array) (scanline_counter : Nat) :
    dynamic_array :=
  let position := to_i32 (scanline_counter * scanline_size + scanline_counter)
  let output_position := to_i32 (scanline_counter * scanline_size)
  let filter_method := array_get output_stream (to_u64 position)
  (List.range scanline_size.toNat).foldl
    (filter_step bytes_per_pixel output_stream scanline_size scanline_counter position
      output_position filter_method) pixel_data

/-- Embedding of `handle_filter`: undo the scanline filters of `output_stream` into `cur->pixel_data`. -/
def handle_filter (cur : png) (output_stream : dynamic_array) : png :=
  let scanline_size := to_i32 (cur.w * cur.bytes_per_pixel)
  let pixel_data := (List.range cur.h.toNat).foldl
    (filter_scanline cur.bytes_per_pixel output_stream scanline_size) cur.pixel_data
  { cur with pixel_data := pixel_data }

/-- A store `code_lengths[i] = v`.  A store past the end of the block is a heap overflow
in C (undefined behaviour); the model only records it, as a longer list, and what it
computes after such a store need not be what the program does. -/
def array_write (l : List Nat) (i v : Nat) : List Nat :=
  if i < l.length then l.set i v else l ++ List.replicate (i - l.length) 0 ++ [v]

/-- The inner `for` loops of `decode_dynamic_tree`: `n` stores of `v` from
`length_index` on; returns `(code_lengths, length_index)`. -/
def repeat_length (v : Nat) : Nat → List Nat × Nat → List Nat × Nat
  | 0, st => st
  | n + 1, st => repeat_length v n (array_write st.1 st.2 v, st.2 + 1)

/-- The `while` loop of `decode_dynamic_tree` on
`(code_lengths, length_index, previous_code)`. -/
def decode_lengths_loop (alphabet : node) (num_codes : Nat) :
    Nat → dynamic_array → List Nat → Nat → Nat → Option (dynamic_array × List Nat)
  | 0, _, _, _, _ => none
  | fuel + 1, cur, code_lengths, length_index, previous_code =>
    if length_index < num_codes then
      match get_symbol fuel cur alphabet with
      | none => none
      | some (sym, cur) =>
        let result := to_u32 sym
        if result = 16 then
          let r := pull_bits cur 2
          let st := repeat_length previous_code (3 + r.1) (code_lengths, length_index)
          decode_lengths_loop alphabet num_codes fuel r.2 st.1 st.2 previous_code
        else if result = 17 then
          let r := pull_bits cur 3
          let st := repeat_length 0 (3 + r.1) (code_lengths, length_index)
          decode_lengths_loop alphabet num_codes fuel r.2 st.1 st.2 previous_code
        else if result = 18 then
          let r := pull_bits cur 7
          let st := repeat_length 0 (11 + r.1) (code_lengths, length_index)
          decode_lengths_loop alphabet num_codes fuel r.2 st.1 st.2 previous_code
        else
          decode_lengths_loop alphabet num_codes fuel cur
            (array_write code_lengths length_index result) (length_index + 1) result
    else some (cur, code_lengths)

/-- Embedding of `decode_dynamic_tree`: decode `num_codes` code lengths and build their tree;
returns `(tree, cur)`. -/
def decode_dynamic_tree (fuel : Nat) (alphabet : node) (cur : dynamic_array)
    (num_codes : Nat) : Option (node × dynamic_array) :=
  match decode_lengths_loop alphabet num_codes fuel cur (List.replicate num_codes 0) 0 0 with
  | none => none
  | some (cur, code_lengths) => some (create_dynamic_tree code_lengths num_codes, cur)

/-- The loop of `generate_dynamic` that reads the `HCLEN` 3-bit lengths. -/
def read_alphabet_lengths (st : List Nat × dynamic_array) (i : Nat) :
    List Nat × dynamic_array :=
  let r := pull_bits st.2 3
  (array_write st.1 i r.1, r.2)

/-- Embedding of `generate_dynamic`: returns `(literal_tree, distance_tree, cur)`. -/
def generate_dynamic (fuel : Nat) (cur : dynamic_array) :
    Option (node × node × dynamic_array) :=
  let r := pull_bits cur 5
  let HLIT := (r.1 + 257) % 4294967296
  let r := pull_bits r.2 5
  let HDIST := (r.1 + 1) % 4294967296
  let r := pull_bits r.2 4
  let HCLEN := (r.1 + 4) % 4294967296
  let st := (List.range HCLEN).foldl read_alphabet_lengths (List.replicate 19 0, r.2)
  let alphabet_tree := create_alphabet st.1 HCLEN
  match decode_dynamic_tree fuel alphabet_tree st.2 HLIT with
  | none => none
  | some (literal_tree, cur) =>
    match decode_dynamic_tree fuel alphabet_tree cur HDIST with
    | none => none
    | some (distance_tree, cur) => some (literal_tree, distance_tree, cur)

/-- The block loop of `decode_png` on `(cur->raw_data, output_stream)`; the first
component tells whether the loop ran to its end (`true`) or was left by the `return`
of `case 3` (`false`). -/
def decode_blocks (host : Host) : Nat → dynamic_array → dynamic_array →
    Except Err (Bool × dynamic_array × dynamic_array)
  | 0, _, _ => Except.error Err.out_of_fuel
  | fuel + 1, raw_data, output_stream =>
    let r1 := pull_bit raw_data
    let is_final := r1.1
    let r2 := pull_bits r1.2 2
    let type := r2.1 % 256
    let raw_data := r2.2
    let after : Except Err (Bool × dynamic_array × dynamic_array) :=
      if type = 0 then Except.ok (true, uncompressed_block host raw_data output_stream)
      else if type = 1 then
        match huffman_block fuel raw_data output_stream static_symbol static_distance with
        | Except.error e => Except.error e
        | Except.ok r => Except.ok (true, r)
      else if type = 2 then
        match generate_dynamic fuel raw_data with
        | none => Except.error Err.out_of_fuel
        | some (dynamic_literal_tree, dynamic_distance_tree, raw_data) =>
          match huffman_block fuel raw_data output_stream dynamic_literal_tree
              dynamic_distance_tree with
          | Except.error e => Except.error e
          | Except.ok r => Except.ok (true, r)
      else Except.ok (false, raw_data, output_stream)
    match after with
    | Except.error e => Except.error e
    | Except.ok (false, r) => Except.ok (false, r)
    | Except.ok (true, raw_data, output_stream) =>
      if is_final ≠ 0 then Except.ok (true, raw_data, output_stream)
      else decode_blocks host fuel raw_data output_stream

/-- Embedding of `decode_png`: inflate `raw_data` and undo the filters; on an unsupported ZLIB
header and on a block of type 3 it returns before `handle_filter`. -/
def decode_png (host : Host) (fuel : Nat) (cur : png) : Except Err png :=
  let output_stream := create_array
  let z := handle_zlib cur
  if z.1 = 0 then Except.ok z.2
  else
    match decode_blocks host fuel z.2.raw_data output_stream with
    | Except.error e => Except.error e
    | Except.ok (false, raw_data, _) => Except.ok { z.2 with raw_data := raw_data }
    | Except.ok (true, raw_data, output_stream) =>
      Except.ok (handle_filter { z.2 with raw_data := raw_data } output_stream)

/-- The chunk loop of `read_png`; the first component tells whether the loop was left
through its condition (`true`) or by a `return` (`false`). -/
def read_chunks (host : Host) : Nat → png → FILE → Except Err (Bool × png)
  | 0, _, _ => Except.error Err.out_of_fuel
  | fuel + 1, to_return, png_file =>
    if to_return.is_valid ≠ 0 then Except.ok (true, to_return)
    else
      let r1 := fread png_file 4
      if r1.1.length ≠ 4 then Except.ok (false, to_return) else
      let r2 := fread r1.2 4
      if r2.1.length ≠ 4 then Except.ok (false, to_return) else
      let chunk_length := mem_to_int host r1.1
      let chunk_type := r2.1
      let chunk_length := if check_endian host ≠ 0 then byte_swap chunk_length
        else chunk_length
      if is_required (chunk_type.getD 0 0) then
        match handle_chunk host to_return chunk_length chunk_type r2.2 with
        | Except.error e => Except.error e
        | Except.ok (ok, to_return, png_file) =>
          if ok = 0 then Except.ok (false, to_return)
          else read_chunks host fuel to_return (fseek png_file 4)
      else read_chunks host fuel to_return (fseek (fseek r2.2 chunk_length) 4)

/-- Embedding of `read_png` on the contents of the file (`none`: the file cannot be opened).  The
final `free_array(raw_data)` is not modelled: `raw_data` keeps its last value. -/
def read_png (host : Host) (fuel : Nat) (file : Option (List Nat)) : Except Err png :=
  let to_return : png :=
    { raw_data := create_array, pixel_data := create_array, w := 0, h := 0,
      bytes_per_pixel := 0, bits_per_pixel := 0, color_type := 0, compression_method := 0,
      filter_method := 0, interlace_method := 0, is_valid := 0 }
  match file with
  | none => Except.ok to_return
  | some bytes =>
    let r := fread { bytes := bytes, pos := 0 } 8
    if r.1.length ≠ 8 then Except.ok to_return
    else if r.1 ≠ png_signature then Except.ok to_return
    else
      match read_chunks host fuel to_return r.2 with
      | Except.error e => Except.error e
      | Except.ok (false, to_return) => Except.ok to_return
      | Except.ok (true, to_return) => decode_png host fuel to_return

/-- The predictor of the specification for filter type `f`: 0, `a`, `b`,
`floor((a + b) / 2)` and `Paeth(a, b, c)` for the types 0 to 4. -/
def spec_predictor (f : Nat) (a b c : Int) : Int :=
  match f with
  | 0 => 0
  | 1 => a
  | 2 => b
  | 3 => (a + b) / 2
  | 4 => paeth a b c
  | _ => 0

/-- The pixel byte of the specification at offset `i` of scanline `y`, for the inflated
stream `S`, the pixel buffer `P` and scanlines of `n` bytes: `(x + pred) mod 256` with
`a`, `b`, `c` the bytes to the left, above and above-left (0 outside the image). -/
def spec_byte (S P : List Nat) (n bpp y i : Nat) : Int :=
  let x : Int := S.getD (y * (1 + n) + 1 + i) 0
  let a : Int := if i ≥ bpp then P.getD (y * n + i - bpp) 0 else 0
  let b : Int := if y > 0 then P.getD ((y - 1) * n + i) 0 else 0
  let c : Int := if i ≥ bpp ∧ y > 0 then P.getD ((y - 1) * n + i - bpp) 0 else 0
  (x + spec_predictor (S.getD (y * (1 + n)) 0) a b c) % 256

/-- The first `k` bytes of the pixel buffer `P` are the bytes of the specification. -/
def filter_inv (S P : List Nat) (n bpp k : Nat) : Prop :=
  ∀ y i, i < n → y * n + i < k → (P.getD (y * n + i) 0 : Int) = spec_byte S P n bpp y i


/-! ## Canonical codes and paths in a tree -/

/-- The first code of length `b` in the words of the specification: `first[1] = 0` and
`first[b] = (first[b-1] + bl_count[b-1]) << 1`, where `bl_count[b]` is the number of
symbols of length `b` (symbols of length 0 are not counted). -/
def spec_first (L : List Nat) : Nat → Nat
  | 0 => 0
  | b + 1 => (spec_first L b + (if b = 0 then 0 else L.count b)) * 2

/-- The canonical code of symbol `s`: the first code of its length plus the number of
earlier symbols of the same length. -/
def canonical_code (L : List Nat) (s : Nat) : Nat :=
  spec_first L (L.getD s 0) + (L.take s).count (L.getD s 0)

/-- The bits of `code` that `add_node` follows over `len` levels, least significant
first (`true`: right). -/
def code_path : Nat → Nat → List Bool
  | _, 0 => []
  | code, n + 1 => decide (code &&& 1 = 1) :: code_path (code >>> 1) n

/-- The `len` low bits of `code`, most significant first. -/
def msb_bits (code : Nat) : Nat → List Bool
  | 0 => []
  | n + 1 => decide (code / 2 ^ n % 2 = 1) :: msb_bits code n

/-- The node reached from `t` along a path (`null` when a child is missing). -/
def node_at : node → List Bool → node
  | t, [] => t
  | t, true :: bs => node_at t.right bs
  | t, false :: bs => node_at t.left bs

/-- The tree that `create_dynamic_tree` builds, as a fold of `add_node` over the
symbols, each with its canonical code. -/
def canonical_tree_upto (L : List Nat) (m : Nat) : node :=
  (List.range m).foldl (fun (t : node) i =>
    if L.getD i 0 > 0 then add_node t i (reverse_bits (canonical_code L i) (L.getD i 0))
      (L.getD i 0) else t) create_node

/-- The scaled Kraft sum of the lengths in `1..b`: the sum of `2^(b - l)`. -/
def level_sum (L : List Nat) (b : Nat) : Nat :=
  ((L.filter (fun l => 0 < l ∧ l ≤ b)).map (fun l => 2 ^ (b - l))).sum

/-- The `m` low bits of `c` in reverse order, as a number. -/
def reversed (c : Nat) : Nat → Nat
  | 0 => 0
  | m + 1 => 2 * reversed c m + c / 2 ^ m % 2

/-- The fixed literal/length code of symbol `s` in the words of the specification:
`0x30 + s` for `0..143`, `0x190 + (s - 144)` for `144..255`, `s - 256` for `256..279`
and `0xC0 + (s - 280)` for `280..287`. -/
def spec_fixed_code (s : Nat) : Nat :=
  if s < 144 then 48 + s
  else if s < 256 then 400 + (s - 144)
  else if s < 280 then s - 256
  else 192 + (s - 280)

/-- The number of bits of the fixed literal/length code of symbol `s` in the words of
the specification: 8, 9, 7 and 8 bits on the four ranges. -/
def spec_fixed_length (s : Nat) : Nat :=
  if s < 144 then 8 else if s < 256 then 9 else if s < 280 then 7 else 8

/-- The order in which the lengths of the code-length alphabet are transmitted, in the
words of the specification. -/
def code_length_order : List Nat :=
  [16, 17, 18, 0, 8, 7, 9, 6, 10, 5, 11, 4, 12, 3, 13, 2, 14, 1, 15]

/-- The lengths `L` of the specification for `HCLEN` transmitted lengths `r`:
`L[order[k]] = r[k]` for `k < HCLEN`, and 0 elsewhere. -/
def spec_alphabet_lengths (r : List Nat) (HCLEN : Nat) : List Nat :=
  (List.range HCLEN).foldl
    (fun (L : List Nat) k => L.set (code_length_order.getD k 0) (r.getD k 0))
    (List.replicate 19 0)

/-! ## Machine integers and arrays: basic facts -/

theorem to_i32_of_range (x : Int) (h1 : -2147483648 ≤ x) (h2 : x < 2147483648) :
    to_i32 x = x := by
  unfold to_i32
  split <;> omega

theorem to_u64_of_nat (n : Nat) (h : n < 18446744073709551616) : to_u64 (n : Int) = n := by
  unfold to_u64
  rw [Int.emod_eq_of_lt (by omega) (by omega)]
  simp

theorem to_u8_of_nat (n : Nat) : to_u8 (n : Int) = n % 256 := by
  unfold to_u8
  omega

theorem to_u8_lt (x : Int) : to_u8 x < 256 := by
  unfold to_u8
  omega

theorem push_byte_data (arr : dynamic_array) (b : Nat) :
    (push_byte arr b).data = arr.data ++ [b] := by
  unfold push_byte expand_array
  simp only
  split <;> rfl

theorem push_byte_cursor (arr : dynamic_array) (b : Nat) :
    (push_byte arr b).byte_position = arr.byte_position ∧
    (push_byte arr b).bit_position = arr.bit_position := by
  unfold push_byte expand_array
  simp only
  split <;> exact ⟨rfl, rfl⟩

theorem push_byte_wf (arr : dynamic_array) (b : Nat) (h : arr.count ≤ arr.max_size) :
    (push_byte arr b).count ≤ (push_byte arr b).max_size := by
  unfold push_byte expand_array dynamic_array.count
  unfold dynamic_array.count at h
  simp only
  split
  · simp only [List.length_append, List.length_singleton]; omega
  · simp only [List.length_append, List.length_singleton]; omega

theorem array_add_data (arr : dynamic_array) (data : List Nat) (count : Nat) :
    (array_add arr data count).data = arr.data ++ data.take count := by
  unfold array_add expand_array
  simp only
  split <;> rfl

theorem array_get_of_le (arr : dynamic_array) (i : Nat) (h : i ≤ arr.max_size) :
    array_get arr i = arr.data.getD i 0 := by
  unfold array_get
  rw [if_neg (by omega)]

theorem getD_set_self (l : List Nat) (i v : Nat) (h : i < l.length) :
    (l.set i v).getD i 0 = v := by
  rw [List.getD_eq_getElem?_getD, List.getElem?_set_self h]
  rfl

theorem getD_set_ne (l : List Nat) (i j v : Nat) (h : i ≠ j) :
    (l.set i v).getD j 0 = l.getD j 0 := by
  rw [List.getD_eq_getElem?_getD, List.getElem?_set_ne h, ← List.getD_eq_getElem?_getD]

theorem take_succ_getD (L : List Nat) (m : Nat) (hm : m < L.length) :
    L.take (m + 1) = L.take m ++ [L.getD m 0] := by
  rw [List.take_succ, List.getElem?_eq_getElem hm, List.getD_eq_getElem _ _ hm]
  rfl

/-! ## The bit reader (`pull_bit`, `pull_bits`) -/

theorem and_one_shift_pos_iff (d k : Nat) (hk : k < 8) :
    ((d &&& (1 <<< k) % 256) > 0) ↔ (d / 2 ^ k) % 2 = 1 := by
  have h1 : (1 <<< k) % 256 = 2 ^ k := by
    rw [Nat.one_shiftLeft]
    apply Nat.mod_eq_of_lt
    calc 2 ^ k < 2 ^ 8 := Nat.pow_lt_pow_right (by norm_num) hk
      _ = 256 := by norm_num
  rw [h1]
  have h2 : d &&& 2 ^ k = (d / 2 ^ k % 2) * 2 ^ k := by
    apply Nat.eq_of_testBit_eq
    intro i
    rw [Nat.testBit_and, Nat.testBit_two_pow]
    rcases Nat.mod_two_eq_zero_or_one (d / 2 ^ k) with h | h
    · rw [h]
      by_cases hik : k = i
      · subst hik
        simp [Nat.testBit_to_div_mod, h]
      · simp [hik]
    · rw [h, one_mul, Nat.testBit_two_pow]
      by_cases hik : k = i
      · subst hik
        simp [Nat.testBit_to_div_mod, h]
      · simp [hik]
  rw [h2]
  rcases Nat.mod_two_eq_zero_or_one (d / 2 ^ k) with h | h
  · simp [h]
  · simp [h]

theorem pull_bit_fst (a : dynamic_array) (hb : a.bit_position < 8) :
    (pull_bit a).1 = (array_get a a.byte_position / 2 ^ a.bit_position) % 2 := by
  unfold pull_bit
  simp only
  rcases Nat.mod_two_eq_zero_or_one (array_get a a.byte_position / 2 ^ a.bit_position) with h | h
  · rw [if_neg, h]
    rw [and_one_shift_pos_iff _ _ hb, h]; decide
  · rw [if_pos, h]
    rw [and_one_shift_pos_iff _ _ hb, h]

theorem pull_bit_fst_le (a : dynamic_array) : (pull_bit a).1 ≤ 1 := by
  unfold pull_bit
  simp only
  split <;> simp

theorem skip_bit_data (a : dynamic_array) :
    (skip_bit a).data = a.data ∧ (skip_bit a).max_size = a.max_size := by
  unfold skip_bit pull_bit next_boundry
  simp only
  split <;> simp

theorem skip_bit_pos (a : dynamic_array) (hb : a.bit_position < 8) :
    (skip_bit a).byte_position = a.byte_position + (a.bit_position + 1) / 8 ∧
    (skip_bit a).bit_position = (a.bit_position + 1) % 8 := by
  unfold skip_bit pull_bit next_boundry
  simp only
  by_cases h : a.bit_position + 1 = 8
  · rw [if_pos h]; simp [h]
  · rw [if_neg h]
    have h1 : (a.bit_position + 1) / 8 = 0 := by omega
    have h2 : (a.bit_position + 1) % 8 = a.bit_position + 1 := by omega
    simp [h1, h2]

theorem skip_bit_iterate (a : dynamic_array) (hb : a.bit_position < 8) (i : Nat) :
    (skip_bit^[i] a).data = a.data ∧ (skip_bit^[i] a).max_size = a.max_size ∧
    (skip_bit^[i] a).byte_position = a.byte_position + (a.bit_position + i) / 8 ∧
    (skip_bit^[i] a).bit_position = (a.bit_position + i) % 8 := by
  induction i with
  | zero =>
    refine ⟨rfl, rfl, ?_, ?_⟩
    · have : a.bit_position / 8 = 0 := by omega
      simp [this]
    · have : a.bit_position % 8 = a.bit_position := by omega
      simp [this]
  | succ i ih =>
    obtain ⟨h1, h2, h3, h4⟩ := ih
    rw [Function.iterate_succ_apply']
    have hlt : (skip_bit^[i] a).bit_position < 8 := by rw [h4]; omega
    obtain ⟨p1, p2⟩ := skip_bit_pos _ hlt
    obtain ⟨d1, d2⟩ := skip_bit_data (skip_bit^[i] a)
    refine ⟨by rw [d1, h1], by rw [d2, h2], ?_, ?_⟩
    · rw [p1, h3, h4]; omega
    · rw [p2, h4]; omega

/-- The value assembled from the first `m` bits, first bit least significant. -/
theorem bits_value_lt (a : dynamic_array) (m : Nat) :
    (∑ i in Finset.range m, nth_bit a i * 2 ^ i) < 2 ^ m := by
  induction m with
  | zero => simp
  | succ m ih =>
    rw [Finset.sum_range_succ, pow_succ]
    have hle : nth_bit a m ≤ 1 := pull_bit_fst_le _
    have : nth_bit a m * 2 ^ m ≤ 2 ^ m := by
      calc nth_bit a m * 2 ^ m ≤ 1 * 2 ^ m := Nat.mul_le_mul_right _ hle
        _ = 2 ^ m := by ring
    omega

theorem pull_bits_fold_lt (a : dynamic_array) (n : Nat) (hn : n ≤ 32) (m : Nat) (hm : m + 1 ≤ n) :
    (List.range m).foldl (pull_bits_step n ((1 <<< (n - 1)) % 4294967296)) (0, a) =
      (2 ^ (n - 1 - m) * ∑ i in Finset.range m, nth_bit a i * 2 ^ i, skip_bit^[m] a) := by
  have hadd : (1 <<< (n - 1)) % 4294967296 = 2 ^ (n - 1) := by
    rw [Nat.one_shiftLeft]
    apply Nat.mod_eq_of_lt
    calc 2 ^ (n - 1) < 2 ^ 32 := Nat.pow_lt_pow_right (by norm_num) (by omega)
      _ = 4294967296 := by norm_num
  rw [hadd]
  induction m with
  | zero => simp
  | succ m ih =>
    rw [List.range_succ, List.foldl_append, ih (by omega)]
    simp only [List.foldl_cons, List.foldl_nil]
    unfold pull_bits_step
    simp only
    rw [Function.iterate_succ_apply']
    have hV := bits_value_lt a m
    have hb : (pull_bit (skip_bit^[m] a)).1 = nth_bit a m := rfl
    have hle : nth_bit a m ≤ 1 := pull_bit_fst_le _
    have hsk : (pull_bit (skip_bit^[m] a)).2 = skip_bit (skip_bit^[m] a) := rfl
    rw [hsk, if_pos (by omega : m < n - 1), Finset.sum_range_succ, hb]
    congr 1
    have hp : 2 ^ (n - 1 - m) = 2 * 2 ^ (n - 1 - (m + 1)) := by
      rw [← pow_succ']; congr 1; omega
    have hq : 2 ^ (n - 1) = 2 ^ (n - 1 - m) * 2 ^ m := by
      rw [← pow_add]; congr 1; omega
    set V := ∑ i in Finset.range m, nth_bit a i * 2 ^ i with hVdef
    set P := 2 ^ (n - 1 - (m + 1)) with hP
    have hn32 : 2 ^ (n - 1) * 2 ≤ 4294967296 := by
      calc 2 ^ (n - 1) * 2 = 2 ^ (n - 1 + 1) := by rw [pow_succ]
        _ ≤ 2 ^ 32 := Nat.pow_le_pow_right (by norm_num) (by omega)
        _ = 4294967296 := by norm_num
    have hVb : 2 ^ (n - 1 - m) * V < 2 ^ (n - 1) := by
      rw [hq]; exact Nat.mul_lt_mul_of_pos_left hV (by positivity)
    rcases Nat.eq_zero_or_pos (nth_bit a m) with h0 | h1
    · rw [h0, if_neg (by omega)]
      rw [Nat.shiftRight_eq_div_pow, hp]
      simp only [pow_one, zero_mul, add_zero]
      rw [Nat.mul_assoc, Nat.mul_div_cancel_left _ (by norm_num : 0 < 2)]
    · have h1' : nth_bit a m = 1 := by omega
      rw [h1', if_pos (by omega)]
      rw [Nat.mod_eq_of_lt (by omega)]
      rw [Nat.shiftRight_eq_div_pow, hq, hp]
      simp only [pow_one, one_mul]
      have : 2 * P * V + 2 * P * 2 ^ m = 2 * (P * (V + 2 ^ m)) := by ring
      rw [this, Nat.mul_div_cancel_left _ (by norm_num : 0 < 2)]

theorem pull_bits_eq (a : dynamic_array) (n : Nat) (h1 : 1 ≤ n) (hn : n ≤ 32) :
    pull_bits a n = (∑ i in Finset.range n, nth_bit a i * 2 ^ i, skip_bit^[n] a) := by
  unfold pull_bits
  simp only
  obtain ⟨m, rfl⟩ : ∃ m, n = m + 1 := ⟨n - 1, by omega⟩
  rw [List.range_succ, List.foldl_append, pull_bits_fold_lt a (m + 1) hn m (le_refl _)]
  simp only [List.foldl_cons, List.foldl_nil]
  unfold pull_bits_step
  simp only
  have hadd : (1 <<< (m + 1 - 1)) % 4294967296 = 2 ^ m := by
    rw [Nat.one_shiftLeft]
    simp only [Nat.add_sub_cancel]
    apply Nat.mod_eq_of_lt
    calc 2 ^ m < 2 ^ 32 := Nat.pow_lt_pow_right (by norm_num) (by omega)
      _ = 4294967296 := by norm_num
  rw [hadd, Function.iterate_succ_apply', Finset.sum_range_succ]
  have hb : (pull_bit (skip_bit^[m] a)).1 = nth_bit a m := rfl
  have hsk : (pull_bit (skip_bit^[m] a)).2 = skip_bit (skip_bit^[m] a) := rfl
  have hle : nth_bit a m ≤ 1 := pull_bit_fst_le _
  have hV := bits_value_lt a m
  rw [hb, hsk, if_neg (by omega : ¬ m < m + 1 - 1)]
  congr 1
  have h0 : m + 1 - 1 - m = 0 := by omega
  rw [h0]
  simp only [pow_zero, one_mul]
  have hm32 : 2 ^ m * 2 ≤ 4294967296 := by
    calc 2 ^ m * 2 = 2 ^ (m + 1) := by rw [pow_succ]
      _ ≤ 2 ^ 32 := Nat.pow_le_pow_right (by norm_num) (by omega)
      _ = 4294967296 := by norm_num
  rcases Nat.eq_zero_or_pos (nth_bit a m) with h0 | h1
  · rw [h0, if_neg (by omega)]; simp
  · have h1' : nth_bit a m = 1 := by omega
    rw [h1', if_pos (by omega), Nat.mod_eq_of_lt (by omega)]; simp

/-- For `1 ≤ n ≤ 32`, `pull_bits arr n` returns the sum over `i < n` of `b_i * 2^i`,
where `b_i` is the bit returned by the `i`-th of `n` successive `pull_bit` calls, and
leaves the array exactly as those `n` calls leave it; when `n` bits are available,
`b_i` is bit `(bit_position + i) % 8` of the stored byte
`byte_position + (bit_position + i) / 8` (least significant bit of each byte first) and
the cursor ends `n` bits further. -/
theorem pull_bits_full (arr : dynamic_array) (n : Nat) (h1 : 1 ≤ n) (h32 : n ≤ 32)
    (hbit : arr.bit_position < 8) (hwf : arr.count ≤ arr.max_size)
    (havail : 8 * arr.byte_position + arr.bit_position + n ≤ 8 * arr.count) :
    (pull_bits arr n).1 = ∑ i in Finset.range n, nth_bit arr i * 2 ^ i ∧
    (pull_bits arr n).2 = skip_bit^[n] arr ∧
    (∀ i, i < n →
      arr.byte_position + (arr.bit_position + i) / 8 < arr.count ∧
      nth_bit arr i =
        (arr.data.getD (arr.byte_position + (arr.bit_position + i) / 8) 0
          / 2 ^ ((arr.bit_position + i) % 8)) % 2) ∧
    (pull_bits arr n).2.byte_position = arr.byte_position + (arr.bit_position + n) / 8 ∧
    (pull_bits arr n).2.bit_position = (arr.bit_position + n) % 8 ∧
    (pull_bits arr n).2.data = arr.data := by
  rw [pull_bits_eq arr n h1 h32]
  obtain ⟨e1, _, e3, e4⟩ := skip_bit_iterate arr hbit n
  refine ⟨rfl, rfl, ?_, e3, e4, e1⟩
  intro i hi
  obtain ⟨d1, d2, d3, d4⟩ := skip_bit_iterate arr hbit i
  have hidx : arr.byte_position + (arr.bit_position + i) / 8 < arr.count := by omega
  refine ⟨hidx, ?_⟩
  unfold nth_bit
  rw [pull_bit_fst _ (by rw [d4]; omega), d3, d4]
  unfold array_get
  rw [if_neg (by rw [d2]; omega), d1]

/-- C2: for `1 ≤ n ≤ 32`, `pull_bits arr n` returns the sum over `i < n` of `b_i * 2^i`,
where `b_i` is the bit returned by the `i`-th of `n` successive `pull_bit` calls, and
leaves the array exactly as those `n` calls leave it; when `n` bits are available,
`b_i` is bit `(bit_position + i) % 8` of the stored byte
`byte_position + (bit_position + i) / 8` (least significant bit of each byte first) and
the cursor ends `n` bits further. -/
theorem pull_bits_spec (arr : dynamic_array) (n : Nat) (h1 : 1 ≤ n) (h32 : n ≤ 32)
    (hbit : arr.bit_position < 8) (hwf : arr.count ≤ arr.max_size)
    (havail : 8 * arr.byte_position + arr.bit_position + n ≤ 8 * arr.count) :
    (pull_bits arr n).1 = ∑ i in Finset.range n, nth_bit arr i * 2 ^ i ∧
    (pull_bits arr n).2 = skip_bit^[n] arr ∧
    (∀ i, i < n →
      arr.byte_position + (arr.bit_position + i) / 8 < arr.count ∧
      nth_bit arr i =
        (arr.data.getD (arr.byte_position + (arr.bit_position + i) / 8) 0
          / 2 ^ ((arr.bit_position + i) % 8)) % 2) ∧
    (pull_bits arr n).2.byte_position = arr.byte_position + (arr.bit_position + n) / 8 ∧
    (pull_bits arr n).2.bit_position = (arr.bit_position + n) % 8 ∧
    (pull_bits arr n).2.data = arr.data :=
  pull_bits_full arr n h1 h32 hbit hwf havail

/-- C2 at a concrete cursor: 10 bits read from bit 3 of the first of the bytes `B5 01`. -/
theorem pull_bits_spec_witness :
    (pull_bits ⟨[181, 1], 25, 0, 3⟩ 10).1
        = ∑ i in Finset.range 10, nth_bit ⟨[181, 1], 25, 0, 3⟩ i * 2 ^ i ∧
    (pull_bits ⟨[181, 1], 25, 0, 3⟩ 10).1 = 54 :=
  ⟨(pull_bits_spec ⟨[181, 1], 25, 0, 3⟩ 10
      (by decide) (by decide) (by decide) (by decide) (by decide)).1, by decide⟩

/-! ## LZ77 back-references (`handle_length_copy`) -/

/-- The byte the copy loop appends at step `j`: the window of the last `d` bytes of
`out`, read cyclically. -/
theorem cyclic_index_lt (m d j : Nat) (hd1 : 1 ≤ d) (hd2 : d ≤ m) : m - d + j % d < m := by
  have := Nat.mod_lt j (by omega : d > 0)
  omega

theorem succ_mod_wrap (k d : Nat) (hw : k % d + 1 = d) : (k + 1) % d = 0 := by
  have h := Nat.div_add_mod k d
  have e : k + 1 = d * (k / d + 1) := by
    rw [Nat.mul_add, Nat.mul_one]; omega
  rw [e]; exact Nat.mul_mod_right _ _

theorem succ_mod_step (k d : Nat) (hw : k % d + 1 < d) : (k + 1) % d = k % d + 1 := by
  have h := Nat.div_add_mod k d
  have e : k + 1 = (k % d + 1) + d * (k / d) := by omega
  rw [e, Nat.add_mul_mod_self_left, Nat.mod_eq_of_lt hw]

theorem length_copy_loop_data (out0 : List Nat) (d : Nat) (hd1 : 1 ≤ d)
    (hd2 : d ≤ out0.length) (hm : out0.length < 2147483648) (n : Nat) :
    ∀ (k : Nat) (o : dynamic_array) (reads : List Int),
      o.data = out0 ++ (List.range k).map (fun j => out0.getD (out0.length - d + j % d) 0) →
      o.count ≤ o.max_size →
      (length_copy_loop (out0.length : Int) (d : Int) n o
          ((out0.length - d + k % d : Nat) : Int) reads).1.data
        = out0 ++ (List.range (k + n)).map (fun j => out0.getD (out0.length - d + j % d) 0) ∧
      (length_copy_loop (out0.length : Int) (d : Int) n o
          ((out0.length - d + k % d : Nat) : Int) reads).1.byte_position = o.byte_position ∧
      (length_copy_loop (out0.length : Int) (d : Int) n o
          ((out0.length - d + k % d : Nat) : Int) reads).1.bit_position = o.bit_position := by
  induction n with
  | zero =>
    intro k o reads ho _
    simp [length_copy_loop, ho]
  | succ n ih =>
    intro k o reads ho hwf
    have hlt := cyclic_index_lt out0.length d k hd1 hd2
    have hmod := Nat.mod_lt k (by omega : d > 0)
    unfold length_copy_loop
    simp only
    have hlen : o.data.length = out0.length + k := by
      rw [ho]; simp
    have hcount : o.count = out0.length + k := hlen
    have hget : array_get o (to_u64 ((out0.length - d + k % d : Nat) : Int))
        = out0.getD (out0.length - d + k % d) 0 := by
      rw [to_u64_of_nat _ (by omega), array_get_of_le _ _ (by omega), ho]
      rw [List.getD_append _ _ _ _ hlt]
    have hnext : (if ((out0.length - d + k % d : Nat) : Int) + 1 ≥ (out0.length : Int)
          then to_i32 ((out0.length : Int) - (d : Int))
          else ((out0.length - d + k % d : Nat) : Int) + 1)
        = ((out0.length - d + (k + 1) % d : Nat) : Int) := by
      by_cases hw : k % d + 1 = d
      · have h0 : (k + 1) % d = 0 := succ_mod_wrap k d hw
        rw [if_pos (by omega), to_i32_of_range _ (by omega) (by omega), h0]
        omega
      · have h1 : (k + 1) % d = k % d + 1 := succ_mod_step k d (by omega)
        rw [if_neg (by omega), h1]
        omega
    rw [hnext, hget]
    have hp := push_byte_data o (out0.getD (out0.length - d + k % d) 0)
    have hc := push_byte_cursor o (out0.getD (out0.length - d + k % d) 0)
    have hdata : (push_byte o (out0.getD (out0.length - d + k % d) 0)).data
        = out0 ++ (List.range (k + 1)).map
            (fun j => out0.getD (out0.length - d + j % d) 0) := by
      rw [hp, ho, List.range_succ, List.map_append, List.append_assoc]
      rfl
    obtain ⟨r1, r2, r3⟩ := ih (k + 1) _ (reads ++ [((out0.length - d + k % d : Nat) : Int)])
      hdata (push_byte_wf _ _ hwf)
    refine ⟨?_, ?_, ?_⟩
    · rw [r1]; congr 3; omega
    · rw [r2, hc.1]
    · rw [r3, hc.2]

theorem lz77_naive_eq (out0 : List Nat) (d : Nat) (hd1 : 1 ≤ d) (hd2 : d ≤ out0.length)
    (n : Nat) :
    ∀ k : Nat, lz77_naive d n
        (out0 ++ (List.range k).map (fun j => out0.getD (out0.length - d + j % d) 0))
      = out0 ++ (List.range (k + n)).map (fun j => out0.getD (out0.length - d + j % d) 0) := by
  induction n with
  | zero => intro k; simp [lz77_naive]
  | succ n ih =>
    intro k
    unfold lz77_naive
    have hstep : (out0 ++ (List.range k).map (fun j => out0.getD (out0.length - d + j % d) 0))
          ++ [(out0 ++ (List.range k).map
                (fun j => out0.getD (out0.length - d + j % d) 0)).getD
              ((out0 ++ (List.range k).map
                (fun j => out0.getD (out0.length - d + j % d) 0)).length - d) 0]
        = out0 ++ (List.range (k + 1)).map
            (fun j => out0.getD (out0.length - d + j % d) 0) := by
      rw [List.range_succ, List.map_append, List.append_assoc]
      congr 2
      simp only [List.length_append, List.length_map, List.length_range, List.map_cons,
        List.map_nil]
      congr 1
      rcases Nat.lt_or_ge k d with hk | hk
      · rw [List.getD_append _ _ _ _ (by omega), Nat.mod_eq_of_lt hk]
        congr 1; omega
      · rw [List.getD_append_right _ _ _ _ (by omega)]
        have hidx : out0.length + k - d - out0.length = k - d := by omega
        rw [hidx, List.getD_eq_getElem _ _ (by simp; omega)]
        simp only [List.getElem_map, List.getElem_range]
        congr 2
        conv_rhs => rw [← Nat.sub_add_cancel hk]
        rw [Nat.add_mod_right]
    rw [hstep, ih (k + 1)]
    congr 3; omega

theorem length_copy_run_ok (out : dynamic_array) (length : Int) (d : Nat)
    (hsize : out.count < 2147483648) (hd2 : d ≤ out.count) :
    length_copy_run out length (d : Int) = Except.ok
      (length_copy_loop (out.data.length : Int) (d : Int) length.toNat out
        ((out.data.length - d + 0 % d : Nat) : Int) []) := by
  unfold length_copy_run dynamic_array.count
  unfold dynamic_array.count at hsize hd2
  simp only
  rw [to_i32_of_range (out.data.length : Int) (by omega) (by omega)]
  rw [to_i32_of_range _ (by omega) (by omega)]
  rw [if_neg (by omega)]
  have e : ((out.data.length : Int) - (d : Int)) = ((out.data.length - d + 0 % d : Nat) : Int) := by
    simp only [Nat.zero_mod, Nat.add_zero]
    omega
  rw [e]

/-- C3: for `1 ≤ distance ≤ |out|`, `handle_length_copy` returns `out ++ r` with
`|r| = length`; the bytes of `out` are unchanged, every new byte is
`r[k] = (out ++ r)[|out| + k - distance]`, and the result is the naive LZ77 copy that
appends `output[cursor - distance]` one byte at a time, also when `length > distance`.
(`|out| < 2^31`, as `max` is an `int32_t`.) -/
theorem handle_length_copy_spec (out : dynamic_array) (length distance : Int)
    (hwf : out.count ≤ out.max_size) (hsize : out.count < 2147483648)
    (hlen : 0 ≤ length) (hd1 : 1 ≤ distance) (hd2 : distance ≤ out.count) :
    ∃ (res : dynamic_array) (r : List Nat),
      handle_length_copy out length distance = Except.ok res ∧
      res.data = out.data ++ r ∧ (r.length : Int) = length ∧
      (∀ k, k < r.length →
        r[k]? = (out.data ++ r)[out.count + k - distance.toNat]?) ∧
      res.data = lz77_naive distance.toNat length.toNat out.data ∧
      res.byte_position = out.byte_position ∧ res.bit_position = out.bit_position := by
  obtain ⟨d, rfl⟩ : ∃ d : Nat, distance = (d : Int) := ⟨distance.toNat, by omega⟩
  obtain ⟨n, rfl⟩ : ∃ n : Nat, length = (n : Int) := ⟨length.toNat, by omega⟩
  have hd1' : 1 ≤ d := by omega
  have hd2' : d ≤ out.data.length := by
    unfold dynamic_array.count at hd2; omega
  have hsize' : out.data.length < 2147483648 := hsize
  have hrun := length_copy_run_ok out (n : Int) d hsize (by omega)
  obtain ⟨l1, l2, l3⟩ := length_copy_loop_data out.data d hd1' hd2' hsize' n 0 out []
    (by simp) hwf
  simp only [Int.toNat_ofNat, Nat.zero_add] at l1 l2 l3 hrun ⊢
  refine ⟨_, (List.range n).map (fun j => out.data.getD (out.data.length - d + j % d) 0),
    ?_, l1, by simp, ?_, ?_, l2, l3⟩
  · unfold handle_length_copy
    rw [hrun]
  · intro k hk
    simp only [List.length_map, List.length_range] at hk
    unfold dynamic_array.count
    rw [List.getElem?_map, List.getElem?_range hk]
    simp only [Option.map_some']
    rcases Nat.lt_or_ge k d with hkd | hkd
    · rw [List.getElem?_append_left (by omega), Nat.mod_eq_of_lt hkd]
      rw [List.getD_eq_getElem _ _ (by omega), List.getElem?_eq_getElem (by omega)]
      congr 2; omega
    · rw [List.getElem?_append_right (by omega)]
      have hidx : out.data.length + k - d - out.data.length = k - d := by omega
      rw [hidx, List.getElem?_map, List.getElem?_range (by omega)]
      simp only [Option.map_some']
      congr 3
      conv_lhs => rw [← Nat.sub_add_cancel hkd]
      rw [Nat.add_mod_right]
  · rw [l1]
    have h := lz77_naive_eq out.data d hd1' hd2' n 0
    simp only [List.range_zero, List.map_nil, List.append_nil, Nat.zero_add] at h
    exact h.symm

/-- C3 on the output `1 2 3` with `length = 7` and `distance = 2`. -/
theorem handle_length_copy_spec_witness :
    ∃ (res : dynamic_array) (r : List Nat),
      handle_length_copy ⟨[1, 2, 3], 25, 0, 0⟩ 7 2 = Except.ok res ∧
      res.data = [1, 2, 3] ++ r ∧ (r.length : Int) = 7 ∧
      (∀ k, k < r.length → r[k]? = ([1, 2, 3] ++ r)[3 + k - 2]?) ∧
      res.data = lz77_naive 2 7 [1, 2, 3] ∧
      res.byte_position = 0 ∧ res.bit_position = 0 :=
  handle_length_copy_spec ⟨[1, 2, 3], 25, 0, 0⟩ 7 2
    (by decide) (by decide) (by decide) (by decide) (by decide)

/-! ## Back-references before the start of the output -/

theorem length_copy_loop_reads_nonneg (max distance : Int)
    (hreset : 0 ≤ to_i32 (max - distance)) (n : Nat) :
    ∀ (o : dynamic_array) (cp : Int) (reads : List Int),
      0 ≤ cp → (∀ p ∈ reads, 0 ≤ p) →
      ∀ p ∈ (length_copy_loop max distance n o cp reads).2, 0 ≤ p := by
  induction n with
  | zero =>
    intro o cp reads _ hr
    simpa [length_copy_loop] using hr
  | succ n ih =>
    intro o cp reads hcp hr
    unfold length_copy_loop
    simp only
    apply ih
    · split
      · exact hreset
      · omega
    · intro p hp
      rcases List.mem_append.mp hp with h | h
      · exact hr p h
      · simp only [List.mem_singleton] at h
        omega

/-- C7: `handle_length_copy` fails (aborts, returning no output) if and only if
`distance > |out|`, i.e. exactly when the source position `|out| - distance` lies before
the start of the output; when it does not fail, no position it reads is negative.
(`|out|` and `distance` are `int32_t` values whose difference does not overflow.) -/
theorem handle_length_copy_fails_iff (out : dynamic_array) (length distance : Int)
    (hsize : out.count < 2147483648) (hd : distance < 2147483648)
    (hsub : (out.count : Int) - distance < 2147483648) :
    (handle_length_copy out length distance = Except.error Err.aborted ↔
      distance > out.count) ∧
    (∀ e, handle_length_copy out length distance = Except.error e → e = Err.aborted) ∧
    (∀ p ∈ length_copy_reads out length distance, 0 ≤ p) := by
  have hmax : to_i32 (out.count : Int) = out.count := to_i32_of_range _ (by omega) (by omega)
  have hcp : to_i32 ((out.count : Int) - distance) = out.count - distance :=
    to_i32_of_range _ (by omega) (by omega)
  by_cases hlt : distance > out.count
  · have hrun : length_copy_run out length distance = Except.error Err.aborted := by
      unfold length_copy_run
      simp only
      rw [hmax, hcp, if_pos (by omega)]
    refine ⟨?_, ?_, ?_⟩
    · unfold handle_length_copy
      rw [hrun]
      simp [hlt]
    · intro e he
      unfold handle_length_copy at he
      rw [hrun] at he
      simp only [Except.error.injEq] at he
      exact he.symm
    · unfold length_copy_reads
      rw [hrun]
      simp
  · have hrun : length_copy_run out length distance = Except.ok
        (length_copy_loop (out.count : Int) distance length.toNat out
          ((out.count : Int) - distance) []) := by
      unfold length_copy_run
      simp only
      rw [hmax, hcp, if_neg (by omega)]
    refine ⟨?_, ?_, ?_⟩
    · unfold handle_length_copy
      rw [hrun]
      simp [hlt]
    · intro e he
      unfold handle_length_copy at he
      rw [hrun] at he
      simp at he
    · unfold length_copy_reads
      rw [hrun]
      simp only
      apply length_copy_loop_reads_nonneg _ _ (by rw [hcp]; omega) _ _ _ _ (by omega)
      simp

/-- C7 on the output `1 2 3` with `distance = 4`: the copy aborts. -/
theorem handle_length_copy_fails_iff_witness :
    handle_length_copy ⟨[1, 2, 3], 25, 0, 0⟩ 7 4 = Except.error Err.aborted :=
  (handle_length_copy_fails_iff ⟨[1, 2, 3], 25, 0, 0⟩ 7 4
    (by decide) (by decide) (by decide)).1.mpr (by decide)

/-! ## Defiltering (`handle_filter`) -/

theorem paeth_nonneg (a b c : Int) (ha : 0 ≤ a) (hb : 0 ≤ b) (hc : 0 ≤ c) :
    0 ≤ paeth a b c := by
  unfold paeth
  simp only
  split
  · exact ha
  · split
    · exact hb
    · exact hc

theorem to_u8_cast (z : Int) : ((to_u8 z : Nat) : Int) = z % 256 := by
  unfold to_u8
  omega

/-- One step of the inner loop appends the byte of the filter type, computed from the
bytes already in the pixel buffer. -/
theorem filter_step_data (bpp : Nat) (os pd : dynamic_array) (n y p q i f : Nat)
    (hbpp : 1 ≤ bpp) (hos : os.count ≤ os.max_size) (hpd : pd.count ≤ pd.max_size)
    (hS : p + i + 1 < os.data.length) (hlen : pd.data.length = q + i)
    (hq : y > 0 → n ≤ q) (hf : f ≤ 4) (hx : os.data.getD (p + i + 1) 0 < 256)
    (hb1 : p + i + 1 < 2147483648) (hb2 : q + i < 2147483648) :
    ∃ v : Nat,
      (filter_step bpp os (n : Int) (y : Int) (p : Int) (q : Int) f pd i).data
        = pd.data ++ [v] ∧
      (filter_step bpp os (n : Int) (y : Int) (p : Int) (q : Int) f pd i).count
        ≤ (filter_step bpp os (n : Int) (y : Int) (p : Int) (q : Int) f pd i).max_size ∧
      (v : Int) = ((os.data.getD (p + i + 1) 0 : Int) + spec_predictor f
          (if i ≥ bpp then (pd.data.getD (q + i - bpp) 0 : Int) else 0)
          (if y > 0 then (pd.data.getD (q + i - n) 0 : Int) else 0)
          (if i ≥ bpp ∧ y > 0 then (pd.data.getD (q + i - n - bpp) 0 : Int) else 0)) % 256 := by
  have hcount : pd.count = q + i := hlen
  have hocount : os.count = os.data.length := rfl
  have ex : array_get os (to_u64 ((p : Int) + (i : Int) + 1)) = os.data.getD (p + i + 1) 0 := by
    have e : ((p : Int) + (i : Int) + 1) = ((p + i + 1 : Nat) : Int) := by push_cast; ring
    rw [e, to_u64_of_nat _ (by omega), array_get_of_le _ _ (by omega)]
  have ea : (if (i : Int) ≥ (bpp : Int) then
        array_get pd (to_u64 ((q : Int) + (i : Int) - (bpp : Int))) else 0)
      = (if i ≥ bpp then pd.data.getD (q + i - bpp) 0 else 0) := by
    by_cases h : i ≥ bpp
    · have e : ((q : Int) + (i : Int) - (bpp : Int)) = ((q + i - bpp : Nat) : Int) := by omega
      rw [if_pos (by omega), if_pos h, e, to_u64_of_nat _ (by omega),
        array_get_of_le _ _ (by omega)]
    · rw [if_neg (by omega), if_neg h]
  have eb : (if (y : Int) > 0 then
        array_get pd (to_u64 ((q : Int) + (i : Int) - (n : Int))) else 0)
      = (if y > 0 then pd.data.getD (q + i - n) 0 else 0) := by
    by_cases h : y > 0
    · have hn := hq h
      have e : ((q : Int) + (i : Int) - (n : Int)) = ((q + i - n : Nat) : Int) := by omega
      rw [if_pos (by omega), if_pos h, e, to_u64_of_nat _ (by omega),
        array_get_of_le _ _ (by omega)]
    · rw [if_neg (by omega), if_neg h]
  have ec : (if (i : Int) ≥ (bpp : Int) ∧ (y : Int) > 0 then
        array_get pd (to_u64 ((q : Int) + (i : Int) - (n : Int) - (bpp : Int))) else 0)
      = (if i ≥ bpp ∧ y > 0 then pd.data.getD (q + i - n - bpp) 0 else 0) := by
    by_cases h : i ≥ bpp ∧ y > 0
    · have hn := hq h.2
      have e : ((q : Int) + (i : Int) - (n : Int) - (bpp : Int))
          = ((q + i - n - bpp : Nat) : Int) := by omega
      rw [if_pos (by omega), if_pos h, e, to_u64_of_nat _ (by omega),
        array_get_of_le _ _ (by omega)]
    · rw [if_neg (by omega), if_neg h]
  unfold filter_step
  simp only
  rw [ex, ea, eb, ec]
  generalize os.data.getD (p + i + 1) 0 = x at hx ⊢
  have hwf : ∀ v, (push_byte pd v).count ≤ (push_byte pd v).max_size :=
    fun v => push_byte_wf pd v hpd
  have hab : ∀ a b : Nat, (((a + b) / 2 : Nat) : Int) = ((a : Int) + (b : Int)) / 2 := by
    intro a b; omega
  interval_cases f
  · exact ⟨x, push_byte_data _ _, hwf _, by simp only [spec_predictor]; omega⟩
  · refine ⟨_, push_byte_data _ _, hwf _, ?_⟩
    rw [to_u8_cast]; simp only [spec_predictor]; push_cast; rfl
  · refine ⟨_, push_byte_data _ _, hwf _, ?_⟩
    rw [to_u8_cast]; simp only [spec_predictor]; push_cast; rfl
  · refine ⟨_, push_byte_data _ _, hwf _, ?_⟩
    rw [to_u8_cast]; simp only [spec_predictor]; rw [Nat.cast_add, hab]; push_cast; rfl
  · refine ⟨_, push_byte_data _ _, hwf _, ?_⟩
    rw [to_u8_cast]; simp only [spec_predictor]; push_cast; rfl

theorem row_index_unique (n y y' i i' : Nat) (hi : i < n) (hi' : i' < n)
    (h : y' * n + i' = y * n + i) : y' = y ∧ i' = i := by
  rcases Nat.lt_trichotomy y' y with hlt | heq | hgt
  · exfalso
    have h1 : (y' + 1) * n ≤ y * n := Nat.mul_le_mul_right n hlt
    rw [Nat.succ_mul] at h1
    omega
  · subst heq
    exact ⟨rfl, by omega⟩
  · exfalso
    have h1 : (y + 1) * n ≤ y' * n := Nat.mul_le_mul_right n hgt
    rw [Nat.succ_mul] at h1
    omega

theorem spec_byte_append (S P Q : List Nat) (n bpp y i : Nat) (hbpp : 1 ≤ bpp) (hi : i < n)
    (hP : y * n + i ≤ P.length) :
    spec_byte S (P ++ Q) n bpp y i = spec_byte S P n bpp y i := by
  have hb : y > 0 → (y - 1) * n + i < P.length := by
    intro hy
    obtain ⟨y0, rfl⟩ : ∃ y0, y = y0 + 1 := ⟨y - 1, by omega⟩
    rw [Nat.succ_mul] at hP
    simp only [Nat.add_sub_cancel]
    omega
  have ea : (if i ≥ bpp then ((P ++ Q).getD (y * n + i - bpp) 0 : Int) else 0)
      = (if i ≥ bpp then (P.getD (y * n + i - bpp) 0 : Int) else 0) := by
    by_cases h : i ≥ bpp
    · rw [if_pos h, if_pos h, List.getD_append _ _ _ _ (by omega)]
    · rw [if_neg h, if_neg h]
  have eb : (if y > 0 then ((P ++ Q).getD ((y - 1) * n + i) 0 : Int) else 0)
      = (if y > 0 then (P.getD ((y - 1) * n + i) 0 : Int) else 0) := by
    by_cases h : y > 0
    · rw [if_pos h, if_pos h, List.getD_append _ _ _ _ (hb h)]
    · rw [if_neg h, if_neg h]
  have ec : (if i ≥ bpp ∧ y > 0 then ((P ++ Q).getD ((y - 1) * n + i - bpp) 0 : Int) else 0)
      = (if i ≥ bpp ∧ y > 0 then (P.getD ((y - 1) * n + i - bpp) 0 : Int) else 0) := by
    by_cases h : i ≥ bpp ∧ y > 0
    · have := hb h.2
      rw [if_pos h, if_pos h, List.getD_append _ _ _ _ (by omega)]
    · rw [if_neg h, if_neg h]
  unfold spec_byte
  simp only
  rw [ea, eb, ec]

theorem filter_inv_snoc (S P : List Nat) (n bpp y i : Nat) (hbpp : 1 ≤ bpp) (hi : i < n)
    (hlen : P.length = y * n + i) (hinv : filter_inv S P n bpp (y * n + i)) (v : Nat)
    (hv : (v : Int) = spec_byte S P n bpp y i) :
    filter_inv S (P ++ [v]) n bpp (y * n + (i + 1)) := by
  intro y' i' hi' hlt
  rcases Nat.lt_or_ge (y' * n + i') (y * n + i) with h | h
  · rw [List.getD_append _ _ _ _ (by omega), spec_byte_append S P [v] n bpp y' i' hbpp hi'
      (by omega)]
    exact hinv y' i' hi' h
  · obtain ⟨rfl, rfl⟩ := row_index_unique n y y' i i' hi hi' (by omega)
    rw [List.getD_append_right _ _ _ _ (by omega), hlen, Nat.sub_self,
      spec_byte_append S P [v] n bpp y' i' hbpp hi' (by omega)]
    simpa using hv

/-- The inner loop on scanline `y`: `m` more bytes of the specification. -/
theorem filter_row_inv (bpp n y : Nat) (os : dynamic_array) (hbpp : 1 ≤ bpp)
    (hos : os.count ≤ os.max_size) (hrow : (y + 1) * (1 + n) ≤ os.data.length)
    (hbytes : ∀ v ∈ os.data, v < 256) (hf : os.data.getD (y * (1 + n)) 0 ≤ 4)
    (hsize : (y + 1) * (1 + n) < 2147483648) (m : Nat) (hm : m ≤ n) :
    ∀ pd : dynamic_array, pd.count ≤ pd.max_size → pd.data.length = y * n →
      filter_inv os.data pd.data n bpp (y * n) →
      ((List.range m).foldl (filter_step bpp os (n : Int) (y : Int) ((y * (1 + n) : Nat) : Int)
          ((y * n : Nat) : Int) (os.data.getD (y * (1 + n)) 0)) pd).count
        ≤ ((List.range m).foldl (filter_step bpp os (n : Int) (y : Int)
            ((y * (1 + n) : Nat) : Int) ((y * n : Nat) : Int)
            (os.data.getD (y * (1 + n)) 0)) pd).max_size ∧
      ((List.range m).foldl (filter_step bpp os (n : Int) (y : Int) ((y * (1 + n) : Nat) : Int)
          ((y * n : Nat) : Int) (os.data.getD (y * (1 + n)) 0)) pd).data.length = y * n + m ∧
      filter_inv os.data
        ((List.range m).foldl (filter_step bpp os (n : Int) (y : Int)
          ((y * (1 + n) : Nat) : Int) ((y * n : Nat) : Int)
          (os.data.getD (y * (1 + n)) 0)) pd).data n bpp (y * n + m) := by
  induction m with
  | zero =>
    intro pd hwf hlen hinv
    exact ⟨hwf, hlen, hinv⟩
  | succ m ih =>
    intro pd hwf hlen hinv
    obtain ⟨w1, l1, i1⟩ := ih (by omega) pd hwf hlen hinv
    rw [List.range_succ, List.foldl_append]
    simp only [List.foldl_cons, List.foldl_nil]
    generalize (List.range m).foldl (filter_step bpp os (n : Int) (y : Int)
      ((y * (1 + n) : Nat) : Int) ((y * n : Nat) : Int) (os.data.getD (y * (1 + n)) 0)) pd
      = pm at w1 l1 i1 ⊢
    have e1 : (y + 1) * (1 + n) = y * (1 + n) + 1 + n := by ring
    have e2 : y * (1 + n) = y + y * n := by ring
    have hidx : y * (1 + n) + m + 1 < os.data.length := by omega
    have hxb : os.data.getD (y * (1 + n) + m + 1) 0 < 256 := by
      rw [List.getD_eq_getElem _ _ hidx]
      exact hbytes _ (List.getElem_mem _)
    obtain ⟨v, hd, hw, hv⟩ := filter_step_data bpp os pm n y (y * (1 + n)) (y * n) m
      (os.data.getD (y * (1 + n)) 0) hbpp hos w1 hidx l1
      (by
        intro hy
        obtain ⟨y0, rfl⟩ : ∃ y0, y = y0 + 1 := ⟨y - 1, by omega⟩
        rw [Nat.succ_mul]; omega)
      hf hxb (by omega) (by omega)
    refine ⟨hw, ?_, ?_⟩
    · rw [hd, List.length_append, l1]; simp; omega
    · rw [hd]
      apply filter_inv_snoc os.data pm.data n bpp y m hbpp (by omega) l1 i1 v
      rw [hv]
      unfold spec_byte
      simp only
      have hbq : y > 0 → y * n + m - n = (y - 1) * n + m := by
        intro hy
        obtain ⟨y0, rfl⟩ : ∃ y0, y = y0 + 1 := ⟨y - 1, by omega⟩
        rw [Nat.succ_mul]; simp only [Nat.add_sub_cancel]; omega
      have e3 : y * (1 + n) + m + 1 = y * (1 + n) + 1 + m := by omega
      rw [e3]
      congr 3
      · by_cases h : y > 0
        · rw [if_pos h, if_pos h, hbq h]
        · rw [if_neg h, if_neg h]
      · by_cases h : m ≥ bpp ∧ y > 0
        · rw [if_pos h, if_pos h, hbq h.2]
        · rw [if_neg h, if_neg h]

theorem filter_scanline_eq (bpp n y : Nat) (os pd : dynamic_array)
    (hos : os.count ≤ os.max_size) (hrow : (y + 1) * (1 + n) ≤ os.data.length)
    (hsize : (y + 1) * (1 + n) < 2147483648) :
    filter_scanline bpp os (n : Int) pd y =
      (List.range n).foldl (filter_step bpp os (n : Int) (y : Int) ((y * (1 + n) : Nat) : Int)
        ((y * n : Nat) : Int) (os.data.getD (y * (1 + n)) 0)) pd := by
  have e1 : (y + 1) * (1 + n) = y * (1 + n) + 1 + n := by ring
  have e2 : y * (1 + n) = y + y * n := by ring
  have hp : to_i32 ((y : Int) * (n : Int) + (y : Int)) = ((y * (1 + n) : Nat) : Int) := by
    have e : ((y : Int) * (n : Int) + (y : Int)) = ((y * (1 + n) : Nat) : Int) := by
      push_cast; ring
    rw [e, to_i32_of_range _ (by omega) (by omega)]
  have hq : to_i32 ((y : Int) * (n : Int)) = ((y * n : Nat) : Int) := by
    have e : ((y : Int) * (n : Int)) = ((y * n : Nat) : Int) := by push_cast; ring
    rw [e, to_i32_of_range _ (by omega) (by omega)]
  unfold filter_scanline
  simp only
  rw [hp, hq, to_u64_of_nat _ (by omega), array_get_of_le _ _ (by
    have : os.count = os.data.length := rfl
    omega), Int.toNat_ofNat]

/-- The outer loop: after `h` scanlines the pixel buffer holds `h * n` bytes, each the
byte of the specification. -/
theorem filter_rows_inv (bpp n H : Nat) (os : dynamic_array) (hbpp : 1 ≤ bpp)
    (hos : os.count ≤ os.max_size) (hlen : os.data.length = H * (1 + n))
    (hbytes : ∀ v ∈ os.data, v < 256)
    (hfilter : ∀ y, y < H → os.data.getD (y * (1 + n)) 0 ≤ 4)
    (hsize : H * (1 + n) < 2147483648) (pd : dynamic_array) (hpd : pd.data = []) (h : Nat)
    (hh : h ≤ H) :
    ((List.range h).foldl (filter_scanline bpp os (n : Int)) pd).count
      ≤ ((List.range h).foldl (filter_scanline bpp os (n : Int)) pd).max_size ∧
    ((List.range h).foldl (filter_scanline bpp os (n : Int)) pd).data.length = h * n ∧
    filter_inv os.data ((List.range h).foldl (filter_scanline bpp os (n : Int)) pd).data
      n bpp (h * n) := by
  induction h with
  | zero =>
    refine ⟨?_, ?_, ?_⟩
    · simp [dynamic_array.count, hpd]
    · simp [hpd]
    · intro y i _ hlt
      simp at hlt
  | succ h ih =>
    obtain ⟨w1, l1, i1⟩ := ih (by omega)
    rw [List.range_succ, List.foldl_append]
    simp only [List.foldl_cons, List.foldl_nil]
    generalize (List.range h).foldl (filter_scanline bpp os (n : Int)) pd = ph at w1 l1 i1 ⊢
    have hmul : (h + 1) * (1 + n) ≤ H * (1 + n) := Nat.mul_le_mul_right _ hh
    rw [filter_scanline_eq bpp n h os ph hos (by omega) (by omega)]
    obtain ⟨w2, l2, i2⟩ := filter_row_inv bpp n h os hbpp hos (by omega) hbytes
      (hfilter h (by omega)) (by omega) n (le_refl n) ph w1 l1 i1
    refine ⟨w2, ?_, ?_⟩
    · rw [l2, Nat.succ_mul]
    · rw [Nat.succ_mul]; exact i2

theorem handle_filter_data (cur : png) (os : dynamic_array) (W H : Nat)
    (hw : cur.w = W) (hh : cur.h = H) (hsize : H * (1 + W * cur.bytes_per_pixel) < 2147483648)
    (hH : 0 < H) :
    (handle_filter cur os).pixel_data.data =
      ((List.range H).foldl (filter_scanline cur.bytes_per_pixel os
        ((W * cur.bytes_per_pixel : Nat) : Int)) cur.pixel_data).data := by
  have h1 : 1 * (1 + W * cur.bytes_per_pixel) ≤ H * (1 + W * cur.bytes_per_pixel) :=
    Nat.mul_le_mul_right _ hH
  unfold handle_filter
  simp only
  rw [hw, hh, Int.toNat_ofNat]
  have e : ((W : Int) * (cur.bytes_per_pixel : Int)) = ((W * cur.bytes_per_pixel : Nat) : Int) := by
    push_cast; ring
  rw [e, to_i32_of_range _ (by omega) (by omega)]

/-- C4: on an inflated stream `S` of `H` scanlines of `1 + W * bpp` bytes with filter
bytes in `0..4`, `handle_filter` started on an empty pixel buffer produces `P` with
`P[y*W*bpp + i] = (x + pred) mod 256` for all `y < H`, `i < W * bpp`, where
`x = S[y*(1+W*bpp)+1+i]`, `a`, `b`, `c` are the bytes of `P` to the left, above and
above-left (0 outside the image) and `pred` is 0, `a`, `b`, `floor((a+b)/2)`,
`Paeth(a, b, c)` for the filter types 0 to 4. -/
theorem handle_filter_spec (cur : png) (os : dynamic_array) (W H : Nat)
    (hw : cur.w = W) (hh : cur.h = H)
    (hbpp : cur.bytes_per_pixel = 3 ∨ cur.bytes_per_pixel = 4)
    (hempty : cur.pixel_data.data = []) (hos : os.count ≤ os.max_size)
    (hlen : os.data.length = H * (1 + W * cur.bytes_per_pixel))
    (hbytes : ∀ v ∈ os.data, v < 256)
    (hfilter : ∀ y, y < H → os.data.getD (y * (1 + W * cur.bytes_per_pixel)) 0 ≤ 4)
    (hsize : H * (1 + W * cur.bytes_per_pixel) < 2147483648)
    (y i : Nat) (hy : y < H) (hi : i < W * cur.bytes_per_pixel) :
    let bpp := cur.bytes_per_pixel
    let S := os.data
    let P := (handle_filter cur os).pixel_data.data
    let x : Int := S.getD (y * (1 + W * bpp) + 1 + i) 0
    let a : Int := if i ≥ bpp then P.getD (y * (W * bpp) + i - bpp) 0 else 0
    let b : Int := if y > 0 then P.getD ((y - 1) * (W * bpp) + i) 0 else 0
    let c : Int := if i ≥ bpp ∧ y > 0 then P.getD ((y - 1) * (W * bpp) + i - bpp) 0 else 0
    let pred : Int :=
      match S.getD (y * (1 + W * bpp)) 0 with
      | 0 => 0
      | 1 => a
      | 2 => b
      | 3 => (a + b) / 2
      | 4 => paeth a b c
      | _ => 0
    y * (W * bpp) + i < P.length ∧ (P.getD (y * (W * bpp) + i) 0 : Int) = (x + pred) % 256 := by
  intro bpp S P x a b c pred
  have hbpp1 : 1 ≤ cur.bytes_per_pixel := by omega
  obtain ⟨_, l1, i1⟩ := filter_rows_inv cur.bytes_per_pixel (W * cur.bytes_per_pixel) H os
    hbpp1 hos hlen hbytes hfilter hsize cur.pixel_data hempty H (le_refl H)
  rw [← handle_filter_data cur os W H hw hh hsize (by omega)] at l1 i1
  have hmul : (y + 1) * (W * cur.bytes_per_pixel) ≤ H * (W * cur.bytes_per_pixel) :=
    Nat.mul_le_mul_right _ hy
  rw [Nat.succ_mul] at hmul
  have hlt : y * (W * bpp) + i < P.length := by
    show y * (W * cur.bytes_per_pixel) + i < (handle_filter cur os).pixel_data.data.length
    omega
  refine ⟨hlt, ?_⟩
  have hspec := i1 y i hi (by omega)
  have hpred : pred = spec_predictor (S.getD (y * (1 + W * bpp)) 0) a b c := by
    have hf := hfilter y hy
    show (match os.data.getD (y * (1 + W * cur.bytes_per_pixel)) 0 with
      | 0 => 0
      | 1 => a
      | 2 => b
      | 3 => (a + b) / 2
      | 4 => paeth a b c
      | _ => 0) = spec_predictor (os.data.getD (y * (1 + W * cur.bytes_per_pixel)) 0) a b c
    generalize os.data.getD (y * (1 + W * cur.bytes_per_pixel)) 0 = f at hf
    interval_cases f <;> rfl
  rw [hpred]
  exact hspec

/-- C4 on the 1x2 RGBA example: `S = 00 10 20 30 40 02 01 02 03 04` gives
`10 20 30 40 11 22 33 44`. -/
theorem handle_filter_spec_witness :
    (1 * (1 * 4) + 2 <
      (handle_filter ⟨create_array, create_array, 1, 2, 4, 0, 6, 0, 0, 0, 1⟩
        ⟨[0, 16, 32, 48, 64, 2, 1, 2, 3, 4], 10025, 0, 0⟩).pixel_data.data.length) ∧
    (handle_filter ⟨create_array, create_array, 1, 2, 4, 0, 6, 0, 0, 0, 1⟩
        ⟨[0, 16, 32, 48, 64, 2, 1, 2, 3, 4], 10025, 0, 0⟩).pixel_data.data
      = [16, 32, 48, 64, 17, 34, 51, 68] :=
  ⟨(handle_filter_spec ⟨create_array, create_array, 1, 2, 4, 0, 6, 0, 0, 0, 1⟩
      ⟨[0, 16, 32, 48, 64, 2, 1, 2, 3, 4], 10025, 0, 0⟩ 1 2 rfl rfl (by decide) rfl
      (by decide) (by decide) (by decide) (by decide) (by decide) 1 2 (by decide)
      (by decide)).1, by decide⟩

/-- C5: for a valid input (`bpp` 3 or 4, inflated stream of `H * (1 + W * bpp)` bytes,
every filter byte in `0..4`), the pixel buffer that `handle_filter` produces from an
empty buffer has exactly `W * H * bpp` bytes. -/
theorem handle_filter_length (cur : png) (os : dynamic_array) (W H : Nat)
    (hw : cur.w = W) (hh : cur.h = H)
    (hbpp : cur.bytes_per_pixel = 3 ∨ cur.bytes_per_pixel = 4)
    (hempty : cur.pixel_data.data = []) (hos : os.count ≤ os.max_size)
    (hlen : os.data.length = H * (1 + W * cur.bytes_per_pixel))
    (hbytes : ∀ v ∈ os.data, v < 256)
    (hfilter : ∀ y, y < H → os.data.getD (y * (1 + W * cur.bytes_per_pixel)) 0 ≤ 4)
    (hsize : H * (1 + W * cur.bytes_per_pixel) < 2147483648) :
    (handle_filter cur os).pixel_data.count = W * H * cur.bytes_per_pixel := by
  have hbpp1 : 1 ≤ cur.bytes_per_pixel := by omega
  rcases Nat.eq_zero_or_pos H with h0 | hpos
  · subst h0
    unfold handle_filter dynamic_array.count
    simp only
    rw [hh]
    simp [hempty]
  · obtain ⟨_, l1, _⟩ := filter_rows_inv cur.bytes_per_pixel (W * cur.bytes_per_pixel) H os
      hbpp1 hos hlen hbytes hfilter hsize cur.pixel_data hempty H (le_refl H)
    rw [← handle_filter_data cur os W H hw hh hsize hpos] at l1
    unfold dynamic_array.count
    rw [l1]
    ring

/-- C5 on the 2x2 RGB stream `00 00 00 00 FF FF FF 01 FF FF FF 01 01 01`: 12 bytes. -/
theorem handle_filter_length_witness :
    (handle_filter ⟨create_array, create_array, 2, 2, 3, 0, 2, 0, 0, 0, 1⟩
      ⟨[0, 0, 0, 0, 255, 255, 255, 1, 255, 255, 255, 1, 1, 1], 10025, 0, 0⟩).pixel_data.count
      = 2 * 2 * 3 :=
  handle_filter_length ⟨create_array, create_array, 2, 2, 3, 0, 2, 0, 0, 0, 1⟩
    ⟨[0, 0, 0, 0, 255, 255, 255, 1, 255, 255, 255, 1, 1, 1], 10025, 0, 0⟩ 2 2 rfl rfl
    (by decide) rfl (by decide) (by decide) (by decide) (by decide) (by decide)

/-! ## The IHDR chunk (`handle_IHDR`) -/

theorem fread_of_le (f : FILE) (n : Nat) (h : f.pos + n ≤ f.bytes.length) :
    (fread f n).1 = (f.bytes.drop f.pos).take n ∧ (fread f n).1.length = n ∧
    (fread f n).2.bytes = f.bytes ∧ (fread f n).2.pos = f.pos + n := by
  have hl : ((f.bytes.drop f.pos).take n).length = n := by
    rw [List.length_take, List.length_drop]; omega
  refine ⟨rfl, hl, rfl, ?_⟩
  show f.pos + ((f.bytes.drop f.pos).take n).length = f.pos + n
  rw [hl]

theorem fread_one_getD (f : FILE) (h : f.pos + 1 ≤ f.bytes.length) :
    (fread f 1).1.getD 0 0 = f.bytes.getD f.pos 0 := by
  rw [(fread_of_le f 1 h).1]
  rw [List.getD_eq_getElem _ _ (by rw [List.length_take, List.length_drop]; omega)]
  rw [List.getD_eq_getElem _ _ (by omega)]
  simp

theorem check_IHDR_fst (p : png) :
    ((check_IHDR p).1 = 1 ↔
      p.bytes_per_pixel = 8 ∧ (p.color_type = 2 ∨ p.color_type = 6) ∧ p.interlace_method = 0) ∧
    ((check_IHDR p).1 = 0 ∨ (check_IHDR p).1 = 1) := by
  unfold check_IHDR
  by_cases h1 : p.color_type ≠ 2 ∧ p.color_type ≠ 6
  · rw [if_pos h1]
    refine ⟨⟨fun h => by simp at h, fun h => by omega⟩, Or.inl rfl⟩
  · rw [if_neg h1]
    by_cases h2 : p.bytes_per_pixel ≠ 8
    · rw [if_pos h2]
      refine ⟨⟨fun h => by simp at h, fun h => by omega⟩, Or.inl rfl⟩
    · rw [if_neg h2]
      by_cases h3 : p.interlace_method ≠ 0
      · rw [if_pos h3]
        refine ⟨⟨fun h => by simp at h, fun h => by omega⟩, Or.inl rfl⟩
      · rw [if_neg h3]
        refine ⟨⟨fun _ => by omega, fun _ => rfl⟩, Or.inr rfl⟩

/-- With 13 bytes to read, `handle_IHDR` returns what `check_IHDR` returns on the struct
holding the fields of the header. -/
theorem handle_IHDR_fst (host : Host) (p : png) (length : Int) (f : FILE)
    (h : f.pos + 13 ≤ f.bytes.length) :
    ∃ w h : Int, (handle_IHDR host p length f).1 = (check_IHDR
      { p with w := w, h := h, bytes_per_pixel := f.bytes.getD (f.pos + 8) 0,
               color_type := f.bytes.getD (f.pos + 9) 0,
               compression_method := f.bytes.getD (f.pos + 10) 0,
               filter_method := f.bytes.getD (f.pos + 11) 0,
               interlace_method := f.bytes.getD (f.pos + 12) 0 }).1 := by
  obtain ⟨_, a1, b1, c1⟩ := fread_of_le f 4 (by omega)
  obtain ⟨_, a2, b2, c2⟩ := fread_of_le (fread f 4).2 4 (by rw [b1, c1]; omega)
  obtain ⟨_, a3, b3, c3⟩ := fread_of_le (fread (fread f 4).2 4).2 1
    (by rw [b2, c2, b1, c1]; omega)
  have g3 := fread_one_getD (fread (fread f 4).2 4).2 (by rw [b2, c2, b1, c1]; omega)
  obtain ⟨_, a4, b4, c4⟩ := fread_of_le (fread (fread (fread f 4).2 4).2 1).2 1
    (by rw [b3, c3, b2, c2, b1, c1]; omega)
  have g4 := fread_one_getD (fread (fread (fread f 4).2 4).2 1).2
    (by rw [b3, c3, b2, c2, b1, c1]; omega)
  obtain ⟨_, a5, b5, c5⟩ := fread_of_le (fread (fread (fread (fread f 4).2 4).2 1).2 1).2 1
    (by rw [b4, c4, b3, c3, b2, c2, b1, c1]; omega)
  have g5 := fread_one_getD (fread (fread (fread (fread f 4).2 4).2 1).2 1).2
    (by rw [b4, c4, b3, c3, b2, c2, b1, c1]; omega)
  obtain ⟨_, a6, b6, c6⟩ := fread_of_le
    (fread (fread (fread (fread (fread f 4).2 4).2 1).2 1).2 1).2 1
    (by rw [b5, c5, b4, c4, b3, c3, b2, c2, b1, c1]; omega)
  have g6 := fread_one_getD (fread (fread (fread (fread (fread f 4).2 4).2 1).2 1).2 1).2
    (by rw [b5, c5, b4, c4, b3, c3, b2, c2, b1, c1]; omega)
  obtain ⟨_, a7, b7, c7⟩ := fread_of_le
    (fread (fread (fread (fread (fread (fread f 4).2 4).2 1).2 1).2 1).2 1).2 1
    (by rw [b6, c6, b5, c5, b4, c4, b3, c3, b2, c2, b1, c1]; omega)
  have g7 := fread_one_getD
    (fread (fread (fread (fread (fread (fread f 4).2 4).2 1).2 1).2 1).2 1).2
    (by rw [b6, c6, b5, c5, b4, c4, b3, c3, b2, c2, b1, c1]; omega)
  rw [b2, c2, b1, c1] at g3
  rw [b3, c3, b2, c2, b1, c1] at g4
  rw [b4, c4, b3, c3, b2, c2, b1, c1] at g5
  rw [b5, c5, b4, c4, b3, c3, b2, c2, b1, c1] at g6
  rw [b6, c6, b5, c5, b4, c4, b3, c3, b2, c2, b1, c1] at g7
  unfold handle_IHDR
  simp only [a1, a2, a3, a4, a5, a6, a7, ne_eq, not_true_eq_false, if_false]
  rw [g3, g4, g5, g6, g7]
  exact ⟨_, _, rfl⟩

/-- C8, as stated, fails: the header `00000001 00000001 08 02 01 00 00` has compression
method 1 and `handle_IHDR` succeeds on it. -/
theorem handle_IHDR_ignores_compression_method :
    ¬ ((handle_IHDR Host.little ⟨create_array, create_array, 0, 0, 0, 0, 0, 0, 0, 0, 0⟩ 13
          ⟨[0, 0, 0, 1, 0, 0, 0, 1, 8, 2, 1, 0, 0], 0⟩).1 = 1 ↔
        ([0, 0, 0, 1, 0, 0, 0, 1, 8, 2, 1, 0, 0].getD 8 0 = 8 ∧
         ([0, 0, 0, 1, 0, 0, 0, 1, 8, 2, 1, 0, 0].getD 9 0 = 2 ∨
          [0, 0, 0, 1, 0, 0, 0, 1, 8, 2, 1, 0, 0].getD 9 0 = 6) ∧
         [0, 0, 0, 1, 0, 0, 0, 1, 8, 2, 1, 0, 0].getD 10 0 = 0 ∧
         [0, 0, 0, 1, 0, 0, 0, 1, 8, 2, 1, 0, 0].getD 11 0 = 0 ∧
         [0, 0, 0, 1, 0, 0, 0, 1, 8, 2, 1, 0, 0].getD 12 0 = 0)) := by
  decide

/-- C8, amended: for every 13-byte IHDR body, `handle_IHDR` succeeds if and only if bit
depth = 8, colour type is 2 or 6 and interlace method = 0 (bytes 8, 9 and 12 of the
body); compression method and filter method are stored and not checked. -/
theorem handle_IHDR_success_iff (host : Host) (p : png) (length : Int) (f : FILE)
    (h : f.pos + 13 ≤ f.bytes.length) :
    ((handle_IHDR host p length f).1 = 1 ↔
      f.bytes.getD (f.pos + 8) 0 = 8 ∧
      (f.bytes.getD (f.pos + 9) 0 = 2 ∨ f.bytes.getD (f.pos + 9) 0 = 6) ∧
      f.bytes.getD (f.pos + 12) 0 = 0) ∧
    ((handle_IHDR host p length f).1 = 0 ∨ (handle_IHDR host p length f).1 = 1) := by
  obtain ⟨w, h', e⟩ := handle_IHDR_fst host p length f h
  rw [e]
  exact check_IHDR_fst _

/-- C8, amended, on the header of a 1x1 RGB image. -/
theorem handle_IHDR_success_iff_witness :
    (handle_IHDR Host.little ⟨create_array, create_array, 0, 0, 0, 0, 0, 0, 0, 0, 0⟩ 13
      ⟨[0, 0, 0, 1, 0, 0, 0, 1, 8, 2, 0, 0, 0], 0⟩).1 = 1 :=
  (handle_IHDR_success_iff Host.little ⟨create_array, create_array, 0, 0, 0, 0, 0, 0, 0, 0, 0⟩
    13 ⟨[0, 0, 0, 1, 0, 0, 0, 1, 8, 2, 0, 0, 0], 0⟩ (by decide)).1.mpr (by decide)

/-! ## Stored blocks (`uncompressed_block`) -/

theorem bits_sum_eq_mod (d m : Nat) :
    (∑ i in Finset.range m, (d / 2 ^ i % 2) * 2 ^ i) = d % 2 ^ m := by
  induction m with
  | zero => simp [Nat.mod_one]
  | succ m ih =>
    rw [Finset.sum_range_succ, ih, Nat.mod_pow_succ]
    ring

/-- Reading 16 bits with `pull_bits` at a byte boundary yields a little-endian 16-bit value. -/
theorem pull_bits_16_aligned (a : dynamic_array) (hbit : a.bit_position = 0)
    (hwf : a.count ≤ a.max_size) (havail : a.byte_position + 2 ≤ a.count)
    (hbytes : ∀ v ∈ a.data, v < 256) :
    (pull_bits a 16).1 = a.data.getD a.byte_position 0
        + 256 * a.data.getD (a.byte_position + 1) 0 ∧
    (pull_bits a 16).2 = { a with byte_position := a.byte_position + 2 } := by
  obtain ⟨h1, _, h3, h4, h5, h6⟩ := pull_bits_full a 16 (by norm_num) (by norm_num)
    (by omega) hwf (by omega)
  have hcount : a.count = a.data.length := rfl
  have hb0 : a.data.getD a.byte_position 0 < 256 := by
    rw [List.getD_eq_getElem _ _ (by omega)]
    exact hbytes _ (List.getElem_mem _)
  have hb1 : a.data.getD (a.byte_position + 1) 0 < 256 := by
    rw [List.getD_eq_getElem _ _ (by omega)]
    exact hbytes _ (List.getElem_mem _)
  constructor
  · rw [h1, show (16 : Nat) = 8 + 8 from rfl, Finset.sum_range_add]
    have e0 : ∀ i ∈ Finset.range 8, nth_bit a i * 2 ^ i
        = (a.data.getD a.byte_position 0 / 2 ^ i % 2) * 2 ^ i := by
      intro i hi
      have hi8 : i < 8 := Finset.mem_range.mp hi
      rw [(h3 i (by omega)).2, hbit]
      have e1 : (0 + i) / 8 = 0 := by omega
      have e2 : (0 + i) % 8 = i := by omega
      rw [e1, e2, Nat.add_zero]
    have e1 : ∀ i ∈ Finset.range 8, nth_bit a (8 + i) * 2 ^ (8 + i)
        = 256 * ((a.data.getD (a.byte_position + 1) 0 / 2 ^ i % 2) * 2 ^ i) := by
      intro i hi
      have hi8 : i < 8 := Finset.mem_range.mp hi
      rw [(h3 (8 + i) (by omega)).2, hbit]
      have e1 : (0 + (8 + i)) / 8 = 1 := by omega
      have e2 : (0 + (8 + i)) % 8 = i := by omega
      rw [e1, e2, pow_add]
      ring
    rw [Finset.sum_congr rfl e0, Finset.sum_congr rfl e1, ← Finset.mul_sum,
      bits_sum_eq_mod, bits_sum_eq_mod]
    rw [show (2 : Nat) ^ 8 = 256 from rfl, Nat.mod_eq_of_lt hb0, Nat.mod_eq_of_lt hb1]
  · have hmax : (pull_bits a 16).2.max_size = a.max_size := by
      rw [(pull_bits_eq a 16 (by norm_num) (by norm_num))]
      exact (skip_bit_iterate a (by omega) 16).2.1
    rw [hbit] at h4 h5
    have e4 : (pull_bits a 16).2.byte_position = a.byte_position + 2 := by rw [h4]
    have e5 : (pull_bits a 16).2.bit_position = a.bit_position := by rw [h5, hbit]
    generalize (pull_bits a 16).2 = r at h6 hmax e4 e5
    cases r
    cases a
    simp only [dynamic_array.mk.injEq] at *
    exact ⟨h6, hmax, e4, e5⟩

theorem check_endian_eq (host : Host) : check_endian host = 1 := by
  unfold check_endian
  simp

theorem bytes_at_eq (cur : dynamic_array) (length : Nat)
    (h : cur.byte_position + length ≤ cur.data.length) :
    bytes_at cur length = (cur.data.drop cur.byte_position).take length := by
  unfold bytes_at
  apply List.ext_getElem
  · simp only [List.length_map, List.length_range, List.length_take, List.length_drop]
    omega
  · intro k h1 h2
    simp only [List.length_map, List.length_range] at h1
    simp only [List.getElem_map, List.getElem_range, List.getElem_take, List.getElem_drop]
    rw [List.getD_eq_getElem _ _ (by omega)]

/-- What `uncompressed_block` does on a block whose header ends mid-byte at byte `B`:
it reads `LEN` at `B + 1`, copies the `LEN` bytes from `B + 5` and leaves the cursor
at byte `B + 5 + LEN + 4`. -/
theorem uncompressed_block_eq (host : Host) (cur out : dynamic_array)
    (hwf : cur.count ≤ cur.max_size) (hbytes : ∀ v ∈ cur.data, v < 256)
    (havail : cur.byte_position + 5
      + (cur.data.getD (cur.byte_position + 1) 0
          + 256 * cur.data.getD (cur.byte_position + 2) 0) ≤ cur.count) :
    (uncompressed_block host cur out).2.data = out.data ++
      (cur.data.drop (cur.byte_position + 5)).take
        (cur.data.getD (cur.byte_position + 1) 0
          + 256 * cur.data.getD (cur.byte_position + 2) 0) ∧
    (uncompressed_block host cur out).1.byte_position = cur.byte_position + 5
      + (cur.data.getD (cur.byte_position + 1) 0
          + 256 * cur.data.getD (cur.byte_position + 2) 0) + 4 ∧
    (uncompressed_block host cur out).1.bit_position = 0 := by
  have hcount : cur.count = cur.data.length := rfl
  obtain ⟨p1, p2⟩ := pull_bits_16_aligned (next_boundry cur) rfl hwf
    (by show cur.byte_position + 1 + 2 ≤ cur.data.length; omega) hbytes
  have hb1 : cur.data.getD (cur.byte_position + 1) 0 < 256 := by
    rw [List.getD_eq_getElem _ _ (by omega)]
    exact hbytes _ (List.getElem_mem _)
  have hb2 : cur.data.getD (cur.byte_position + 2) 0 < 256 := by
    rw [List.getD_eq_getElem _ _ (by omega)]
    exact hbytes _ (List.getElem_mem _)
  have p1' : (pull_bits (next_boundry cur) 16).1 = cur.data.getD (cur.byte_position + 1) 0
      + 256 * cur.data.getD (cur.byte_position + 2) 0 := p1
  have hL : cur.data.getD (cur.byte_position + 1) 0
      + 256 * cur.data.getD (cur.byte_position + 2) 0 < 65536 := by omega
  generalize cur.data.getD (cur.byte_position + 1) 0
      + 256 * cur.data.getD (cur.byte_position + 2) 0 = LEN at havail p1' hL ⊢
  unfold uncompressed_block
  simp only [check_endian_eq, one_ne_zero, if_false]
  rw [p1', p2]
  refine ⟨?_, ?_, rfl⟩
  · rw [array_add_data, bytes_at_eq _ _ (by
      show cur.byte_position + 1 + 2 + 2 + LEN ≤ cur.data.length
      omega)]
    show out.data ++ List.take LEN (List.take LEN
      (List.drop (cur.byte_position + 1 + 2 + 2) cur.data)) = _
    rw [List.take_take, Nat.min_self]
  · show cur.byte_position + 1 + 2 + 2 + (LEN + 4) % 4294967296 = _
    rw [Nat.mod_eq_of_lt (by omega)]
    omega

/-- C9: for a stored block whose 3 header bits end mid-byte (at byte `B`) and whose
input holds `LEN` data bytes, where `LEN` is the little-endian 16-bit value at the next
byte boundary `B + 1`, `uncompressed_block` appends to the output exactly the `LEN`
bytes that follow the NLEN field (from byte `B + 5`) and leaves the earlier output bytes
unchanged; with `LEN = 0` the output is unchanged. -/
theorem uncompressed_block_copies (host : Host) (cur out : dynamic_array) (LEN : Nat)
    (_hmid : 0 < cur.bit_position ∧ cur.bit_position < 8)
    (hwf : cur.count ≤ cur.max_size) (hbytes : ∀ v ∈ cur.data, v < 256)
    (hLEN : LEN = cur.data.getD (cur.byte_position + 1) 0
      + 256 * cur.data.getD (cur.byte_position + 2) 0)
    (havail : cur.byte_position + 5 + LEN ≤ cur.count) :
    (uncompressed_block host cur out).2.data
      = out.data ++ (cur.data.drop (cur.byte_position + 5)).take LEN ∧
    ((cur.data.drop (cur.byte_position + 5)).take LEN).length = LEN ∧
    (LEN = 0 → (uncompressed_block host cur out).2.data = out.data) := by
  subst hLEN
  have h := (uncompressed_block_eq host cur out hwf hbytes havail).1
  refine ⟨h, ?_, ?_⟩
  · rw [List.length_take, List.length_drop]
    have hcount : cur.count = cur.data.length := rfl
    omega
  · intro h0
    rw [h, h0]
    simp

/-- C9 on the block `03 00 FC FF 09 08 07` read after a header that ends at bit 3. -/
theorem uncompressed_block_copies_witness :
    (uncompressed_block Host.little ⟨[1, 3, 0, 252, 255, 9, 8, 7, 0, 0, 0, 0], 25, 0, 3⟩
        ⟨[5, 6], 25, 0, 0⟩).2.data
      = [5, 6] ++ ([1, 3, 0, 252, 255, 9, 8, 7, 0, 0, 0, 0].drop (0 + 5)).take 3 :=
  (uncompressed_block_copies Host.little ⟨[1, 3, 0, 252, 255, 9, 8, 7, 0, 0, 0, 0], 25, 0, 3⟩
    ⟨[5, 6], 25, 0, 0⟩ 3 (by decide) (by decide) (by decide) (by decide) (by decide)).1

/-- C10 does not hold of the code: after the stored block `01 00 FE FF 41` (header byte
at 0, first data byte at 5, `LEN = 1`) the cursor is at byte 10, not at byte 6 where
the next block header `01` stands. -/
theorem uncompressed_block_cursor_overshoot :
    (uncompressed_block Host.little
      ⟨[0, 1, 0, 254, 255, 65, 1, 1, 0, 254, 255, 66], 25, 0, 3⟩ create_array).1.byte_position
      = 10 ∧
    (uncompressed_block Host.little
      ⟨[0, 1, 0, 254, 255, 65, 1, 1, 0, 254, 255, 66], 25, 0, 3⟩ create_array).1.byte_position
      ≠ 5 + 1 := by
  decide

/-! ## Errors found after the chunk loop (`read_png`, `decode_png`) -/

/-- C6 does not hold of the code: on a file whose ZLIB header has compression method 7,
and on a file whose only DEFLATE block has BTYPE = 3, `decode_png` takes its error
return, and `read_png` returns the image with `is_valid = 1` and an empty pixel buffer
(both files: signature, IHDR of a 1x1 RGB image, one IDAT, IEND). -/
theorem read_png_valid_after_decode_error :
    (read_png Host.little 50 (some
      [137, 80, 78, 71, 13, 10, 26, 10,
       0, 0, 0, 13, 73, 72, 68, 82, 0, 0, 0, 1, 0, 0, 0, 1, 8, 2, 0, 0, 0, 0, 0, 0, 0,
       0, 0, 0, 2, 73, 68, 65, 84, 119, 1, 0, 0, 0, 0,
       0, 0, 0, 0, 73, 69, 78, 68, 0, 0, 0, 0])).toOption.map
        (fun p => (p.is_valid, p.pixel_data.data)) = some (1, []) ∧
    (read_png Host.little 50 (some
      [137, 80, 78, 71, 13, 10, 26, 10,
       0, 0, 0, 13, 73, 72, 68, 82, 0, 0, 0, 1, 0, 0, 0, 1, 8, 2, 0, 0, 0, 0, 0, 0, 0,
       0, 0, 0, 3, 73, 68, 65, 84, 120, 1, 7, 0, 0, 0, 0,
       0, 0, 0, 0, 73, 69, 78, 68, 0, 0, 0, 0])).toOption.map
        (fun p => (p.is_valid, p.pixel_data.data)) = some (1, []) := by
  decide

/-! ## Huffman trees: insertion and lookup -/

theorem add_node_ne_null (t : node) (sym code len : Nat) (ht : t ≠ node.null) :
    add_node t sym code len ≠ node.null := by
  cases t with
  | null => exact absurd rfl ht
  | mk s l r f =>
    cases len with
    | zero => simp [add_node]
    | succ n =>
      unfold add_node
      split <;> simp

theorem child_or_new_ne_null (c : node) :
    (if c ≠ node.null then c else create_node) ≠ node.null := by
  by_cases h : c ≠ node.null
  · rw [if_pos h]; exact h
  · rw [if_neg h]; simp [create_node]

theorem node_at_null (q : List Bool) : node_at node.null q = node.null := by
  induction q with
  | nil => rfl
  | cons b bs ih =>
    cases b <;> simpa [node_at, node.left, node.right] using ih

theorem node_at_create_node (q : List Bool) : (node_at create_node q).is_leaf = false := by
  cases q with
  | nil => rfl
  | cons b bs =>
    cases b <;> simp [node_at, create_node, node.left, node.right, node_at_null, node.is_leaf]

/-- Reading leaf flag and symbol through "existing child or new node" agrees with the
child, wherever the child has a leaf. -/
theorem node_at_child_or_new (c : node) (q : List Bool) :
    (node_at (if c ≠ node.null then c else create_node) q).is_leaf = (node_at c q).is_leaf ∧
    ((node_at c q).is_leaf = true →
      (node_at (if c ≠ node.null then c else create_node) q).symbol = (node_at c q).symbol) := by
  by_cases h : c ≠ node.null
  · rw [if_pos h]; exact ⟨rfl, fun _ => rfl⟩
  · rw [if_neg h]
    have hc : c = node.null := by
      by_contra h'; exact h h'
    subst hc
    rw [node_at_create_node, node_at_null]
    exact ⟨rfl, fun h' => by simp [node.is_leaf] at h'⟩

/-- The node at the end of the inserted path is a leaf carrying the symbol. -/
theorem add_node_at_path (len : Nat) :
    ∀ (t : node) (sym code : Nat), t ≠ node.null →
      (node_at (add_node t sym code len) (code_path code len)).is_leaf = true ∧
      (node_at (add_node t sym code len) (code_path code len)).symbol = sym := by
  induction len with
  | zero =>
    intro t sym code ht
    cases t with
    | null => exact absurd rfl ht
    | mk s l r f => simp [add_node, code_path, node_at, node.is_leaf, node.symbol]
  | succ n ih =>
    intro t sym code ht
    cases t with
    | null => exact absurd rfl ht
    | mk s l r f =>
      unfold add_node code_path
      by_cases hb : code &&& 1 = 1
      · rw [if_pos hb]
        simp only [hb, decide_True, node_at, node.right]
        exact ih _ sym (code >>> 1) (child_or_new_ne_null r)
      · rw [if_neg hb]
        simp only [hb, decide_False, node_at, node.left]
        exact ih _ sym (code >>> 1) (child_or_new_ne_null l)

/-- Insertion changes neither the leaf flag nor the symbol of a leaf at any other
path. -/
theorem add_node_other_path (len : Nat) :
    ∀ (t : node) (sym code : Nat) (q : List Bool), t ≠ node.null →
      q ≠ code_path code len →
      (node_at (add_node t sym code len) q).is_leaf = (node_at t q).is_leaf ∧
      ((node_at t q).is_leaf = true →
        (node_at (add_node t sym code len) q).symbol = (node_at t q).symbol) := by
  induction len with
  | zero =>
    intro t sym code q ht hq
    cases t with
    | null => exact absurd rfl ht
    | mk s l r f =>
      cases q with
      | nil => exact absurd rfl hq
      | cons b bs =>
        unfold add_node
        cases b <;> exact ⟨rfl, fun _ => rfl⟩
  | succ n ih =>
    intro t sym code q ht hq
    cases t with
    | null => exact absurd rfl ht
    | mk s l r f =>
      cases q with
      | nil =>
        unfold add_node
        split <;> exact ⟨rfl, fun _ => rfl⟩
      | cons b bs =>
        unfold code_path at hq
        unfold add_node
        by_cases hb : code &&& 1 = 1
        · rw [if_pos hb]
          simp only [hb, decide_True] at hq
          cases b with
          | true =>
            have hbs : bs ≠ code_path (code >>> 1) n := fun h => hq (by rw [h])
            simp only [node_at, node.right]
            obtain ⟨h1, h2⟩ := ih _ sym (code >>> 1) bs (child_or_new_ne_null r) hbs
            obtain ⟨h3, h4⟩ := node_at_child_or_new r bs
            refine ⟨by rw [h1, h3], fun hl => ?_⟩
            rw [h2 (by rw [h3]; exact hl), h4 hl]
          | false =>
            simp [node_at, node.left]
        · rw [if_neg hb]
          simp only [hb, decide_False] at hq
          cases b with
          | false =>
            have hbs : bs ≠ code_path (code >>> 1) n := fun h => hq (by rw [h])
            simp only [node_at, node.left]
            obtain ⟨h1, h2⟩ := ih _ sym (code >>> 1) bs (child_or_new_ne_null l) hbs
            obtain ⟨h3, h4⟩ := node_at_child_or_new l bs
            refine ⟨by rw [h1, h3], fun hl => ?_⟩
            rw [h2 (by rw [h3]; exact hl), h4 hl]
          | true =>
            simp [node_at, node.right]

theorem is_leaf_ne_null (t : node) (h : t.is_leaf = true) : t ≠ node.null := by
  intro hn
  subst hn
  simp [node.is_leaf] at h

/-- Walking a path whose end is the first leaf met: `get_symbol` returns the symbol of
that leaf and consumes one bit per level. -/
theorem get_symbol_of_path (p : List Bool) :
    ∀ (t : node) (cur : dynamic_array) (fuel : Nat),
      (∀ i (h : i < p.length), nth_bit cur i = if p[i] then 1 else 0) →
      (node_at t p).is_leaf = true →
      (∀ k, k < p.length → (node_at t (p.take k)).is_leaf = false) →
      p.length ≤ fuel →
      get_symbol fuel cur t = some (to_i32 (node_at t p).symbol, skip_bit^[p.length] cur) := by
  induction p with
  | nil =>
    intro t cur fuel _ hleaf _ _
    simp only [node_at] at hleaf
    unfold get_symbol
    rw [if_pos hleaf]
    rfl
  | cons b bs ih =>
    intro t cur fuel hbits hleaf hpre hfuel
    have hroot : t.is_leaf = false := by
      have := hpre 0 (by simp)
      simpa [node_at] using this
    obtain ⟨f, rfl⟩ : ∃ f, fuel = f + 1 := ⟨fuel - 1, by
      simp only [List.length_cons] at hfuel; omega⟩
    unfold get_symbol
    rw [if_neg (by rw [hroot]; simp)]
    simp only
    have hb0 : (pull_bit cur).1 = if b then 1 else 0 := by
      have := hbits 0 (by simp)
      simpa [nth_bit] using this
    have hbits' : ∀ i (h : i < bs.length), nth_bit (pull_bit cur).2 i = if bs[i] then 1 else 0 := by
      intro i h
      have := hbits (i + 1) (by simp; omega)
      simp only [List.getElem_cons_succ] at this
      rw [← this]
      unfold nth_bit
      rw [Function.iterate_succ_apply]
      rfl
    have hpre' : ∀ c : node, node_at t (b :: bs) = node_at c bs →
        (∀ k, k < (b :: bs).length → node_at t ((b :: bs).take k) =
          if k = 0 then t else node_at c (bs.take (k - 1))) →
        ∀ k, k < bs.length → (node_at c (bs.take k)).is_leaf = false := by
      intro c _ hk k hlt
      have h1 := hpre (k + 1) (by simp; omega)
      rw [hk (k + 1) (by simp; omega)] at h1
      simpa using h1
    have hlen : (b :: bs).length = bs.length + 1 := by simp
    rw [hlen, Function.iterate_succ_apply]
    cases b with
    | true =>
      have hchild : t.right ≠ node.null := by
        intro hn
        simp only [node_at] at hleaf
        rw [hn, node_at_null] at hleaf
        simp [node.is_leaf] at hleaf
      have htr : traverse t (pull_bit cur).1 = t.right := by
        unfold traverse
        rw [hb0]
        simp [hchild]
      rw [htr]
      have := ih t.right (pull_bit cur).2 f hbits' (by simpa [node_at] using hleaf)
        (hpre' t.right (by simp [node_at]) (by
          intro k hk
          cases k with
          | zero => simp [node_at]
          | succ k => simp [node_at]))
        (by simp only [List.length_cons] at hfuel; omega)
      rw [this]
      simp [node_at, skip_bit]
    | false =>
      have hchild : t.left ≠ node.null := by
        intro hn
        simp only [node_at] at hleaf
        rw [hn, node_at_null] at hleaf
        simp [node.is_leaf] at hleaf
      have htr : traverse t (pull_bit cur).1 = t.left := by
        unfold traverse
        rw [hb0]
        simp [hchild]
      rw [htr]
      have := ih t.left (pull_bit cur).2 f hbits' (by simpa [node_at] using hleaf)
        (hpre' t.left (by simp [node_at]) (by
          intro k hk
          cases k with
          | zero => simp [node_at]
          | succ k => simp [node_at]))
        (by simp only [List.length_cons] at hfuel; omega)
      rw [this]
      simp [node_at, skip_bit]

/-! ## `reverse_bits` -/

theorem reversed_lt (c m : Nat) : reversed c m < 2 ^ m := by
  induction m with
  | zero => simp [reversed]
  | succ m ih =>
    unfold reversed
    have := Nat.mod_lt (c / 2 ^ m) (by norm_num : 2 > 0)
    rw [pow_succ]
    omega

theorem pow_le_u32 (m : Nat) (h : m ≤ 32) : 2 ^ m ≤ 4294967296 := by
  calc 2 ^ m ≤ 2 ^ 32 := Nat.pow_le_pow_right (by norm_num) h
    _ = 4294967296 := by norm_num

theorem reverse_bits_fold (c nb m : Nat) (hnb : nb ≤ 32) (hm : m + 1 ≤ nb) :
    (List.range m).foldl (reverse_bits_step nb) (0, c) = (2 * reversed c m, c / 2 ^ m) := by
  induction m with
  | zero => simp [reversed]
  | succ m ih =>
    rw [List.range_succ, List.foldl_append, ih (by omega)]
    simp only [List.foldl_cons, List.foldl_nil]
    unfold reverse_bits_step
    simp only
    rw [if_pos (by omega), Nat.and_one_is_mod, Nat.shiftRight_eq_div_pow,
      Nat.shiftLeft_eq]
    have h1 := reversed_lt c m
    have h2 := Nat.mod_lt (c / 2 ^ m) (by norm_num : 2 > 0)
    have h3 : 2 ^ (m + 2) ≤ 4294967296 := pow_le_u32 _ (by omega)
    have h4 : 2 ^ (m + 2) = 4 * 2 ^ m := by ring
    rw [Nat.mod_eq_of_lt (by omega), Nat.mod_eq_of_lt (by omega)]
    have e : reversed c (m + 1) = 2 * reversed c m + c / 2 ^ m % 2 := rfl
    congr 1
    · rw [e]; ring
    · rw [Nat.div_div_eq_div_mul]
      congr 1

theorem reverse_bits_eq (c l : Nat) (hl : l ≤ 32) : reverse_bits c l = reversed c l := by
  cases l with
  | zero => simp [reverse_bits, reversed]
  | succ m =>
    unfold reverse_bits
    rw [List.range_succ, List.foldl_append, reverse_bits_fold c (m + 1) m hl (le_refl _)]
    simp only [List.foldl_cons, List.foldl_nil]
    unfold reverse_bits_step
    simp only
    rw [if_neg (by simp), Nat.and_one_is_mod]
    have h1 := reversed_lt c m
    have h2 := Nat.mod_lt (c / 2 ^ m) (by norm_num : 2 > 0)
    have h3 : 2 ^ (m + 1) ≤ 4294967296 := pow_le_u32 _ hl
    have h4 : 2 ^ (m + 1) = 2 * 2 ^ m := by ring
    rw [Nat.mod_eq_of_lt (by omega)]
    rfl

/-- The path that `add_node` follows for a reversed code is the code read most
significant bit first. -/
theorem code_path_reversed (c l : Nat) : code_path (reversed c l) l = msb_bits c l := by
  induction l with
  | zero => rfl
  | succ m ih =>
    unfold code_path msb_bits
    have h2 := Nat.mod_lt (c / 2 ^ m) (by norm_num : 2 > 0)
    have e : reversed c (m + 1) = 2 * reversed c m + c / 2 ^ m % 2 := rfl
    have e1 : reversed c (m + 1) &&& 1 = c / 2 ^ m % 2 := by
      rw [Nat.and_one_is_mod, e]; omega
    have e2 : reversed c (m + 1) >>> 1 = reversed c m := by
      rw [Nat.shiftRight_eq_div_pow, e]; omega
    rw [e1, e2, ih]

theorem msb_bits_length (c l : Nat) : (msb_bits c l).length = l := by
  induction l with
  | zero => rfl
  | succ m ih => simp [msb_bits, ih]

theorem msb_bits_getElem (c l i : Nat) (h : i < (msb_bits c l).length) :
    (msb_bits c l)[i] = decide (c / 2 ^ (l - 1 - i) % 2 = 1) := by
  induction l generalizing i with
  | zero => simp [msb_bits] at h
  | succ m ih =>
    cases i with
    | zero => simp [msb_bits]
    | succ i =>
      simp only [msb_bits, List.getElem_cons_succ]
      rw [ih i (by simpa [msb_bits] using h)]
      have e : m + 1 - 1 - (i + 1) = m - 1 - i := by omega
      rw [e]

/-! ## Canonical codes under the Kraft inequality -/

theorem level_sum_nil (b : Nat) : level_sum [] b = 0 := rfl

theorem level_sum_cons (x : Nat) (L : List Nat) (b : Nat) :
    level_sum (x :: L) b = (if 0 < x ∧ x ≤ b then 2 ^ (b - x) else 0) + level_sum L b := by
  unfold level_sum
  by_cases h : 0 < x ∧ x ≤ b
  · rw [List.filter_cons_of_pos (by simpa using h), if_pos h]
    simp
  · rw [List.filter_cons_of_neg (by simpa using h), if_neg h]
    simp

theorem level_sum_succ (L : List Nat) (b : Nat) :
    level_sum L (b + 1) = 2 * level_sum L b + L.count (b + 1) := by
  induction L with
  | nil => simp [level_sum_nil]
  | cons x L ih =>
    rw [level_sum_cons, level_sum_cons, ih, List.count_cons]
    by_cases h1 : 0 < x ∧ x ≤ b
    · have h2 : 0 < x ∧ x ≤ b + 1 := ⟨h1.1, by omega⟩
      have h3 : ¬ (x = b + 1) := by omega
      have e : b + 1 - x = (b - x) + 1 := by omega
      rw [if_pos h1, if_pos h2, e, pow_succ]
      simp [h3]
      ring
    · by_cases h4 : x = b + 1
      · subst h4
        rw [if_neg h1, if_pos ⟨by omega, le_refl _⟩]
        simp
        ring
      · have h2 : ¬ (0 < x ∧ x ≤ b + 1) := by omega
        rw [if_neg h1, if_neg h2]
        simp [h4]

theorem level_sum_zero (L : List Nat) : level_sum L 0 = 0 := by
  induction L with
  | nil => rfl
  | cons x L ih =>
    rw [level_sum_cons, ih, if_neg (by omega)]

/-- The code after the last code of length `b` is the scaled Kraft sum of the lengths
up to `b`. -/
theorem spec_first_add_count (L : List Nat) (b : Nat) :
    spec_first L b + (if b = 0 then 0 else L.count b) = level_sum L b := by
  induction b with
  | zero => simp [spec_first, level_sum_zero]
  | succ b ih =>
    rw [level_sum_succ, ← ih]
    simp only [spec_first]
    rw [if_neg (by omega : ¬ (b + 1 = 0))]
    ring

theorem spec_first_succ (L : List Nat) (b : Nat) :
    spec_first L (b + 1) = 2 * level_sum L b := by
  rw [← spec_first_add_count]
  simp only [spec_first]
  ring

theorem level_sum_le_kraft (L : List Nat) (b : Nat) (hb : b ≤ 15) (hL : ∀ l ∈ L, l ≤ 15) :
    level_sum L b * 2 ^ (15 - b)
      ≤ ((L.filter (fun l => 0 < l)).map (fun l => 2 ^ (15 - l))).sum := by
  induction L with
  | nil => simp [level_sum_nil]
  | cons x L ih =>
    have ih' := ih (fun l hl => hL l (List.mem_cons_of_mem _ hl))
    have hx : x ≤ 15 := hL x (List.mem_cons_self _ _)
    rw [level_sum_cons, Nat.add_mul]
    by_cases h0 : 0 < x
    · rw [List.filter_cons_of_pos (by simpa using h0)]
      simp only [List.map_cons, List.sum_cons]
      by_cases h1 : x ≤ b
      · rw [if_pos ⟨h0, h1⟩, ← pow_add]
        have e : b - x + (15 - b) = 15 - x := by omega
        rw [e]
        omega
      · rw [if_neg (by omega)]
        have : 0 < 2 ^ (15 - x) := by positivity
        omega
    · rw [List.filter_cons_of_neg (by simpa using h0), if_neg (by omega)]
      omega

theorem level_sum_le_pow (L : List Nat) (b : Nat) (hb : b ≤ 15) (hL : ∀ l ∈ L, l ≤ 15)
    (hk : ((L.filter (fun l => 0 < l)).map (fun l => 2 ^ (15 - l))).sum ≤ 2 ^ 15) :
    level_sum L b ≤ 2 ^ b := by
  have h1 := level_sum_le_kraft L b hb hL
  have h2 : level_sum L b * 2 ^ (15 - b) ≤ 2 ^ b * 2 ^ (15 - b) := by
    rw [← pow_add]
    have e : b + (15 - b) = 15 := by omega
    rw [e]
    omega
  exact Nat.le_of_mul_le_mul_right h2 (by positivity)

theorem spec_first_le_level_sum (L : List Nat) (b : Nat) : spec_first L b ≤ level_sum L b := by
  rw [← spec_first_add_count]
  omega

/-- The first code of a longer length lies above every code of a shorter length,
shifted to the longer length. -/
theorem spec_first_ge (L : List Nat) (b d : Nat) :
    2 ^ (d + 1) * level_sum L b ≤ spec_first L (b + (d + 1)) := by
  induction d with
  | zero =>
    rw [show b + (0 + 1) = b + 1 from rfl, spec_first_succ]
    simp
  | succ d ih =>
    rw [show b + (d + 1 + 1) = (b + (d + 1)) + 1 from rfl, spec_first_succ]
    have h := spec_first_le_level_sum L (b + (d + 1))
    have e : 2 ^ (d + 1 + 1) * level_sum L b = 2 * (2 ^ (d + 1) * level_sum L b) := by ring
    rw [e]
    omega

theorem count_take_lt (L : List Nat) (j : Nat) (hj : j < L.length) :
    (L.take j).count (L.getD j 0) < L.count (L.getD j 0) := by
  generalize hx : L.getD j 0 = x
  have e : L = L.take j ++ (x :: L.drop (j + 1)) := by
    rw [← hx, List.getD_eq_getElem _ _ hj]
    simp
  conv_rhs => rw [e]
  rw [List.count_append, List.count_cons_self]
  omega

/-- Under the Kraft inequality the canonical code of a symbol of length `l > 0` lies
below the end of the codes of length `l`, hence below `2^l`. -/
theorem canonical_code_lt (L : List Nat) (j : Nat) (hj : j < L.length)
    (hpos : 0 < L.getD j 0) :
    canonical_code L j < level_sum L (L.getD j 0) := by
  unfold canonical_code
  have h1 := count_take_lt L j hj
  have h2 := spec_first_add_count L (L.getD j 0)
  rw [if_neg (by omega)] at h2
  omega

/-! ## `generate_codes` and `create_dynamic_tree` -/

theorem getD_mem_le (L : List Nat) (hL : ∀ l ∈ L, l ≤ 15) (i : Nat) : L.getD i 0 ≤ 15 := by
  rcases Nat.lt_or_ge i L.length with h | h
  · rw [List.getD_eq_getElem _ _ h]
    exact hL _ (List.getElem_mem _)
  · rw [List.getD_eq_default _ _ h]
    omega

/-- The first loop of `generate_codes` counts the symbols of every length and finds a
bound of the lengths. -/
theorem count_lengths_fold (L : List Nat) (hL : ∀ l ∈ L, l ≤ 15)
    (hn : L.length < 4294967296) (m : Nat) (hm : m ≤ L.length) :
    ((List.range m).foldl (count_lengths_step L) (List.replicate 33 0, 0)).1.length = 33 ∧
    (∀ b, ((List.range m).foldl (count_lengths_step L) (List.replicate 33 0, 0)).1.getD b 0
        = if b < 33 then (L.take m).count b else 0) ∧
    (∀ l ∈ L.take m,
      l ≤ ((List.range m).foldl (count_lengths_step L) (List.replicate 33 0, 0)).2) ∧
    ((List.range m).foldl (count_lengths_step L) (List.replicate 33 0, 0)).2 ≤ 15 := by
  induction m with
  | zero =>
    refine ⟨by simp, ?_, by simp, by simp⟩
    intro b
    simp only [List.range_zero, List.foldl_nil, List.take_zero, List.count_nil, ite_self]
    rcases Nat.lt_or_ge b 33 with h | h
    · rw [List.getD_eq_getElem _ _ (by rw [List.length_replicate]; exact h)]
      exact List.getElem_replicate _ _
    · rw [List.getD_eq_default _ _ (by rw [List.length_replicate]; exact h)]
  | succ m ih =>
    obtain ⟨h1, h2, h3, h4⟩ := ih (by omega)
    rw [List.range_succ, List.foldl_append]
    simp only [List.foldl_cons, List.foldl_nil]
    generalize (List.range m).foldl (count_lengths_step L) (List.replicate 33 0, 0) = st
      at h1 h2 h3 h4 ⊢
    have hlen := getD_mem_le L hL m
    have htake := take_succ_getD L m (by omega)
    unfold count_lengths_step
    simp only
    refine ⟨by rw [List.length_set, h1], ?_, ?_, ?_⟩
    · intro b
      rw [htake, List.count_append, List.count_singleton]
      by_cases hb : L.getD m 0 = b
      · subst hb
        rw [getD_set_self _ _ _ (by omega), h2, if_pos (by omega), if_pos (by omega)]
        have hc : (L.take m).count (L.getD m 0) ≤ m := by
          calc (L.take m).count (L.getD m 0) ≤ (L.take m).length := List.count_le_length _ _
            _ ≤ m := by rw [List.length_take]; omega
        simp only [beq_self_eq_true, if_true]
        rw [Nat.mod_eq_of_lt (by omega)]
      · rw [getD_set_ne _ _ _ _ hb, h2]
        have : (L.getD m 0 == b) = false := by simpa using hb
        rw [this]
        simp
    · intro l hl
      rw [htake] at hl
      rcases List.mem_append.mp hl with h | h
      · have := h3 l h
        split <;> omega
      · simp only [List.mem_singleton] at h
        subst h
        split <;> omega
    · split <;> omega

/-- The second loop of `generate_codes` computes the first code of every length. -/
theorem next_code_fold (L : List Nat) (bl : List Nat) (amax : Nat) (hamax : amax ≤ 15)
    (hL : ∀ l ∈ L, l ≤ 15)
    (hk : ((L.filter (fun l => 0 < l)).map (fun l => 2 ^ (15 - l))).sum ≤ 2 ^ 15)
    (hbl : ∀ k, k < 33 → bl.getD k 0 = if k = 0 then 0 else L.count k)
    (m : Nat) (hm : m ≤ amax) :
    ((List.range m).foldl (next_code_step bl) (List.replicate (amax + 1) 0, 0)).1.length
      = amax + 1 ∧
    ((List.range m).foldl (next_code_step bl) (List.replicate (amax + 1) 0, 0)).2
      = spec_first L m ∧
    (∀ b, 1 ≤ b → b ≤ m →
      ((List.range m).foldl (next_code_step bl) (List.replicate (amax + 1) 0, 0)).1.getD b 0
        = spec_first L b) := by
  induction m with
  | zero =>
    refine ⟨by simp, by simp [spec_first], ?_⟩
    intro b h1 h2
    omega
  | succ m ih =>
    obtain ⟨h1, h2, h3⟩ := ih (by omega)
    rw [List.range_succ, List.foldl_append]
    simp only [List.foldl_cons, List.foldl_nil]
    generalize (List.range m).foldl (next_code_step bl) (List.replicate (amax + 1) 0, 0) = st
      at h1 h2 h3 ⊢
    unfold next_code_step
    simp only
    have hcode : ((st.2 + bl.getD m 0) <<< 1) % 4294967296 = spec_first L (m + 1) := by
      rw [h2, hbl m (by omega), Nat.shiftLeft_eq, spec_first_add_count, spec_first_succ]
      have := level_sum_le_pow L m (by omega) hL hk
      have hp : 2 ^ m ≤ 2 ^ 15 := Nat.pow_le_pow_right (by norm_num) (by omega)
      have e15 : (2 : Nat) ^ 15 = 32768 := by norm_num
      rw [Nat.mod_eq_of_lt (by omega)]
      ring
    rw [hcode]
    refine ⟨by rw [List.length_set, h1], rfl, ?_⟩
    intro b hb1 hb2
    by_cases hb : m + 1 = b
    · subst hb
      rw [getD_set_self _ _ _ (by omega)]
    · rw [getD_set_ne _ _ _ _ hb]
      exact h3 b hb1 (by omega)

/-- The function `generate_codes` returns the first canonical code of every length up to a bound of
all lengths. -/
theorem generate_codes_spec (L : List Nat) (hL : ∀ l ∈ L, l ≤ 15)
    (hn : L.length < 4294967296)
    (hk : ((L.filter (fun l => 0 < l)).map (fun l => 2 ^ (15 - l))).sum ≤ 2 ^ 15) :
    ∃ amax, amax ≤ 15 ∧ (∀ l ∈ L, l ≤ amax) ∧
      (generate_codes L L.length).length = amax + 1 ∧
      ∀ b, 1 ≤ b → b ≤ amax → (generate_codes L L.length).getD b 0 = spec_first L b := by
  obtain ⟨h1, h2, h3, h4⟩ := count_lengths_fold L hL hn L.length (le_refl _)
  rw [List.take_length] at h2 h3
  unfold generate_codes
  simp only
  generalize (List.range L.length).foldl (count_lengths_step L) (List.replicate 33 0, 0) = st
    at h1 h2 h3 h4 ⊢
  have hbl : ∀ k, k < 33 → (st.1.set 0 0).getD k 0 = if k = 0 then 0 else L.count k := by
    intro k hk33
    by_cases h0 : k = 0
    · subst h0
      rw [getD_set_self _ _ _ (by omega)]
      simp
    · rw [getD_set_ne _ _ _ _ (by omega), h2 k, if_pos hk33, if_neg h0]
  obtain ⟨g1, _, g3⟩ := next_code_fold L (st.1.set 0 0) st.2 h4 hL hk hbl st.2 (le_refl _)
  exact ⟨st.2, h4, h3, g1, g3⟩

/-- The loop of `create_dynamic_tree` inserts every symbol of positive length under its
canonical code. -/
theorem dynamic_tree_fold (L : List Nat) (nc : List Nat) (amax : Nat) (hamax : amax ≤ 15)
    (hL : ∀ l ∈ L, l ≤ amax)
    (hk : ((L.filter (fun l => 0 < l)).map (fun l => 2 ^ (15 - l))).sum ≤ 2 ^ 15)
    (hlen : nc.length = amax + 1)
    (hnc : ∀ b, 1 ≤ b → b ≤ amax → nc.getD b 0 = spec_first L b)
    (m : Nat) (hm : m ≤ L.length) :
    ((List.range m).foldl (dynamic_tree_step L) (create_node, nc)).1
      = canonical_tree_upto L m ∧
    ((List.range m).foldl (dynamic_tree_step L) (create_node, nc)).2.length = amax + 1 ∧
    (∀ b, 1 ≤ b → b ≤ amax →
      ((List.range m).foldl (dynamic_tree_step L) (create_node, nc)).2.getD b 0
        = spec_first L b + (L.take m).count b) := by
  have hL15 : ∀ l ∈ L, l ≤ 15 := fun l hl => le_trans (hL l hl) hamax
  induction m with
  | zero =>
    refine ⟨rfl, hlen, ?_⟩
    intro b h1 h2
    simpa using hnc b h1 h2
  | succ m ih =>
    obtain ⟨h1, h2, h3⟩ := ih (by omega)
    have hstep : canonical_tree_upto L (m + 1) =
        (if L.getD m 0 > 0 then add_node (canonical_tree_upto L m) m
          (reverse_bits (canonical_code L m) (L.getD m 0)) (L.getD m 0)
        else canonical_tree_upto L m) := by
      unfold canonical_tree_upto
      rw [List.range_succ, List.foldl_append]
      rfl
    rw [List.range_succ, List.foldl_append]
    simp only [List.foldl_cons, List.foldl_nil]
    generalize (List.range m).foldl (dynamic_tree_step L) (create_node, nc) = st
      at h1 h2 h3 ⊢
    have htake := take_succ_getD L m (by omega)
    have hlm : L.getD m 0 ≤ amax := by
      rw [List.getD_eq_getElem _ _ (by omega)]
      exact hL _ (List.getElem_mem _)
    unfold dynamic_tree_step
    simp only
    by_cases hpos : L.getD m 0 > 0
    · rw [if_pos hpos, hstep, if_pos hpos]
      have hcode : st.2.getD (L.getD m 0) 0 = canonical_code L m := by
        rw [h3 _ hpos hlm]
        rfl
      refine ⟨by rw [hcode, h1], by rw [List.length_set, h2], ?_⟩
      intro b hb1 hb2
      rw [htake, List.count_append, List.count_singleton]
      by_cases hb : L.getD m 0 = b
      · subst hb
        rw [getD_set_self _ _ _ (by omega), h3 _ hb1 hb2]
        simp only [beq_self_eq_true, if_true]
        have hlt := canonical_code_lt L m (by omega) hpos
        have hle := level_sum_le_pow L (L.getD m 0) (by omega) hL15 hk
        have hp : 2 ^ (L.getD m 0) ≤ 2 ^ 15 := Nat.pow_le_pow_right (by norm_num) (by omega)
        have e15 : (2 : Nat) ^ 15 = 32768 := by norm_num
        unfold canonical_code at hlt
        rw [Nat.mod_eq_of_lt (by omega)]
        ring
      · rw [getD_set_ne _ _ _ _ hb, h3 _ hb1 hb2]
        have : (L.getD m 0 == b) = false := by simpa using hb
        rw [this]
        simp
    · rw [if_neg hpos, hstep, if_neg hpos]
      refine ⟨h1, h2, ?_⟩
      intro b hb1 hb2
      rw [htake, List.count_append, List.count_singleton, h3 _ hb1 hb2]
      have : (L.getD m 0 == b) = false := by
        have : L.getD m 0 ≠ b := by omega
        simpa using this
      rw [this]
      simp

/-- The function `create_dynamic_tree` builds the tree of the canonical codes. -/
theorem create_dynamic_tree_eq (L : List Nat) (hL : ∀ l ∈ L, l ≤ 15)
    (hn : L.length < 4294967296)
    (hk : ((L.filter (fun l => 0 < l)).map (fun l => 2 ^ (15 - l))).sum ≤ 2 ^ 15) :
    create_dynamic_tree L L.length = canonical_tree_upto L L.length := by
  obtain ⟨amax, h1, h2, h3, h4⟩ := generate_codes_spec L hL hn hk
  unfold create_dynamic_tree
  exact (dynamic_tree_fold L _ amax h1 h2 hk h3 h4 L.length (le_refl _)).1

/-! ## Decoding a canonical code on the tree of `create_dynamic_tree` -/

theorem msb_bits_take (c l k : Nat) (hk : k ≤ l) :
    (msb_bits c l).take k = msb_bits (c / 2 ^ (l - k)) k := by
  induction l generalizing k with
  | zero =>
    have : k = 0 := by omega
    subst this
    rfl
  | succ l ih =>
    cases k with
    | zero => rfl
    | succ k =>
      simp only [msb_bits, List.take_succ_cons]
      rw [ih k (by omega)]
      have e : l + 1 - (k + 1) = l - k := by omega
      rw [e, Nat.div_div_eq_div_mul, ← pow_add]
      have e2 : l - k + k = l := by omega
      rw [e2]

theorem msb_bits_inj (c c' l : Nat) (h : msb_bits c l = msb_bits c' l) :
    c % 2 ^ l = c' % 2 ^ l := by
  induction l with
  | zero => simp [Nat.mod_one]
  | succ l ih =>
    simp only [msb_bits, List.cons.injEq, decide_eq_decide] at h
    have h1 := ih h.2
    rw [Nat.mod_pow_succ, Nat.mod_pow_succ, h1]
    congr 2
    have a1 := Nat.mod_two_eq_zero_or_one (c / 2 ^ l)
    have a2 := Nat.mod_two_eq_zero_or_one (c' / 2 ^ l)
    have := h.1
    omega

theorem canonical_code_lt_pow (L : List Nat) (hL : ∀ l ∈ L, l ≤ 15)
    (hk : ((L.filter (fun l => 0 < l)).map (fun l => 2 ^ (15 - l))).sum ≤ 2 ^ 15)
    (j : Nat) (hj : j < L.length) (hpos : 0 < L.getD j 0) :
    canonical_code L j < 2 ^ (L.getD j 0) := by
  have h1 := canonical_code_lt L j hj hpos
  have h2 := level_sum_le_pow L (L.getD j 0) (getD_mem_le L hL j) hL hk
  omega

theorem count_take_lt_take (L : List Nat) (i j : Nat) (hij : i < j) (hj : j ≤ L.length) :
    (L.take i).count (L.getD i 0) < (L.take j).count (L.getD i 0) := by
  have hlt : i < (L.take j).length := by
    rw [List.length_take]; omega
  have h := count_take_lt (L.take j) i hlt
  have e1 : (L.take j).take i = L.take i := by
    rw [List.take_take]
    congr 1
    omega
  have e2 : (L.take j).getD i 0 = L.getD i 0 := by
    rw [List.getD_eq_getElem _ _ hlt, List.getElem_take, List.getD_eq_getElem _ _ (by omega)]
  rw [e1, e2] at h
  exact h

/-- Two symbols of positive length have different canonical codes (as paths). -/
theorem canonical_paths_ne (L : List Nat) (hL : ∀ l ∈ L, l ≤ 15)
    (hk : ((L.filter (fun l => 0 < l)).map (fun l => 2 ^ (15 - l))).sum ≤ 2 ^ 15)
    (i j : Nat) (hij : i < j) (hj : j < L.length)
    (hi0 : 0 < L.getD i 0) (hj0 : 0 < L.getD j 0) :
    msb_bits (canonical_code L i) (L.getD i 0) ≠ msb_bits (canonical_code L j) (L.getD j 0) := by
  intro h
  have hl : L.getD i 0 = L.getD j 0 := by
    have := congrArg List.length h
    rwa [msb_bits_length, msb_bits_length] at this
  rw [← hl] at h
  have hm := msb_bits_inj _ _ _ h
  have c1 := canonical_code_lt_pow L hL hk i (by omega) hi0
  have c2 := canonical_code_lt_pow L hL hk j hj hj0
  rw [← hl] at c2
  rw [Nat.mod_eq_of_lt c1, Nat.mod_eq_of_lt c2] at hm
  unfold canonical_code at hm
  rw [← hl] at hm
  have := count_take_lt_take L i j hij (by omega)
  omega

/-- No canonical code is a proper prefix of another one. -/
theorem canonical_prefix_free (L : List Nat) (hL : ∀ l ∈ L, l ≤ 15)
    (hk : ((L.filter (fun l => 0 < l)).map (fun l => 2 ^ (15 - l))).sum ≤ 2 ^ 15)
    (j s : Nat) (hj : j < L.length) (hs : s < L.length)
    (hj0 : 0 < L.getD j 0) (hs0 : 0 < L.getD s 0) (k : Nat) (hk' : k < L.getD s 0) :
    msb_bits (canonical_code L j) (L.getD j 0)
      ≠ (msb_bits (canonical_code L s) (L.getD s 0)).take k := by
  intro h
  have hl : L.getD j 0 = k := by
    have := congrArg List.length h
    rw [msb_bits_length, List.length_take, msb_bits_length] at this
    omega
  rw [msb_bits_take _ _ _ (by omega), ← hl] at h
  have hm := msb_bits_inj _ _ _ h
  have c1 := canonical_code_lt_pow L hL hk j hj hj0
  have c2 := canonical_code_lt_pow L hL hk s hs hs0
  obtain ⟨d, hd⟩ : ∃ d, L.getD s 0 = L.getD j 0 + (d + 1) := ⟨L.getD s 0 - L.getD j 0 - 1, by omega⟩
  have e : L.getD s 0 - L.getD j 0 = d + 1 := by omega
  rw [e] at hm
  have hge : 2 ^ (d + 1) * level_sum L (L.getD j 0) ≤ canonical_code L s := by
    have := spec_first_ge L (L.getD j 0) d
    rw [← hd] at this
    unfold canonical_code
    omega
  have hdiv : level_sum L (L.getD j 0) ≤ canonical_code L s / 2 ^ (d + 1) := by
    rw [Nat.le_div_iff_mul_le (by positivity)]
    rw [Nat.mul_comm]
    exact hge
  have hlt : canonical_code L s / 2 ^ (d + 1) < 2 ^ (L.getD j 0) := by
    rw [Nat.div_lt_iff_lt_mul (by positivity), ← pow_add, ← hd]
    exact c2
  rw [Nat.mod_eq_of_lt c1, Nat.mod_eq_of_lt hlt] at hm
  have := canonical_code_lt L j hj hj0
  omega

theorem canonical_tree_upto_succ (L : List Nat) (m : Nat) :
    canonical_tree_upto L (m + 1) =
      (if L.getD m 0 > 0 then add_node (canonical_tree_upto L m) m
        (reverse_bits (canonical_code L m) (L.getD m 0)) (L.getD m 0)
      else canonical_tree_upto L m) := by
  unfold canonical_tree_upto
  rw [List.range_succ, List.foldl_append]
  rfl

/-- The leaves of the tree after `m` symbols are exactly the canonical codes of the
symbols of positive length among them, each carrying its symbol. -/
theorem canonical_tree_leaves (L : List Nat) (hL : ∀ l ∈ L, l ≤ 15)
    (hk : ((L.filter (fun l => 0 < l)).map (fun l => 2 ^ (15 - l))).sum ≤ 2 ^ 15)
    (m : Nat) (hm : m ≤ L.length) :
    canonical_tree_upto L m ≠ node.null ∧
    (∀ q, (node_at (canonical_tree_upto L m) q).is_leaf = true →
      ∃ j, j < m ∧ 0 < L.getD j 0 ∧ q = msb_bits (canonical_code L j) (L.getD j 0)) ∧
    (∀ j, j < m → 0 < L.getD j 0 →
      (node_at (canonical_tree_upto L m)
        (msb_bits (canonical_code L j) (L.getD j 0))).is_leaf = true ∧
      (node_at (canonical_tree_upto L m)
        (msb_bits (canonical_code L j) (L.getD j 0))).symbol = j) := by
  induction m with
  | zero =>
    refine ⟨by simp [canonical_tree_upto, create_node], ?_, ?_⟩
    · intro q hq
      have : canonical_tree_upto L 0 = create_node := rfl
      rw [this, node_at_create_node] at hq
      simp at hq
    · intro j hj
      omega
  | succ m ih =>
    obtain ⟨h1, h2, h3⟩ := ih (by omega)
    rw [canonical_tree_upto_succ]
    by_cases hpos : L.getD m 0 > 0
    · rw [if_pos hpos]
      have hpath : code_path (reverse_bits (canonical_code L m) (L.getD m 0)) (L.getD m 0)
          = msb_bits (canonical_code L m) (L.getD m 0) := by
        have := getD_mem_le L hL m
        rw [reverse_bits_eq _ _ (by omega), code_path_reversed]
      refine ⟨add_node_ne_null _ _ _ _ h1, ?_, ?_⟩
      · intro q hq
        by_cases hqm : q = msb_bits (canonical_code L m) (L.getD m 0)
        · exact ⟨m, by omega, hpos, hqm⟩
        · obtain ⟨a1, _⟩ := add_node_other_path (L.getD m 0) (canonical_tree_upto L m) m
            (reverse_bits (canonical_code L m) (L.getD m 0)) q h1 (by rw [hpath]; exact hqm)
          rw [a1] at hq
          obtain ⟨j, hj, hj0, hqj⟩ := h2 q hq
          exact ⟨j, by omega, hj0, hqj⟩
      · intro j hj hj0
        by_cases hjm : j = m
        · subst hjm
          have := add_node_at_path (L.getD j 0) (canonical_tree_upto L j) j
            (reverse_bits (canonical_code L j) (L.getD j 0)) h1
          rw [hpath] at this
          exact this
        · have hne := canonical_paths_ne L hL hk j m (by omega) (by omega) hj0 hpos
          obtain ⟨a1, a2⟩ := add_node_other_path (L.getD m 0) (canonical_tree_upto L m) m
            (reverse_bits (canonical_code L m) (L.getD m 0))
            (msb_bits (canonical_code L j) (L.getD j 0)) h1 (by rw [hpath]; exact hne)
          obtain ⟨b1, b2⟩ := h3 j (by omega) hj0
          exact ⟨by rw [a1, b1], by rw [a2 b1, b2]⟩
    · rw [if_neg hpos]
      refine ⟨h1, ?_, ?_⟩
      · intro q hq
        obtain ⟨j, hj, hj0, hqj⟩ := h2 q hq
        exact ⟨j, by omega, hj0, hqj⟩
      · intro j hj hj0
        have : j ≠ m := by
          intro h; subst h; omega
        exact h3 j (by omega) hj0

/-- C1: for code lengths `L` in `0..15` that are not over-subscribed (the sum of
`2^-L[s]` over the symbols of positive length is at most 1, here scaled by `2^15`) and
every symbol `s` with `L[s] > 0`: on the tree of `create_dynamic_tree L n`, `get_symbol`
on a stream whose next `L[s]` bits are the canonical code of `s`, most significant code
bit first, returns `s` and leaves the stream as `L[s]` calls of `pull_bit` leave it,
whenever the fuel allows `L[s]` steps.  (`n < 2^31`: the symbol is returned as
`int32_t`.) -/
theorem create_dynamic_tree_decodes (L : List Nat) (s : Nat) (cur : dynamic_array)
    (fuel : Nat) (hL : ∀ l ∈ L, l ≤ 15) (hn : L.length < 2147483648)
    (hk : ((L.filter (fun l => 0 < l)).map (fun l => 2 ^ (15 - l))).sum ≤ 2 ^ 15)
    (hs : s < L.length) (hpos : 0 < L.getD s 0)
    (hbits : ∀ i, i < L.getD s 0 →
      nth_bit cur i = canonical_code L s / 2 ^ (L.getD s 0 - 1 - i) % 2)
    (hfuel : L.getD s 0 ≤ fuel) :
    get_symbol fuel cur (create_dynamic_tree L L.length)
      = some ((s : Int), skip_bit^[L.getD s 0] cur) := by
  rw [create_dynamic_tree_eq L hL (by omega) hk]
  obtain ⟨_, h2, h3⟩ := canonical_tree_leaves L hL hk L.length (le_refl _)
  obtain ⟨l1, l2⟩ := h3 s hs hpos
  have hlen := msb_bits_length (canonical_code L s) (L.getD s 0)
  have hg := get_symbol_of_path (msb_bits (canonical_code L s) (L.getD s 0))
    (canonical_tree_upto L L.length) cur fuel
    (by
      intro i hi
      rw [msb_bits_getElem, hbits i (by rw [hlen] at hi; exact hi)]
      rcases Nat.mod_two_eq_zero_or_one
        (canonical_code L s / 2 ^ (L.getD s 0 - 1 - i)) with h | h
      · rw [h]; rfl
      · rw [h]; rfl)
    l1
    (by
      intro k hk'
      rw [hlen] at hk'
      by_contra hc
      have hleaf : (node_at (canonical_tree_upto L L.length)
          ((msb_bits (canonical_code L s) (L.getD s 0)).take k)).is_leaf = true := by
        simpa using hc
      obtain ⟨j, hj, hj0, hq⟩ := h2 _ hleaf
      exact canonical_prefix_free L hL hk j s hj hs hj0 hpos k hk' hq.symm)
    (by rw [hlen]; exact hfuel)
  rw [hg, l2, hlen, to_i32_of_range _ (by omega) (by omega)]

/-- C1 on the lengths `3 3 3 3 3 2 4 4`: symbol 6 has the canonical code `1110`, read
from the byte `07`. -/
theorem create_dynamic_tree_decodes_witness :
    get_symbol 4 ⟨[7], 25, 0, 0⟩
        (create_dynamic_tree [3, 3, 3, 3, 3, 2, 4, 4] [3, 3, 3, 3, 3, 2, 4, 4].length)
      = some (((6 : Nat) : Int), skip_bit^[[3, 3, 3, 3, 3, 2, 4, 4].getD 6 0] ⟨[7], 25, 0, 0⟩) :=
  create_dynamic_tree_decodes [3, 3, 3, 3, 3, 2, 4, 4] 6 ⟨[7], 25, 0, 0⟩ 4
    (by decide) (by decide) (by decide) (by decide) (by decide) (by decide) (by decide)

/-! ## Stored blocks and NLEN; boundaries; reading past the end; absent children -/

/-- C11, as stated, fails: in the stored block `01 00 00 00 41` (header ending at bit 3
of the byte before it) NLEN is `0000`, not the complement `FFFE` of `LEN = 1`, and
`uncompressed_block` copies the data byte `41` to the output. -/
theorem uncompressed_block_copies_with_bad_NLEN :
    (uncompressed_block Host.little ⟨[1, 1, 0, 0, 0, 65, 0, 0, 0, 0], 25, 0, 3⟩
      create_array).2.data = [65] ∧
    [1, 1, 0, 0, 0, 65, 0, 0, 0, 0].getD 3 0 + 256 * [1, 1, 0, 0, 0, 65, 0, 0, 0, 0].getD 4 0
      ≠ 65535 - ([1, 1, 0, 0, 0, 65, 0, 0, 0, 0].getD 1 0
          + 256 * [1, 1, 0, 0, 0, 65, 0, 0, 0, 0].getD 2 0) := by
  decide

/-- C11, amended: `uncompressed_block` does not read the NLEN field.  For a stored block
whose header ends mid-byte at byte `B` and whose input holds the `LEN` data bytes,
whatever the two bytes `n0`, `n1` of NLEN at `B + 3` and `B + 4` are, it appends to the
output exactly the `LEN` bytes from `B + 5`. -/
theorem uncompressed_block_ignores_NLEN (host : Host) (cur out : dynamic_array)
    (LEN n0 n1 : Nat) (_hmid : 0 < cur.bit_position ∧ cur.bit_position < 8)
    (hwf : cur.count ≤ cur.max_size) (hbytes : ∀ v ∈ cur.data, v < 256)
    (hn0 : n0 < 256) (hn1 : n1 < 256)
    (hLEN : LEN = cur.data.getD (cur.byte_position + 1) 0
      + 256 * cur.data.getD (cur.byte_position + 2) 0)
    (havail : cur.byte_position + 5 + LEN ≤ cur.count) :
    (uncompressed_block host
        ⟨(cur.data.set (cur.byte_position + 3) n0).set (cur.byte_position + 4) n1,
          cur.max_size, cur.byte_position, cur.bit_position⟩ out).2.data
      = out.data ++ (cur.data.drop (cur.byte_position + 5)).take LEN := by
  subst hLEN
  have hcount : cur.count = cur.data.length := rfl
  have hb : ∀ v ∈ (cur.data.set (cur.byte_position + 3) n0).set (cur.byte_position + 4) n1,
      v < 256 := by
    intro v hv
    rcases List.mem_or_eq_of_mem_set hv with h | h
    · rcases List.mem_or_eq_of_mem_set h with h' | h'
      · exact hbytes v h'
      · omega
    · omega
  have h := (uncompressed_block_eq host
    ⟨(cur.data.set (cur.byte_position + 3) n0).set (cur.byte_position + 4) n1,
      cur.max_size, cur.byte_position, cur.bit_position⟩ out
    (by simpa [dynamic_array.count] using hwf) hb
    (by
      simp only [dynamic_array.count, List.length_set]
      rw [getD_set_ne _ _ _ _ (by omega), getD_set_ne _ _ _ _ (by omega),
        getD_set_ne _ _ _ _ (by omega), getD_set_ne _ _ _ _ (by omega)]
      exact havail)).1
  rw [h]
  simp only
  rw [getD_set_ne _ _ _ _ (by omega), getD_set_ne _ _ _ _ (by omega),
    getD_set_ne _ _ _ _ (by omega), getD_set_ne _ _ _ _ (by omega),
    List.drop_set_of_lt _ _ (by omega), List.drop_set_of_lt _ _ (by omega)]

/-- C11, amended, on the block `03 00 .. .. 09 08 07` with NLEN bytes `12 34`. -/
theorem uncompressed_block_ignores_NLEN_witness :
    (uncompressed_block Host.little
        ⟨([1, 3, 0, 252, 255, 9, 8, 7, 0, 0, 0, 0].set (0 + 3) 18).set (0 + 4) 52, 25, 0, 3⟩
        ⟨[5, 6], 25, 0, 0⟩).2.data
      = [5, 6] ++ ([1, 3, 0, 252, 255, 9, 8, 7, 0, 0, 0, 0].drop (0 + 5)).take 3 :=
  uncompressed_block_ignores_NLEN Host.little
    ⟨[1, 3, 0, 252, 255, 9, 8, 7, 0, 0, 0, 0], 25, 0, 3⟩ ⟨[5, 6], 25, 0, 0⟩ 3 18 52
    (by decide) (by decide) (by decide) (by decide) (by decide) (by decide) (by decide)

/-- The function `next_boundry` tests nothing: on every cursor, mid-byte or aligned, it moves to
bit 0 of the next byte and leaves the buffer as it is. -/
theorem next_boundry_always_advances (cur : dynamic_array) :
    (next_boundry cur).byte_position = cur.byte_position + 1 ∧
    (next_boundry cur).bit_position = 0 ∧
    (next_boundry cur).data = cur.data ∧ (next_boundry cur).max_size = cur.max_size :=
  ⟨rfl, rfl, rfl, rfl⟩

/-- C12 does not hold of the code: on an aligned cursor `next_boundry` is not a no-op, and
the flush of `uncompressed_block` skips a byte of the block.  In the DEFLATE stream
`62 98 B0 60 03 20 04 00 FB FF 00 10 20 30` a fixed block (literals `00 90 A0 B0`) ends
at byte 5, bit 5, and the header of the stored block that follows (BFINAL = 1,
BTYPE = 00) ends with the last bit of byte 5, so `pull_bits` leaves the cursor aligned
at byte 6, the low byte of LEN = 4; `next_boundry` moves it to byte 7 and the 16 bits
read there are `00 FB`, LEN = 64256.  In the stream `62 98 B0 60 03 20 FF 00 00 FF` followed
by 255 bytes `07` (LEN = 255) the length is read from the bytes `00 00`: the block loop
ends with the cursor at byte 15 and the output `00 90 A0 B0`, without the 255 bytes of
the stored block. -/
theorem next_boundry_skips_aligned_byte :
    (huffman_block 20 ⟨[98, 152, 176, 96, 3, 32, 4, 0, 251, 255, 0, 16, 32, 48], 25, 0, 3⟩
        create_array static_symbol static_distance).toOption.map
          (fun r => (r.1.byte_position, r.1.bit_position, r.2.data))
      = some (5, 5, [0, 144, 160, 176]) ∧
    (pull_bit ⟨[98, 152, 176, 96, 3, 32, 4, 0, 251, 255, 0, 16, 32, 48], 25, 5, 5⟩).1 = 1 ∧
    pull_bits (pull_bit
        ⟨[98, 152, 176, 96, 3, 32, 4, 0, 251, 255, 0, 16, 32, 48], 25, 5, 5⟩).2 2
      = (0, ⟨[98, 152, 176, 96, 3, 32, 4, 0, 251, 255, 0, 16, 32, 48], 25, 6, 0⟩) ∧
    next_boundry ⟨[98, 152, 176, 96, 3, 32, 4, 0, 251, 255, 0, 16, 32, 48], 25, 6, 0⟩
      = ⟨[98, 152, 176, 96, 3, 32, 4, 0, 251, 255, 0, 16, 32, 48], 25, 7, 0⟩ ∧
    (pull_bits (next_boundry
        ⟨[98, 152, 176, 96, 3, 32, 4, 0, 251, 255, 0, 16, 32, 48], 25, 6, 0⟩) 16).1
      = 64256 ∧
    (decode_blocks Host.little 20
        ⟨[98, 152, 176, 96, 3, 32, 255, 0, 0, 255] ++ List.replicate 255 7, 10290, 0, 0⟩
        create_array).toOption.map
          (fun r => (r.1, r.2.1.byte_position, r.2.1.bit_position, r.2.2.data))
      = some (true, 15, 0, [0, 144, 160, 176]) := by
  decide!

theorem nth_bit_eq_array_get (arr : dynamic_array) (hbit : arr.bit_position < 8) (i : Nat) :
    nth_bit arr i =
      array_get arr (arr.byte_position + (arr.bit_position + i) / 8)
        / 2 ^ ((arr.bit_position + i) % 8) % 2 := by
  obtain ⟨d1, d2, d3, d4⟩ := skip_bit_iterate arr hbit i
  unfold nth_bit
  rw [pull_bit_fst _ (by rw [d4]; omega), d3, d4]
  unfold array_get
  rw [d1, d2]

/-- C13, as stated, fails: on the empty buffer of `create_array` the cursor is at the
end of the data (`byte_position = count = 0`), and `pull_bit` and `pull_bits 8` return
the value 0, read from the zeroed allocation, and advance the cursor. -/
theorem pull_bits_at_end_returns_value :
    create_array.byte_position ≥ create_array.count ∧
    (pull_bit create_array).1 = 0 ∧
    pull_bits create_array 8 = (0, ⟨[], 25, 1, 0⟩) := by
  decide

/-- C13, amended: `pull_bit` and `pull_bits` have no failure outcome.  For every buffer,
every cursor and `1 ≤ n ≤ 32`, also with the cursor at or past the end of the stored
data, `pull_bits n` returns the value assembled, first bit least significant, from the
bytes that `array_get` delivers at the cursor, and advances the cursor by `n` bits; for
a byte index above `max_size`, `array_get` delivers the first byte of the buffer. -/
theorem pull_bits_never_fails (arr : dynamic_array) (n : Nat) (h1 : 1 ≤ n) (h32 : n ≤ 32)
    (hbit : arr.bit_position < 8) :
    (pull_bit arr).1 = array_get arr arr.byte_position / 2 ^ arr.bit_position % 2 ∧
    (pull_bits arr n).1 = ∑ i in Finset.range n,
      (array_get arr (arr.byte_position + (arr.bit_position + i) / 8)
        / 2 ^ ((arr.bit_position + i) % 8) % 2) * 2 ^ i ∧
    (pull_bits arr n).2.byte_position = arr.byte_position + (arr.bit_position + n) / 8 ∧
    (pull_bits arr n).2.bit_position = (arr.bit_position + n) % 8 ∧
    (∀ index, index > arr.max_size → array_get arr index = arr.data.getD 0 0) := by
  obtain ⟨_, _, e3, e4⟩ := skip_bit_iterate arr hbit n
  rw [pull_bits_eq arr n h1 h32]
  refine ⟨pull_bit_fst arr hbit, ?_, e3, e4, ?_⟩
  · show (∑ i in Finset.range n, nth_bit arr i * 2 ^ i) = _
    apply Finset.sum_congr rfl
    intro i _
    rw [nth_bit_eq_array_get arr hbit i]
  · intro index hidx
    unfold array_get
    rw [if_pos hidx]

/-- C13, amended, on a one-byte buffer with the cursor at its end: 8 bits are read
from the allocation behind the data. -/
theorem pull_bits_never_fails_witness :
    (pull_bits ⟨[255], 25, 1, 0⟩ 8).2.byte_position = 1 + (0 + 8) / 8 :=
  (pull_bits_never_fails ⟨[255], 25, 1, 0⟩ 8 (by decide) (by decide) (by decide)).2.2.1

/-- C14, as stated, fails: the tree of the lengths `1 0` has the single code `0` (a left
leaf for symbol 0) and no right child; on the bits `1 0` `get_symbol` stays on the root
at the first bit and returns symbol 0 at the second. -/
theorem get_symbol_continues_after_null_child :
    (create_dynamic_tree [1, 0] 2).right = node.null ∧
    (pull_bit ⟨[1], 25, 0, 0⟩).1 = 1 ∧
    get_symbol 2 ⟨[1], 25, 0, 0⟩ (create_dynamic_tree [1, 0] 2)
      = some (0, ⟨[1], 25, 0, 2⟩) := by
  decide

/-- C14, amended: when the next bit selects an absent child (left on 0, right on 1) of
a node that is not a leaf, `traverse` leaves the current node where it is and
`get_symbol` goes on from the same node with the next bit; no error is returned. -/
theorem get_symbol_stays_on_null_child (fuel : Nat) (cur : dynamic_array) (tree : node)
    (hleaf : tree.is_leaf = false)
    (hnull : (if (pull_bit cur).1 ≠ 0 then tree.right else tree.left) = node.null) :
    traverse tree (pull_bit cur).1 = tree ∧
    get_symbol (fuel + 1) cur tree = get_symbol fuel (pull_bit cur).2 tree := by
  have ht : traverse tree (pull_bit cur).1 = tree := by
    unfold traverse
    by_cases hb : (pull_bit cur).1 ≠ 0
    · rw [if_pos hb] at hnull
      rw [if_pos hb, if_neg (by rw [hnull]; simp)]
    · rw [if_neg hb] at hnull
      rw [if_neg hb, if_neg (by rw [hnull]; simp)]
  refine ⟨ht, ?_⟩
  conv_lhs => unfold get_symbol
  rw [if_neg (by rw [hleaf]; simp)]
  simp only
  rw [ht]

/-- C14, amended, on the tree of the lengths `1 0` and a stream starting with bit 1. -/
theorem get_symbol_stays_on_null_child_witness :
    get_symbol (1 + 1) ⟨[1], 25, 0, 0⟩ (create_dynamic_tree [1, 0] 2)
      = get_symbol 1 (pull_bit ⟨[1], 25, 0, 0⟩).2 (create_dynamic_tree [1, 0] 2) :=
  (get_symbol_stays_on_null_child 1 ⟨[1], 25, 0, 0⟩ (create_dynamic_tree [1, 0] 2)
    (by decide) (by decide)).2

/-! ## The Paeth predictor -/

/-- C20: for all bytes `a`, `b`, `c`, with `p = a + b - c` in signed arithmetic,
`paeth a b c` is one of `a`, `b`, `c`, its distance from `p` is the minimum of
`|p-a|`, `|p-b|`, `|p-c|`, and ties are resolved in the order `a`, `b`, `c`: it is `a`
when `|p-a|` is minimal, else `b` when `|p-b| ≤ |p-c|`, else `c`; and
`paeth 0 0 0 = 0`. -/
theorem paeth_spec (a b c : Int) (_ha : 0 ≤ a ∧ a ≤ 255) (_hb : 0 ≤ b ∧ b ≤ 255)
    (_hc : 0 ≤ c ∧ c ≤ 255) :
    (paeth a b c = a ∨ paeth a b c = b ∨ paeth a b c = c) ∧
    |a + b - c - paeth a b c| ≤ |a + b - c - a| ∧
    |a + b - c - paeth a b c| ≤ |a + b - c - b| ∧
    |a + b - c - paeth a b c| ≤ |a + b - c - c| ∧
    (|a + b - c - a| ≤ |a + b - c - b| ∧ |a + b - c - a| ≤ |a + b - c - c| →
      paeth a b c = a) ∧
    (¬ (|a + b - c - a| ≤ |a + b - c - b| ∧ |a + b - c - a| ≤ |a + b - c - c|) →
      |a + b - c - b| ≤ |a + b - c - c| → paeth a b c = b) ∧
    (¬ (|a + b - c - a| ≤ |a + b - c - b| ∧ |a + b - c - a| ≤ |a + b - c - c|) →
      ¬ |a + b - c - b| ≤ |a + b - c - c| → paeth a b c = c) ∧
    paeth 0 0 0 = 0 := by
  have h0 : paeth 0 0 0 = 0 := by decide
  refine ⟨?_, ?_, ?_, ?_, ?_, ?_, ?_, h0⟩
  all_goals
    unfold paeth
    simp only
    by_cases h1 : |a + b - c - a| ≤ |a + b - c - b| ∧ |a + b - c - a| ≤ |a + b - c - c|
    · rw [if_pos h1]
      try first
        | exact Or.inl rfl
        | exact le_refl _
        | exact h1.1
        | exact h1.2
        | exact fun _ => rfl
        | exact fun h => absurd h1 h
    · rw [if_neg h1]
      by_cases h2 : |a + b - c - b| ≤ |a + b - c - c|
      · rw [if_pos h2]
        try first
          | exact Or.inr (Or.inl rfl)
          | exact le_refl _
          | exact h2
          | exact fun h => absurd h h1
          | exact fun _ _ => rfl
          | (intro _ h; exact absurd h2 h)
          | (by_contra hc'; exact h1 ⟨le_of_lt (lt_of_not_le hc'),
              le_trans (le_of_lt (lt_of_not_le hc')) h2⟩)
      · rw [if_neg h2]
        try first
          | exact Or.inr (Or.inr rfl)
          | exact le_refl _
          | exact le_of_lt (lt_of_not_le h2)
          | exact fun h => absurd h h1
          | exact fun _ _ => rfl
          | (intro _ h; exact absurd h h2)
          | (by_contra hc'; exact h1 ⟨le_trans (le_of_lt (lt_of_not_le hc'))
              (le_of_lt (lt_of_not_le h2)), le_of_lt (lt_of_not_le hc')⟩)

/-- C20 on the bytes 0, 0, 0. -/
theorem paeth_spec_witness : paeth 0 0 0 = 0 :=
  (paeth_spec 0 0 0 (by decide) (by decide) (by decide)).2.2.2.2.2.2.2

/-! ## Dynamic headers: repeat codes in `decode_dynamic_tree` -/

/-- C16 does not hold of the code: with the code-length alphabet `5 -> 0`, `16 -> 10`,
`17 -> 11` (transmitted lengths `2 2 0 0 0 0 0 0 0 1`), the symbols 5, 17 (three zeros),
16 (three copies) give the lengths `5 0 0 0 5 5 5`: symbol 16, decoded at index 4,
writes 5, the last literal length, and not the entry 0 at index 3. -/
theorem decode_lengths_repeat_after_zero_run :
    (decode_lengths_loop
      (create_alphabet [2, 2, 0, 0, 0, 0, 0, 0, 0, 1, 0, 0, 0, 0, 0, 0, 0, 0, 0] 10) 7 20
      ⟨[70, 0], 25, 0, 0⟩ (List.replicate 7 0) 0 0).map (fun r => r.2)
      = some [5, 0, 0, 0, 5, 5, 5] := by
  decide

/-- C17 does not hold of the code: with `num_codes = 1` and the code-length alphabet
`17 -> 0`, `18 -> 1` (transmitted lengths `0 1 1 0`), symbol 17 with extra bits `000`
stores three lengths, at the indexes 0, 1 and 2 of a block of one entry, and
`decode_dynamic_tree` returns a tree, not an error. -/
theorem decode_lengths_writes_past_num_codes :
    (decode_lengths_loop
      (create_alphabet [0, 1, 1, 0, 0, 0, 0, 0, 0, 0, 0, 0, 0, 0, 0, 0, 0, 0, 0] 4) 1 20
      ⟨[0], 25, 0, 0⟩ (List.replicate 1 0) 0 0).map (fun r => r.2)
      = some [0, 0, 0] ∧
    (decode_dynamic_tree 20
      (create_alphabet [0, 1, 1, 0, 0, 0, 0, 0, 0, 0, 0, 0, 0, 0, 0, 0, 0, 0, 0] 4)
      ⟨[0], 25, 0, 0⟩ 1).map (fun r => r.1) = some create_node := by
  decide

/-- C15 does not hold of the code.  The dynamic block `05 C3 05 01 00 00 00 80 A0 6D FC 1F A5 65`
(BFINAL = 1, BTYPE = 10, HLIT = 257, HDIST = 4, HCLEN = 18; code-length alphabet
`1 -> 00`, `2 -> 01`, `16 -> 10`, `18 -> 11`) codes its 261 lengths as 18 (65 zeros),
1, 18 (138 zeros), 18 (51 zeros), 2, 2, and then 16 with extra bits `01`: four copies of
the previous length 2, which are the four distance lengths.  Every store is inside its
block of 257 or of 4 entries.  The single sequence, as the loop of `decode_dynamic_tree`
decodes it when it is run once for all 261 lengths, ends in `2 2 2 2`; `generate_dynamic`
returns the literal/length tree of the first 257 entries, but for the distance tree it
starts again at byte 13 with `previous_code = 0`, stores `0 0 0 0`, and returns the tree
without any code, not the tree of `2 2 2 2`. -/
theorem generate_dynamic_restarts_for_distances :
    (generate_dynamic 400
      ⟨[5, 195, 5, 1, 0, 0, 0, 128, 160, 109, 252, 31, 165, 101], 25, 0, 3⟩).map
        (fun r => (r.1, r.2.1, r.2.2.byte_position, r.2.2.bit_position))
      = some (create_dynamic_tree
          (List.replicate 65 0 ++ [1] ++ List.replicate 189 0 ++ [2, 2]) 257,
        create_dynamic_tree [0, 0, 0, 0] 4, 13, 4) ∧
    (decode_lengths_loop
      (create_alphabet [2, 0, 2, 0, 0, 0, 0, 0, 0, 0, 0, 0, 0, 0, 0, 2, 0, 2, 0] 18) 261 400
      ⟨[5, 195, 5, 1, 0, 0, 0, 128, 160, 109, 252, 31, 165, 101], 25, 8, 7⟩
      (List.replicate 261 0) 0 0).map (fun r => r.2)
      = some (List.replicate 65 0 ++ [1] ++ List.replicate 189 0 ++ [2, 2] ++ [2, 2, 2, 2]) ∧
    (decode_lengths_loop
      (create_alphabet [2, 0, 2, 0, 0, 0, 0, 0, 0, 0, 0, 0, 0, 0, 0, 2, 0, 2, 0] 18) 4 400
      ⟨[5, 195, 5, 1, 0, 0, 0, 128, 160, 109, 252, 31, 165, 101], 25, 13, 0⟩
      (List.replicate 4 0) 0 0).map (fun r => r.2) = some [0, 0, 0, 0] ∧
    create_dynamic_tree [0, 0, 0, 0] 4 = create_node ∧
    create_dynamic_tree [0, 0, 0, 0] 4 ≠ create_dynamic_tree [2, 2, 2, 2] 4 := by
  decide!

/-! ## The fixed trees (C19) -/

/-- In `static_symbol` the path of the fixed code of every symbol `s < 288` ends in a
leaf for `s`, and no proper prefix of it ends in a leaf. -/
theorem static_symbol_paths : ∀ s, s < 288 →
    (node_at static_symbol (msb_bits (spec_fixed_code s) (spec_fixed_length s))).is_leaf
      = true ∧
    (node_at static_symbol (msb_bits (spec_fixed_code s) (spec_fixed_length s))).symbol
      = s ∧
    ∀ k, k < spec_fixed_length s →
      (node_at static_symbol
        ((msb_bits (spec_fixed_code s) (spec_fixed_length s)).take k)).is_leaf = false := by
  decide!

/-- In `static_distance` the path of the 5-bit value `d < 30` ends in a leaf for `d`, and
no proper prefix of it ends in a leaf. -/
theorem static_distance_paths : ∀ d, d < 30 →
    (node_at static_distance (msb_bits d 5)).is_leaf = true ∧
    (node_at static_distance (msb_bits d 5)).symbol = d ∧
    ∀ k, k < 5 → (node_at static_distance ((msb_bits d 5).take k)).is_leaf = false := by
  decide

/-- A stream whose next `l` bits are the `l` low bits of `c`, most significant first,
follows the path `msb_bits c l`. -/
theorem nth_bit_msb_bits (cur : dynamic_array) (c l : Nat)
    (hbits : ∀ i, i < l → nth_bit cur i = c / 2 ^ (l - 1 - i) % 2) :
    ∀ i (h : i < (msb_bits c l).length),
      nth_bit cur i = if (msb_bits c l)[i] then 1 else 0 := by
  intro i hi
  have hlen := msb_bits_length c l
  rw [msb_bits_getElem, hbits i (by rw [hlen] at hi; exact hi)]
  rcases Nat.mod_two_eq_zero_or_one (c / 2 ^ (l - 1 - i)) with h | h
  · rw [h]; rfl
  · rw [h]; rfl

/-- C19: the static trees implement the fixed codes.  For every literal/length symbol
`s < 288`, `get_symbol` on `static_symbol` with a stream whose next bits are the fixed
code of `s` (`spec_fixed_code`, on `spec_fixed_length s` bits), most significant bit
first, returns `s` and consumes exactly those bits; and for every distance symbol
`d < 30`, `get_symbol` on `static_distance` with the 5-bit value `d`, most significant
bit first, returns `d` and consumes 5 bits.  The fuel only has to allow one step per
bit. -/
theorem static_trees_decode (s d : Nat) (cur cur2 : dynamic_array) (fuel fuel2 : Nat)
    (hs : s < 288) (hd : d < 30)
    (hbits : ∀ i, i < spec_fixed_length s →
      nth_bit cur i = spec_fixed_code s / 2 ^ (spec_fixed_length s - 1 - i) % 2)
    (hbits2 : ∀ i, i < 5 → nth_bit cur2 i = d / 2 ^ (5 - 1 - i) % 2)
    (hfuel : spec_fixed_length s ≤ fuel) (hfuel2 : 5 ≤ fuel2) :
    get_symbol fuel cur static_symbol
        = some ((s : Int), skip_bit^[spec_fixed_length s] cur) ∧
      get_symbol fuel2 cur2 static_distance = some ((d : Int), skip_bit^[5] cur2) := by
  obtain ⟨a1, a2, a3⟩ := static_symbol_paths s hs
  obtain ⟨b1, b2, b3⟩ := static_distance_paths d hd
  have hlen := msb_bits_length (spec_fixed_code s) (spec_fixed_length s)
  have hlen2 := msb_bits_length d 5
  have g1 := get_symbol_of_path (msb_bits (spec_fixed_code s) (spec_fixed_length s))
    static_symbol cur fuel (nth_bit_msb_bits cur _ _ hbits) a1
    (by rw [hlen]; exact a3) (by rw [hlen]; exact hfuel)
  have g2 := get_symbol_of_path (msb_bits d 5) static_distance cur2 fuel2
    (nth_bit_msb_bits cur2 _ _ hbits2) b1 (by rw [hlen2]; exact b3)
    (by rw [hlen2]; exact hfuel2)
  rw [g1, g2, a2, b2, hlen, hlen2, to_i32_of_range _ (by omega) (by omega),
    to_i32_of_range _ (by omega) (by omega)]
  exact ⟨rfl, rfl⟩

/-- C19 on the end-of-block symbol 256 (code `0000000`, read from the byte `00`) and on
the distance symbol 3 (`00011`, read from the byte `18`). -/
theorem static_trees_decode_witness :
    get_symbol 7 ⟨[0], 25, 0, 0⟩ static_symbol
        = some (((256 : Nat) : Int), skip_bit^[spec_fixed_length 256] ⟨[0], 25, 0, 0⟩) ∧
      get_symbol 5 ⟨[24], 25, 0, 0⟩ static_distance
        = some (((3 : Nat) : Int), skip_bit^[5] ⟨[24], 25, 0, 0⟩) :=
  static_trees_decode 256 3 ⟨[0], 25, 0, 0⟩ ⟨[24], 25, 0, 0⟩ 7 5
    (by decide) (by decide) (by decide) (by decide) (by decide) (by decide)

/-! ## The tree of the code-length alphabet (C18) -/

theorem add_node_succ (s : Nat) (l r : node) (f : Bool) (sym code n : Nat) :
    add_node (node.mk s l r f) sym code (n + 1) =
      if code &&& 1 = 1 then
        node.mk s l (add_node (if r ≠ node.null then r else create_node) sym (code >>> 1) n) f
      else
        node.mk s (add_node (if l ≠ node.null then l else create_node) sym (code >>> 1) n) r f :=
  rfl

theorem add_node_zero (s : Nat) (l r : node) (f : Bool) (sym code : Nat) :
    add_node (node.mk s l r f) sym code 0 = node.mk sym l r true := rfl

/-- Two insertions with codes of different lengths commute. -/
theorem add_node_comm (lx : Nat) :
    ∀ (t : node) (x cx y cy ly : Nat), lx ≠ ly →
      add_node (add_node t x cx lx) y cy ly = add_node (add_node t y cy ly) x cx lx := by
  induction lx with
  | zero =>
    intro t x cx y cy ly hne
    cases t with
    | null => cases ly <;> rfl
    | mk s l r f =>
      cases ly with
      | zero => exact absurd rfl hne
      | succ n =>
        rw [add_node_zero, add_node_succ, add_node_succ]
        split <;> rfl
  | succ m ih =>
    intro t x cx y cy ly hne
    cases t with
    | null => cases ly <;> rfl
    | mk s l r f =>
      cases ly with
      | zero =>
        rw [add_node_zero, add_node_succ, add_node_succ]
        split <;> rfl
      | succ n =>
        have hmn : m ≠ n := by omega
        have hr := child_or_new_ne_null r
        have hl := child_or_new_ne_null l
        rw [add_node_succ s l r f x, add_node_succ s l r f y]
        by_cases h1 : cx &&& 1 = 1 <;> by_cases h2 : cy &&& 1 = 1
        · rw [if_pos h1, if_pos h2, add_node_succ, add_node_succ, if_pos h1, if_pos h2,
            if_pos (add_node_ne_null _ _ _ _ hr), if_pos (add_node_ne_null _ _ _ _ hr),
            ih _ _ _ _ _ _ hmn]
        · rw [if_pos h1, if_neg h2, add_node_succ, add_node_succ, if_pos h1, if_neg h2]
        · rw [if_neg h1, if_pos h2, add_node_succ, add_node_succ, if_neg h1, if_pos h2]
        · rw [if_neg h1, if_neg h2, add_node_succ, add_node_succ, if_neg h1, if_neg h2,
            if_pos (add_node_ne_null _ _ _ _ hl), if_pos (add_node_ne_null _ _ _ _ hl),
            ih _ _ _ _ _ _ hmn]

/-- Two iterations of the loop of `create_dynamic_tree` on symbols of different lengths
commute. -/
theorem dynamic_tree_step_comm (L : List Nat) (st : node × List Nat) (x y : Nat)
    (hne : L.getD x 0 ≠ L.getD y 0) :
    dynamic_tree_step L (dynamic_tree_step L st x) y
      = dynamic_tree_step L (dynamic_tree_step L st y) x := by
  unfold dynamic_tree_step
  simp only
  by_cases hx : L.getD x 0 > 0
  · by_cases hy : L.getD y 0 > 0
    · simp only [if_pos hx, if_pos hy]
      rw [getD_set_ne _ _ _ _ hne, getD_set_ne _ _ _ _ (Ne.symm hne),
        add_node_comm _ _ _ _ _ _ _ hne, List.set_comm _ _ _ hne]
    · simp only [if_pos hx, if_neg hy]
  · by_cases hy : L.getD y 0 > 0
    · simp only [if_pos hy, if_neg hx]
    · simp only [if_neg hx, if_neg hy]

/-- An operation that commutes with every element of a list can be moved in front of
the fold over the list. -/
theorem foldl_comm_front {σ : Type} (f : σ → Nat → σ) (a : Nat) (B : List Nat) :
    (∀ b ∈ B, ∀ st, f (f st b) a = f (f st a) b) →
    ∀ st, f (B.foldl f st) a = B.foldl f (f st a) := by
  induction B with
  | nil => intro _ st; rfl
  | cons b B ih =>
    intro h st
    simp only [List.foldl_cons]
    rw [ih (fun c hc => h c (List.mem_cons_of_mem _ hc)) (f st b),
      h b (List.mem_cons_self _ _) st]

/-- Splitting a list by a key: the fold over the elements of key below `m` followed by
those of key `m` is the fold over the elements of key at most `m` in their order, when
operations on elements of different keys commute. -/
theorem foldl_filter_merge {σ : Type} (f : σ → Nat → σ) (key : Nat → Nat) (m : Nat)
    (hcomm : ∀ a b st, key a ≠ key b → f (f st a) b = f (f st b) a) (A : List Nat) :
    ∀ st, (A.filter (fun a => key a = m)).foldl f ((A.filter (fun a => key a < m)).foldl f st)
      = (A.filter (fun a => key a < m + 1)).foldl f st := by
  induction A with
  | nil => intro st; rfl
  | cons a A ih =>
    intro st
    rcases Nat.lt_trichotomy (key a) m with h | h | h
    · rw [List.filter_cons_of_pos (by simpa using h),
        List.filter_cons_of_neg (by simp; omega),
        List.filter_cons_of_pos (by simp; omega)]
      simp only [List.foldl_cons]
      exact ih _
    · rw [List.filter_cons_of_neg (by simp; omega),
        List.filter_cons_of_pos (by simpa using h),
        List.filter_cons_of_pos (by simp; omega)]
      simp only [List.foldl_cons]
      rw [foldl_comm_front f a _ (by
        intro b hb st2
        have hb2 := (List.mem_filter.mp hb).2
        simp only [decide_eq_true_eq] at hb2
        exact hcomm b a st2 (by omega))]
      exact ih _
    · rw [List.filter_cons_of_neg (by simp; omega),
        List.filter_cons_of_neg (by simp; omega),
        List.filter_cons_of_neg (by simp; omega)]
      exact ih _

/-- One pass per key, each over the whole list and acting on the elements of that key,
is the fold over the elements of key below the number of passes. -/
theorem foldl_by_key {σ : Type} (f : σ → Nat → σ) (key : Nat → Nat)
    (hcomm : ∀ a b st, key a ≠ key b → f (f st a) b = f (f st b) a) (A : List Nat)
    (st : σ) (m : Nat) :
    (List.range m).foldl
        (fun st i => A.foldl (fun st x => if key x = i then f st x else st) st) st
      = (A.filter (fun a => key a < m)).foldl f st := by
  induction m with
  | zero =>
    simp
  | succ m ih =>
    rw [List.range_succ, List.foldl_append, ih]
    simp only [List.foldl_cons, List.foldl_nil]
    rw [← foldl_filter_merge f key m hcomm A st]
    generalize (A.filter (fun a => key a < m)).foldl f st = st2
    clear ih
    induction A generalizing st2 with
    | nil => rfl
    | cons a A ih2 =>
      by_cases h : key a = m
      · rw [List.filter_cons_of_pos (by simpa using h)]
        simp only [List.foldl_cons, if_pos h]
        exact ih2 _
      · rw [List.filter_cons_of_neg (by simpa using h)]
        simp only [List.foldl_cons, if_neg h]
        exact ih2 _

/-- The table `alphabet_indexes` is the inverse permutation of the transmission order. -/
theorem alphabet_indexes_inverse :
    (∀ k, k < 19 → code_length_order.getD k 0 < 19 ∧
      alphabet_indexes.getD (code_length_order.getD k 0) 0 = k) ∧
    (∀ x, x < 19 → alphabet_indexes.getD x 0 < 19 ∧
      code_length_order.getD (alphabet_indexes.getD x 0) 0 = x) := by
  decide

theorem alphabet_indexes_perm : alphabet_indexes.Perm (List.range 19) := by
  decide

/-- The lengths of the specification, symbol by symbol: symbol `x` has the length
transmitted at position `alphabet_indexes[x]`. -/
theorem spec_alphabet_lengths_getD (r : List Nat) (H : Nat) (hH : H ≤ 19) :
    (spec_alphabet_lengths r H).length = 19 ∧
    ∀ x, x < 19 → (spec_alphabet_lengths r H).getD x 0
      = if alphabet_indexes.getD x 0 < H then r.getD (alphabet_indexes.getD x 0) 0 else 0 := by
  induction H with
  | zero =>
    refine ⟨by simp [spec_alphabet_lengths], ?_⟩
    intro x hx
    simp only [spec_alphabet_lengths, List.range_zero, List.foldl_nil, Nat.not_lt_zero,
      if_false]
    rw [List.getD_eq_getElem _ _ (by rw [List.length_replicate]; exact hx)]
    exact List.getElem_replicate _ _
  | succ H ih =>
    obtain ⟨h1, h2⟩ := ih (by omega)
    have e : spec_alphabet_lengths r (H + 1)
        = (spec_alphabet_lengths r H).set (code_length_order.getD H 0) (r.getD H 0) := by
      unfold spec_alphabet_lengths
      rw [List.range_succ, List.foldl_append]
      rfl
    rw [e]
    refine ⟨by rw [List.length_set, h1], ?_⟩
    intro x hx
    obtain ⟨a1, a2⟩ := alphabet_indexes_inverse.1 H (by omega)
    obtain ⟨b1, b2⟩ := alphabet_indexes_inverse.2 x hx
    by_cases hc : code_length_order.getD H 0 = x
    · subst hc
      rw [getD_set_self _ _ _ (by omega), a2, if_pos (by omega)]
    · rw [getD_set_ne _ _ _ _ hc, h2 x hx]
      have hne : alphabet_indexes.getD x 0 ≠ H := by
        intro h
        rw [h] at b2
        exact hc b2
      by_cases hlt : alphabet_indexes.getD x 0 < H
      · rw [if_pos hlt, if_pos (by omega)]
      · rw [if_neg hlt, if_neg (by omega)]

/-- With zeros after the first `H` transmitted lengths, the lengths of the specification
are the transmitted ones read through `alphabet_indexes`. -/
theorem spec_alphabet_lengths_eq_map (r : List Nat) (H : Nat) (hH : H ≤ 19)
    (hzero : ∀ k, H ≤ k → r.getD k 0 = 0) :
    spec_alphabet_lengths r H = alphabet_indexes.map (fun k => r.getD k 0) := by
  obtain ⟨h1, h2⟩ := spec_alphabet_lengths_getD r H hH
  apply List.ext_getElem
  · rw [h1]; rfl
  · intro n hn1 hn2
    rw [h1] at hn1
    have e := h2 n hn1
    rw [List.getD_eq_getElem _ _ (by rw [h1]; exact hn1)] at e
    rw [e, List.getElem_map]
    have e2 : alphabet_indexes.getD n 0 = alphabet_indexes[n] :=
      List.getD_eq_getElem _ _ _
    rw [← e2]
    by_cases hlt : alphabet_indexes.getD n 0 < H
    · rw [if_pos hlt]
    · rw [if_neg hlt, hzero _ (by omega)]

theorem list_eq_map_getD (r : List Nat) :
    r = (List.range r.length).map (fun k => r.getD k 0) := by
  apply List.ext_getElem
  · simp
  · intro n hn1 hn2
    rw [List.getElem_map, List.getElem_range, List.getD_eq_getElem _ _ hn1]

/-- The lengths of the specification are a rearrangement of the transmitted ones. -/
theorem spec_alphabet_lengths_perm (r : List Nat) (H : Nat) (hH : H ≤ 19)
    (hr : r.length = 19) (hzero : ∀ k, H ≤ k → r.getD k 0 = 0) :
    (spec_alphabet_lengths r H).Perm r := by
  rw [spec_alphabet_lengths_eq_map r H hH hzero]
  have e := list_eq_map_getD r
  rw [hr] at e
  nth_rewrite 2 [e]
  exact List.Perm.map _ alphabet_indexes_perm

/-- Lengths other than 0 occur as often among the first `H` transmitted lengths as in
the lengths of the specification. -/
theorem spec_alphabet_lengths_count (r : List Nat) (H : Nat) (hH : H ≤ 19)
    (hr : r.length = 19) (hzero : ∀ k, H ≤ k → r.getD k 0 = 0) (b : Nat) (hb : b ≠ 0) :
    (spec_alphabet_lengths r H).count b = (r.take H).count b := by
  rw [(spec_alphabet_lengths_perm r H hH hr hzero).count_eq b]
  nth_rewrite 1 [← List.take_append_drop H r]
  rw [List.count_append]
  have h0 : (r.drop H).count b = 0 := by
    apply List.count_eq_zero_of_not_mem
    intro hmem
    obtain ⟨i, hi, he⟩ := List.getElem_of_mem hmem
    rw [List.getElem_drop] at he
    have hz := hzero (H + i) (by omega)
    rw [List.getD_eq_getElem _ _ (by rw [List.length_drop] at hi; omega)] at hz
    omega
  omega

/-- The bound computed by the first loop of `generate_codes` is the running maximum that
`create_alphabet` computes as `biggest_length`. -/
theorem count_lengths_max (L : List Nat) (m : Nat) :
    ((List.range m).foldl (count_lengths_step L) (List.replicate 33 0, 0)).2
      = (List.range m).foldl
          (fun (mx : Nat) i => if L.getD i 0 > mx then L.getD i 0 else mx) 0 := by
  induction m with
  | zero => rfl
  | succ m ih =>
    rw [List.range_succ, List.foldl_append, List.foldl_append]
    simp only [List.foldl_cons, List.foldl_nil]
    rw [← ih]
    rfl

/-- The running maximum bounds the first `m` entries and is 0 or one of them. -/
theorem biggest_length_spec (L : List Nat) (m : Nat) :
    (∀ i, i < m → L.getD i 0 ≤ (List.range m).foldl
      (fun (mx : Nat) i => if L.getD i 0 > mx then L.getD i 0 else mx) 0) ∧
    ((List.range m).foldl
        (fun (mx : Nat) i => if L.getD i 0 > mx then L.getD i 0 else mx) 0 = 0 ∨
      ∃ i, i < m ∧ L.getD i 0 = (List.range m).foldl
        (fun (mx : Nat) i => if L.getD i 0 > mx then L.getD i 0 else mx) 0) := by
  induction m with
  | zero => exact ⟨fun i hi => absurd hi (Nat.not_lt_zero i), Or.inl rfl⟩
  | succ m ih =>
    rw [List.range_succ, List.foldl_append]
    simp only [List.foldl_cons, List.foldl_nil]
    generalize (List.range m).foldl
      (fun (mx : Nat) i => if L.getD i 0 > mx then L.getD i 0 else mx) 0 = M at ih ⊢
    obtain ⟨h1, h2⟩ := ih
    by_cases hc : L.getD m 0 > M
    · rw [if_pos hc]
      refine ⟨?_, Or.inr ⟨m, by omega, rfl⟩⟩
      intro i hi
      rcases Nat.lt_succ_iff_lt_or_eq.mp hi with h | h
      · have := h1 i h; omega
      · subst h; exact le_refl _
    · rw [if_neg hc]
      refine ⟨?_, ?_⟩
      · intro i hi
        rcases Nat.lt_succ_iff_lt_or_eq.mp hi with h | h
        · exact h1 i h
        · subst h; omega
      · rcases h2 with h | ⟨i, hi, he⟩
        · exact Or.inl h
        · exact Or.inr ⟨i, by omega, he⟩

/-- The biggest transmitted length is the biggest length of the specification. -/
theorem biggest_length_eq (r : List Nat) (H : Nat) (hH : H ≤ 19) :
    (List.range H).foldl (fun (mx : Nat) i => if r.getD i 0 > mx then r.getD i 0 else mx) 0
      = (List.range 19).foldl
          (fun (mx : Nat) i => if (spec_alphabet_lengths r H).getD i 0 > mx
            then (spec_alphabet_lengths r H).getD i 0 else mx) 0 := by
  obtain ⟨a1, a2⟩ := biggest_length_spec r H
  obtain ⟨b1, b2⟩ := biggest_length_spec (spec_alphabet_lengths r H) 19
  obtain ⟨_, hL⟩ := spec_alphabet_lengths_getD r H hH
  generalize (List.range H).foldl
    (fun (mx : Nat) i => if r.getD i 0 > mx then r.getD i 0 else mx) 0 = M1 at a1 a2 ⊢
  generalize (List.range 19).foldl
    (fun (mx : Nat) i => if (spec_alphabet_lengths r H).getD i 0 > mx
      then (spec_alphabet_lengths r H).getD i 0 else mx) 0 = M2 at b1 b2 ⊢
  apply le_antisymm
  · rcases a2 with h | ⟨i, hi, he⟩
    · omega
    · obtain ⟨c1, c2⟩ := alphabet_indexes_inverse.1 i (by omega)
      have hb := b1 _ c1
      rw [hL _ c1, c2, if_pos hi] at hb
      omega
  · rcases b2 with h | ⟨x, hx, he⟩
    · omega
    · rw [hL x hx] at he
      by_cases hlt : alphabet_indexes.getD x 0 < H
      · rw [if_pos hlt] at he
        have := a1 _ hlt
        omega
      · rw [if_neg hlt] at he
        omega

/-- Every length of the specification is one of the transmitted lengths or 0. -/
theorem spec_alphabet_lengths_le (r : List Nat) (H : Nat) (hH : H ≤ 19)
    (h3 : ∀ v ∈ r, v < 8) : ∀ l ∈ spec_alphabet_lengths r H, l ≤ 15 := by
  obtain ⟨h1, h2⟩ := spec_alphabet_lengths_getD r H hH
  intro l hl
  obtain ⟨i, hi, he⟩ := List.getElem_of_mem hl
  have e := h2 i (by omega)
  rw [List.getD_eq_getElem _ _ hi, he] at e
  rw [e]
  split
  · rcases Nat.lt_or_ge (alphabet_indexes.getD i 0) r.length with h | h
    · rw [List.getD_eq_getElem _ _ h]
      have := h3 _ (List.getElem_mem h)
      omega
    · rw [List.getD_eq_default _ _ h]
      omega
  · omega

/-- The first codes computed from the `HCLEN` transmitted lengths are those computed
from the 19 lengths of the specification. -/
theorem generate_codes_alphabet (r : List Nat) (H : Nat) (hH : H ≤ 19)
    (hr : r.length = 19) (h3 : ∀ v ∈ r, v < 8) (hzero : ∀ k, H ≤ k → r.getD k 0 = 0) :
    generate_codes r H = generate_codes (spec_alphabet_lengths r H) 19 := by
  obtain ⟨hlen, _⟩ := spec_alphabet_lengths_getD r H hH
  obtain ⟨a1, a2, _, _⟩ := count_lengths_fold r (fun l hl => by have := h3 l hl; omega)
    (by omega) H (by omega)
  obtain ⟨b1, b2, _, _⟩ := count_lengths_fold (spec_alphabet_lengths r H)
    (spec_alphabet_lengths_le r H hH h3) (by omega) 19 (by omega)
  have hmax := biggest_length_eq r H hH
  rw [← count_lengths_max, ← count_lengths_max] at hmax
  unfold generate_codes
  simp only
  generalize (List.range H).foldl (count_lengths_step r) (List.replicate 33 0, 0) = s1
    at a1 a2 hmax ⊢
  generalize (List.range 19).foldl (count_lengths_step (spec_alphabet_lengths r H))
    (List.replicate 33 0, 0) = s2 at b1 b2 hmax ⊢
  have hbl : s1.1.set 0 0 = s2.1.set 0 0 := by
    apply List.ext_getElem
    · rw [List.length_set, List.length_set, a1, b1]
    · intro n hn1 hn2
      rw [List.length_set, a1] at hn1
      rw [← List.getD_eq_getElem _ 0 (by rw [List.length_set, a1]; exact hn1),
        ← List.getD_eq_getElem _ 0 (by rw [List.length_set, b1]; exact hn1)]
      by_cases h0 : n = 0
      · subst h0
        rw [getD_set_self _ _ _ (by omega), getD_set_self _ _ _ (by omega)]
      · rw [getD_set_ne _ _ _ _ (by omega), getD_set_ne _ _ _ _ (by omega), a2, b2,
          if_pos hn1, if_pos hn1]
        have hc := spec_alphabet_lengths_count r H hH hr hzero n h0
        rw [← hlen, List.take_length]
        exact hc.symm
  rw [hbl, hmax]

/-- The inner loop of `create_alphabet` for length `i` runs the loop body of
`create_dynamic_tree` on the symbols whose length is `i`. -/
theorem alphabet_step_eq (r : List Nat) (H : Nat) (hH : H ≤ 19)
    (hzero : ∀ k, H ≤ k → r.getD k 0 = 0) (i : Nat) (st : node × List Nat) (x : Nat)
    (hx : x < 19) :
    alphabet_step r i st x
      = if (spec_alphabet_lengths r H).getD x 0 = i
        then dynamic_tree_step (spec_alphabet_lengths r H) st x else st := by
  obtain ⟨_, h2⟩ := spec_alphabet_lengths_getD r H hH
  have e : (spec_alphabet_lengths r H).getD x 0 = r.getD (alphabet_indexes.getD x 0) 0 := by
    rw [h2 x hx]
    by_cases hlt : alphabet_indexes.getD x 0 < H
    · rw [if_pos hlt]
    · rw [if_neg hlt, hzero _ (by omega)]
  unfold alphabet_step dynamic_tree_step
  simp only
  rw [e]
  generalize r.getD (alphabet_indexes.getD x 0) 0 = len
  by_cases h1 : len = i
  · subst h1
    by_cases h0 : len = 0
    · rw [if_neg (by simp [h0]), if_pos rfl, if_neg (by omega)]
    · rw [if_pos ⟨rfl, h0⟩, if_pos rfl, if_pos (by omega)]
  · rw [if_neg (by simp [h1]), if_neg h1]

/-- The tree of `create_alphabet` on the transmitted lengths is the canonical tree of
the lengths of the specification. -/
theorem create_alphabet_eq (r : List Nat) (H : Nat) (hH : H ≤ 19) (hr : r.length = 19)
    (h3 : ∀ v ∈ r, v < 8) (hzero : ∀ k, H ≤ k → r.getD k 0 = 0) :
    create_alphabet r H = create_dynamic_tree (spec_alphabet_lengths r H) 19 := by
  unfold create_alphabet create_dynamic_tree
  simp only
  rw [generate_codes_alphabet r H hH hr h3 hzero, biggest_length_eq r H hH]
  generalize generate_codes (spec_alphabet_lengths r H) 19 = nc
  obtain ⟨hb, _⟩ := biggest_length_spec (spec_alphabet_lengths r H) 19
  generalize (List.range 19).foldl
    (fun (mx : Nat) i => if (spec_alphabet_lengths r H).getD i 0 > mx
      then (spec_alphabet_lengths r H).getD i 0 else mx) 0 = M at hb ⊢
  have hinner : (fun (st : node × List Nat) i =>
        (List.range 19).foldl (alphabet_step r i) st)
      = (fun (st : node × List Nat) i => (List.range 19).foldl
          (fun st x => if (fun x => (spec_alphabet_lengths r H).getD x 0) x = i
            then dynamic_tree_step (spec_alphabet_lengths r H) st x else st) st) := by
    funext st i
    apply List.foldl_ext
    intro a b hb
    exact alphabet_step_eq r H hH hzero i a b (List.mem_range.mp hb)
  rw [hinner, foldl_by_key (dynamic_tree_step (spec_alphabet_lengths r H))
    (fun x => (spec_alphabet_lengths r H).getD x 0)
    (fun a b st hne => dynamic_tree_step_comm _ st a b hne)]
  rw [List.filter_eq_self.mpr]
  intro a ha
  have := hb a (List.mem_range.mp ha)
  simp only [decide_eq_true_eq]
  omega

/-- C18: for every `HCLEN ≤ 19` (in particular `4..19`) and every zero-filled 19-entry
array `r` holding `HCLEN` 3-bit lengths in transmission order, `create_alphabet r HCLEN`
is the canonical tree `create_dynamic_tree L 19` of the lengths `L` of the
specification (`spec_alphabet_lengths`): `L` has 19 entries, `L[order[k]] = r[k]` for
`k < HCLEN` and `L[x] = 0` for every other symbol `x`, with `order` the transmission
order `code_length_order`; and `alphabet_indexes` is the inverse permutation of
`order`. -/
theorem create_alphabet_canonical (r : List Nat) (HCLEN : Nat) (h19 : HCLEN ≤ 19)
    (hr : r.length = 19) (h3 : ∀ v ∈ r, v < 8)
    (hzero : ∀ k, k < 19 → HCLEN ≤ k → r.getD k 0 = 0) :
    create_alphabet r HCLEN = create_dynamic_tree (spec_alphabet_lengths r HCLEN) 19 ∧
    (spec_alphabet_lengths r HCLEN).length = 19 ∧
    (∀ k, k < HCLEN →
      (spec_alphabet_lengths r HCLEN).getD (code_length_order.getD k 0) 0 = r.getD k 0) ∧
    (∀ x, x < 19 → HCLEN ≤ alphabet_indexes.getD x 0 →
      (spec_alphabet_lengths r HCLEN).getD x 0 = 0) ∧
    (∀ k, k < 19 → alphabet_indexes.getD (code_length_order.getD k 0) 0 = k) ∧
    (∀ x, x < 19 → code_length_order.getD (alphabet_indexes.getD x 0) 0 = x) := by
  have hz : ∀ k, HCLEN ≤ k → r.getD k 0 = 0 := by
    intro k hk
    rcases Nat.lt_or_ge k 19 with h | h
    · exact hzero k h hk
    · exact List.getD_eq_default _ _ (by omega)
  obtain ⟨h1, h2⟩ := spec_alphabet_lengths_getD r HCLEN h19
  refine ⟨create_alphabet_eq r HCLEN h19 hr h3 hz, h1, ?_, ?_,
    fun k hk => (alphabet_indexes_inverse.1 k hk).2,
    fun x hx => (alphabet_indexes_inverse.2 x hx).2⟩
  · intro k hk
    obtain ⟨a1, a2⟩ := alphabet_indexes_inverse.1 k (by omega)
    rw [h2 _ a1, a2, if_pos hk]
  · intro x hx hge
    rw [h2 x hx, if_neg (by omega)]

/-- C18 on `HCLEN = 10` with the transmitted lengths `2 2 0 0 0 0 0 0 0 1`: symbols 16
and 17 get 2 bits and symbol 5 gets 1 bit. -/
theorem create_alphabet_canonical_witness :
    spec_alphabet_lengths [2, 2, 0, 0, 0, 0, 0, 0, 0, 1, 0, 0, 0, 0, 0, 0, 0, 0, 0] 10
        = [0, 0, 0, 0, 0, 1, 0, 0, 0, 0, 0, 0, 0, 0, 0, 0, 2, 2, 0] ∧
      create_alphabet [2, 2, 0, 0, 0, 0, 0, 0, 0, 1, 0, 0, 0, 0, 0, 0, 0, 0, 0] 10
        = create_dynamic_tree (spec_alphabet_lengths
            [2, 2, 0, 0, 0, 0, 0, 0, 0, 1, 0, 0, 0, 0, 0, 0, 0, 0, 0] 10) 19 :=
  ⟨by decide, (create_alphabet_canonical
    [2, 2, 0, 0, 0, 0, 0, 0, 0, 1, 0, 0, 0, 0, 0, 0, 0, 0, 0] 10
    (by decide) (by decide) (by decide) (by decide)).1⟩

/-! ## The filter example (C21) and the host byte order (C25) -/

/-- C21, as stated, fails: on the stream `00 00 00 00 FF FF FF 01 FF FF FF 01 01 01` of the
2x2 RGB image the pixel buffer is not `00 00 00 FF FF FF FF FF FF FE FE FE`. -/
theorem handle_filter_example_not_FE :
    (handle_filter ⟨create_array, create_array, 2, 2, 3, 0, 2, 0, 0, 0, 1⟩
      ⟨[0, 0, 0, 0, 255, 255, 255, 1, 255, 255, 255, 1, 1, 1], 10025, 0, 0⟩).pixel_data.data
      ≠ [0, 0, 0, 255, 255, 255, 255, 255, 255, 254, 254, 254] := by
  decide

/-- C21, amended: on the stream `00 00 00 00 FF FF FF 01 FF FF FF 01 01 01` of the 2x2 RGB
image `handle_filter` produces `00 00 00 FF FF FF FF FF FF 00 00 00` (Sub: the second
pixel of row 1 is `01 + FF = 00` modulo 256); the buffer ending in `FE FE FE` is the
one of the stream whose row 1 is `01 FF FF FF FF FF FF`. -/
theorem handle_filter_example :
    (handle_filter ⟨create_array, create_array, 2, 2, 3, 0, 2, 0, 0, 0, 1⟩
      ⟨[0, 0, 0, 0, 255, 255, 255, 1, 255, 255, 255, 1, 1, 1], 10025, 0, 0⟩).pixel_data.data
      = [0, 0, 0, 255, 255, 255, 255, 255, 255, 0, 0, 0] ∧
    (handle_filter ⟨create_array, create_array, 2, 2, 3, 0, 2, 0, 0, 0, 1⟩
      ⟨[0, 0, 0, 0, 255, 255, 255, 1, 255, 255, 255, 255, 255, 255], 10025, 0, 0⟩).pixel_data.data
      = [0, 0, 0, 255, 255, 255, 255, 255, 255, 254, 254, 254] := by
  decide

/-- C25 does not hold of the code: `check_endian` returns 1 on a big-endian host as on a
little-endian one, so the byte swaps are applied on both.  The file of a 1x1 RGB image
(signature, IHDR, one IDAT with a stored block holding `00 10 20 30`, IEND) is read as
the pixel `10 20 30` with `is_valid = 1` on the little-endian host; on the big-endian
host the chunk lengths are swapped to wrong values and `read_png` returns with
`is_valid = 0` and no pixel. -/
theorem check_endian_big_host :
    check_endian Host.big = 1 ∧ check_endian Host.little = 1 ∧
    (read_png Host.little 50 (some
      [137, 80, 78, 71, 13, 10, 26, 10,
       0, 0, 0, 13, 73, 72, 68, 82, 0, 0, 0, 1, 0, 0, 0, 1, 8, 2, 0, 0, 0, 0, 0, 0, 0,
       0, 0, 0, 15, 73, 68, 65, 84, 120, 1, 1, 4, 0, 251, 255, 0, 16, 32, 48, 0, 0, 0, 0,
       0, 0, 0, 0,
       0, 0, 0, 0, 73, 69, 78, 68, 0, 0, 0, 0])).toOption.map
        (fun p => (p.is_valid, p.pixel_data.data)) = some (1, [16, 32, 48]) ∧
    (read_png Host.big 50 (some
      [137, 80, 78, 71, 13, 10, 26, 10,
       0, 0, 0, 13, 73, 72, 68, 82, 0, 0, 0, 1, 0, 0, 0, 1, 8, 2, 0, 0, 0, 0, 0, 0, 0,
       0, 0, 0, 15, 73, 68, 65, 84, 120, 1, 1, 4, 0, 251, 255, 0, 16, 32, 48, 0, 0, 0, 0,
       0, 0, 0, 0,
       0, 0, 0, 0, 73, 69, 78, 68, 0, 0, 0, 0])).toOption.map
        (fun p => (p.is_valid, p.pixel_data.data)) = some (0, []) := by
  decide

/-! ## The byte swap (C27) -/

/-- Masking with eight ones at bit `k` selects the byte at bit `k`. -/
theorem and_byte_mask (u k : Nat) :
    u &&& ((2 ^ 8 - 1) <<< k) = ((u >>> k) % 2 ^ 8) <<< k := by
  apply Nat.eq_of_testBit_eq
  intro j
  rw [Nat.testBit_and, Nat.testBit_shiftLeft, Nat.testBit_shiftLeft,
    Nat.testBit_two_pow_sub_one, Nat.testBit_mod_two_pow, Nat.testBit_shiftRight]
  by_cases h : j ≥ k
  · have e : k + (j - k) = j := by omega
    rw [e]
    cases Nat.testBit u j <;> simp
  · simp [h]

theorem to_i32_add_to_i32 (a b : Int) : to_i32 (to_i32 a + b) = to_i32 (a + b) := by
  unfold to_i32
  split <;> split <;> split <;> omega

theorem to_u32_to_i32 (a : Int) : to_u32 (to_i32 a) = to_u32 a := by
  unfold to_u32 to_i32
  split <;> omega

/-- The function `byte_swap` in terms of the four bytes of the 32-bit pattern of its
argument. -/
theorem byte_swap_eq (x : Int) :
    byte_swap x = to_i32 (((to_u32 x % 256 * 16777216 + to_u32 x / 256 % 256 * 65536
      + to_u32 x / 65536 % 256 * 256 + to_u32 x / 16777216 % 256 : Nat) : Int)) := by
  have m0 : (0x000000FF : Nat) = (2 ^ 8 - 1) <<< 0 := by decide
  have m1 : (0x0000FF00 : Nat) = (2 ^ 8 - 1) <<< 8 := by decide
  have m2 : (0x00FF0000 : Nat) = (2 ^ 8 - 1) <<< 16 := by decide
  have m3 : (0xFF000000 : Nat) = (2 ^ 8 - 1) <<< 24 := by decide
  unfold byte_swap
  simp only
  rw [m0, m1, m2, m3, and_byte_mask, and_byte_mask, and_byte_mask, and_byte_mask]
  simp only [Nat.shiftLeft_eq, Nat.shiftRight_eq_div_pow]
  simp only [to_i32_add_to_i32]
  congr 1
  have e2 : to_u32 x / 2 ^ 16 % 2 ^ 8 * 2 ^ 16 / 2 ^ 8 = to_u32 x / 2 ^ 16 % 2 ^ 8 * 2 ^ 8 := by
    omega
  have e3 : to_u32 x / 2 ^ 24 % 2 ^ 8 * 2 ^ 24 / 2 ^ 24 = to_u32 x / 2 ^ 24 % 2 ^ 8 := by
    omega
  rw [e2, e3]
  push_cast
  omega

theorem to_u32_of_nat (n : Nat) (h : n < 4294967296) : to_u32 (n : Int) = n := by
  unfold to_u32
  omega

/-- The function `byte_swap` on the word of four bytes. -/
theorem byte_swap_word (c0 c1 c2 c3 : Nat) (h0 : c0 < 256) (h1 : c1 < 256) (h2 : c2 < 256)
    (h3 : c3 < 256) :
    byte_swap (to_i32 ((c0 + c1 * 256 + c2 * 65536 + c3 * 16777216 : Nat) : Int))
      = to_i32 ((c3 + c2 * 256 + c1 * 65536 + c0 * 16777216 : Nat) : Int) := by
  rw [byte_swap_eq, to_u32_to_i32, to_u32_of_nat _ (by omega)]
  have e0 : (c0 + c1 * 256 + c2 * 65536 + c3 * 16777216) % 256 = c0 := by omega
  have e1 : (c0 + c1 * 256 + c2 * 65536 + c3 * 16777216) / 256 % 256 = c1 := by omega
  have e2 : (c0 + c1 * 256 + c2 * 65536 + c3 * 16777216) / 65536 % 256 = c2 := by omega
  have e3 : (c0 + c1 * 256 + c2 * 65536 + c3 * 16777216) / 16777216 % 256 = c3 := by omega
  rw [e0, e1, e2, e3]
  congr 2
  omega

/-- C27: `byte_swap` reverses the byte order of a 32-bit word.  For all bytes `b0`, `b1`,
`b2`, `b3`, the word `b0 + b1*2^8 + b2*2^16 + b3*2^24` (held in an `int32_t`) is mapped
to the word `b3 + b2*2^8 + b1*2^16 + b0*2^24`; the `int` that a little-endian host
reads from the four bytes `b0 b1 b2 b3` of a big-endian field is mapped to the value
`b0*2^24 + b1*2^16 + b2*2^8 + b3` of the field (as `int32_t`); and
`byte_swap (byte_swap x) = x` for every 32-bit `x`. -/
theorem byte_swap_spec (b0 b1 b2 b3 : Nat) (x : Int) (h0 : b0 < 256) (h1 : b1 < 256)
    (h2 : b2 < 256) (h3 : b3 < 256) (hx1 : -2147483648 ≤ x) (hx2 : x < 2147483648) :
    to_u32 (byte_swap (to_i32 ((b0 + b1 * 2 ^ 8 + b2 * 2 ^ 16 + b3 * 2 ^ 24 : Nat) : Int)))
      = b3 + b2 * 2 ^ 8 + b1 * 2 ^ 16 + b0 * 2 ^ 24 ∧
    byte_swap (mem_to_int Host.little [b0, b1, b2, b3])
      = to_i32 ((b0 * 2 ^ 24 + b1 * 2 ^ 16 + b2 * 2 ^ 8 + b3 : Nat) : Int) ∧
    byte_swap (byte_swap x) = x := by
  have hsw := byte_swap_word b0 b1 b2 b3 h0 h1 h2 h3
  have p8 : (2 : Nat) ^ 8 = 256 := by decide
  have p16 : (2 : Nat) ^ 16 = 65536 := by decide
  have p24 : (2 : Nat) ^ 24 = 16777216 := by decide
  rw [p8, p16, p24]
  refine ⟨?_, ?_, ?_⟩
  · rw [hsw, to_u32_to_i32, to_u32_of_nat _ (by omega)]
  · have hm : mem_to_int Host.little [b0, b1, b2, b3]
        = to_i32 ((b0 + b1 * 256 + b2 * 65536 + b3 * 16777216 : Nat) : Int) := by
      unfold mem_to_int
      simp only [List.getD_cons_zero, List.getD_cons_succ]
    have e : b3 + b2 * 256 + b1 * 65536 + b0 * 16777216
        = b0 * 16777216 + b1 * 65536 + b2 * 256 + b3 := by omega
    rw [hm, hsw, e]
  · have hu : to_u32 x < 4294967296 := by unfold to_u32; omega
    have hxu : x = to_i32 ((to_u32 x : Nat) : Int) := by
      unfold to_i32 to_u32
      split <;> omega
    have hdec : to_u32 x = to_u32 x % 256 + to_u32 x / 256 % 256 * 256
        + to_u32 x / 65536 % 256 * 65536 + to_u32 x / 16777216 % 256 * 16777216 := by
      omega
    generalize to_u32 x = u at hu hxu hdec
    have g0 : u % 256 < 256 := Nat.mod_lt _ (by decide)
    have g1 : u / 256 % 256 < 256 := Nat.mod_lt _ (by decide)
    have g2 : u / 65536 % 256 < 256 := Nat.mod_lt _ (by decide)
    have g3 : u / 16777216 % 256 < 256 := Nat.mod_lt _ (by decide)
    generalize u % 256 = c0 at hdec g0
    generalize u / 256 % 256 = c1 at hdec g1
    generalize u / 65536 % 256 = c2 at hdec g2
    generalize u / 16777216 % 256 = c3 at hdec g3
    subst hdec
    rw [hxu, byte_swap_word c0 c1 c2 c3 g0 g1 g2 g3, byte_swap_word c3 c2 c1 c0 g3 g2 g1 g0]

/-- C27 on the word `0x0000000D` (the bytes `0D 00 00 00`) and on the big-endian field
`00 00 00 0D`. -/
theorem byte_swap_spec_witness :
    to_u32 (byte_swap (to_i32 ((13 + 0 * 2 ^ 8 + 0 * 2 ^ 16 + 0 * 2 ^ 24 : Nat) : Int)))
      = 0 + 0 * 2 ^ 8 + 0 * 2 ^ 16 + 13 * 2 ^ 24 ∧
    byte_swap (mem_to_int Host.little [13, 0, 0, 0])
      = to_i32 ((13 * 2 ^ 24 + 0 * 2 ^ 16 + 0 * 2 ^ 8 + 0 : Nat) : Int) ∧
    byte_swap (byte_swap (-2)) = -2 :=
  byte_swap_spec 13 0 0 0 (-2) (by decide) (by decide) (by decide) (by decide) (by simp)
    (by simp)

/-! ## Run-length back-references (C22) -/

/-- A copy with distance 1 appends copies of the last byte. -/
theorem length_copy_distance_one (out : dynamic_array) (n : Nat) (hne : out.data ≠ [])
    (hwf : out.count ≤ out.max_size) (hsize : out.count < 2147483648) :
    ∃ res : dynamic_array, handle_length_copy out (n : Int) 1 = Except.ok res ∧
      res.data = out.data ++ List.replicate n (out.data.getD (out.data.length - 1) 0) := by
  have hpos : 1 ≤ out.data.length := by
    cases h : out.data with
    | nil => exact absurd h hne
    | cons a l => simp
  have hrun := length_copy_run_ok out (n : Int) 1 hsize hpos
  have hdata := (length_copy_loop_data out.data 1 (le_refl 1) hpos hsize n 0 out []
    (by simp) hwf).1
  unfold handle_length_copy
  rw [show ((1 : Int)) = ((1 : Nat) : Int) from rfl, hrun]
  refine ⟨_, rfl, ?_⟩
  rw [Int.toNat_ofNat, hdata, Nat.zero_add]
  congr 1
  apply List.ext_getElem
  · simp
  · intro k h1 h2
    simp [Nat.mod_one]

/-- The fixed-Huffman block `8E 60 00 00` is decoded to `AAAAAA`. -/
theorem huffman_block_literal_and_run :
    (huffman_block 10 ⟨[142, 96, 0, 0], 25, 0, 0⟩ create_array static_symbol
        static_distance).toOption.map
          (fun r => (r.1.byte_position, r.1.bit_position, r.2.data))
      = some (3, 3, [65, 65, 65, 65, 65, 65]) := by
  decide!

/-- C22: the fixed-Huffman block with the codes of literal `A` (`01110001`), length
symbol 259 (`0000011`, length 5), distance symbol 0 (`00000`, distance 1) and
end-of-block (`0000000`), packed as the bytes `8E 60 00 00`, is decoded by
`huffman_block` with the static trees on an empty output to the six bytes `AAAAAA`,
leaving the cursor after the 27 bits; and for every non-empty output and every `n`, a
back-reference with distance 1 and length `n` appends `n` copies of the last byte. -/
theorem huffman_block_run_length (out : dynamic_array) (n : Nat) (hne : out.data ≠ [])
    (hwf : out.count ≤ out.max_size) (hsize : out.count < 2147483648) :
    (huffman_block 10 ⟨[142, 96, 0, 0], 25, 0, 0⟩ create_array static_symbol
        static_distance).toOption.map
          (fun r => (r.1.byte_position, r.1.bit_position, r.2.data))
      = some (3, 3, [65, 65, 65, 65, 65, 65]) ∧
    ∃ res : dynamic_array, handle_length_copy out (n : Int) 1 = Except.ok res ∧
      res.data = out.data ++ List.replicate n (out.data.getD (out.data.length - 1) 0) :=
  ⟨huffman_block_literal_and_run, length_copy_distance_one out n hne hwf hsize⟩

/-- C22 on the output `AB` and a back-reference of length 3. -/
theorem huffman_block_run_length_witness :
    ∃ res : dynamic_array, handle_length_copy ⟨[65, 66], 25, 0, 0⟩ ((3 : Nat) : Int) 1
        = Except.ok res ∧
      res.data = [65, 66] ++ List.replicate 3 ([65, 66].getD ([65, 66].length - 1) 0) :=
  (huffman_block_run_length ⟨[65, 66], 25, 0, 0⟩ 3 (by decide) (by decide) (by decide)).2

/-! ## The chunk loop (C23, C24) -/

/-- One iteration of the chunk loop on a chunk header that can be read. -/
theorem read_chunks_step (host : Host) (fuel : Nat) (p : png) (f : FILE)
    (hv : p.is_valid = 0) (hl : (fread f 4).1.length = 4)
    (ht : (fread (fread f 4).2 4).1.length = 4) :
    read_chunks host (fuel + 1) p f =
      if is_required ((fread (fread f 4).2 4).1.getD 0 0) then
        match handle_chunk host p
            (if check_endian host ≠ 0 then byte_swap (mem_to_int host (fread f 4).1)
              else mem_to_int host (fread f 4).1)
            (fread (fread f 4).2 4).1 (fread (fread f 4).2 4).2 with
        | Except.error e => Except.error e
        | Except.ok (ok, to_return, png_file) =>
          if ok = 0 then Except.ok (false, to_return)
          else read_chunks host fuel to_return (fseek png_file 4)
      else read_chunks host fuel p
        (fseek (fseek (fread (fread f 4).2 4).2
          (if check_endian host ≠ 0 then byte_swap (mem_to_int host (fread f 4).1)
            else mem_to_int host (fread f 4).1)) 4) := by
  rw [read_chunks]
  rw [if_neg (by omega)]
  dsimp only
  rw [if_neg (by omega), if_neg (by omega)]
  try rfl

/-- C24, as stated, fails: the file of a 1x1 RGB image whose `IDAT` chunk comes before its
`IHDR` chunk (signature, IDAT with a stored block holding `00 10 20 30`, IHDR, IEND) has
no IHDR before its first IDAT, and `read_png` returns it with `is_valid = 1` and its
pixel `10 20 30` decoded. -/
theorem read_png_accepts_IDAT_before_IHDR :
    (read_png Host.little 50 (some
      [137, 80, 78, 71, 13, 10, 26, 10,
       0, 0, 0, 15, 73, 68, 65, 84, 120, 1, 1, 4, 0, 251, 255, 0, 16, 32, 48, 0, 0, 0, 0,
       0, 0, 0, 0,
       0, 0, 0, 13, 73, 72, 68, 82, 0, 0, 0, 1, 0, 0, 0, 1, 8, 2, 0, 0, 0, 0, 0, 0, 0,
       0, 0, 0, 0, 73, 69, 78, 68, 0, 0, 0, 0])).toOption.map
        (fun p => (p.is_valid, p.w, p.h, p.pixel_data.data)) = some (1, 1, 1, [16, 32, 48]) := by
  decide

/-- C24, amended: the chunk loop does not check that an IHDR chunk was read before an
IDAT chunk.  In every state of the loop (`is_valid = 0`; the fields of the image are
arbitrary, so also before any IHDR), an IDAT chunk of length `n` whose body is in the
file is accepted: its `n` bytes are appended to `raw_data`, nothing else of the image
changes, and the loop goes on with the chunk after its CRC. -/
theorem read_chunks_IDAT_in_any_state (host : Host) (fuel : Nat) (p : png) (f : FILE)
    (n : Nat) (hv : p.is_valid = 0) (hl : (fread f 4).1.length = 4)
    (ht : (fread (fread f 4).2 4).1 = [73, 68, 65, 84])
    (hn : (if check_endian host ≠ 0 then byte_swap (mem_to_int host (fread f 4).1)
      else mem_to_int host (fread f 4).1) = (n : Int))
    (hbody : f.pos + 8 + n ≤ f.bytes.length) :
    read_chunks host (fuel + 1) p f = read_chunks host fuel
      { p with raw_data := array_add p.raw_data ((f.bytes.drop (f.pos + 8)).take n) n }
      ⟨f.bytes, f.pos + 8 + n + 4⟩ := by
  have hstep := read_chunks_step host fuel p f hv hl (by rw [ht]; rfl)
  obtain ⟨_, _, b1, c1⟩ := fread_of_le f 4 (by omega)
  obtain ⟨_, _, b2', c2'⟩ := fread_of_le (fread f 4).2 4 (by rw [b1, c1]; omega)
  have b2 : (fread (fread f 4).2 4).2.bytes = f.bytes := b2'.trans b1
  have c2 : (fread (fread f 4).2 4).2.pos = f.pos + 4 + 4 := by rw [c2', c1]
  obtain ⟨a3', l3, b3', c3'⟩ := fread_of_le (fread (fread f 4).2 4).2 n
    (by rw [b2, c2]; omega)
  have a3 : (fread (fread (fread f 4).2 4).2 n).1 = (f.bytes.drop (f.pos + 4 + 4)).take n := by
    rw [a3', b2, c2]
  have b3 : (fread (fread (fread f 4).2 4).2 n).2.bytes = f.bytes := b3'.trans b2
  have c3 : (fread (fread (fread f 4).2 4).2 n).2.pos = f.pos + 4 + 4 + n := by rw [c3', c2]
  have hI : handle_IDAT p (n : Int) (fread (fread f 4).2 4).2
      = Except.ok
        ({ p with
            raw_data := array_add p.raw_data ((f.bytes.drop (f.pos + 4 + 4)).take n) n },
          (fread (fread (fread f 4).2 4).2 n).2) := by
    unfold handle_IDAT
    rw [if_neg (by omega)]
    dsimp only
    rw [Int.toNat_ofNat, if_neg (by omega), a3]
  have hc : handle_chunk host p (n : Int) [73, 68, 65, 84] (fread (fread f 4).2 4).2
      = Except.ok
        (1, { p with
            raw_data := array_add p.raw_data ((f.bytes.drop (f.pos + 4 + 4)).take n) n },
          (fread (fread (fread f 4).2 4).2 n).2) := by
    unfold handle_chunk
    rw [if_neg (by decide), if_pos (by decide), hI]
  rw [hstep, hn, ht, if_pos (by decide), hc]
  dsimp only
  rw [if_neg (by decide)]
  have hf : fseek (fread (fread (fread f 4).2 4).2 n).2 4 = ⟨f.bytes, f.pos + 8 + n + 4⟩ := by
    generalize (fread (fread (fread f 4).2 4).2 n).2 = g at b3 c3
    unfold fseek
    rw [if_pos (by omega)]
    obtain ⟨gb, gp⟩ := g
    simp only at b3 c3
    subst b3 c3
    simp only [FILE.mk.injEq, true_and]
    omega
  rw [hf]

/-- C24, amended, on the file of a 1x1 RGB image whose `IDAT` chunk comes right after the
signature, in the state before any IHDR. -/
theorem read_chunks_IDAT_in_any_state_witness :
    read_chunks Host.little (0 + 1) ⟨create_array, create_array, 0, 0, 0, 0, 0, 0, 0, 0, 0⟩
      ⟨[137, 80, 78, 71, 13, 10, 26, 10,
        0, 0, 0, 15, 73, 68, 65, 84, 120, 1, 1, 4, 0, 251, 255, 0, 16, 32, 48, 0, 0, 0, 0,
        0, 0, 0, 0,
        0, 0, 0, 13, 73, 72, 68, 82, 0, 0, 0, 1, 0, 0, 0, 1, 8, 2, 0, 0, 0, 0, 0, 0, 0,
        0, 0, 0, 0, 73, 69, 78, 68, 0, 0, 0, 0], 8⟩
      = read_chunks Host.little 0
        { (⟨create_array, create_array, 0, 0, 0, 0, 0, 0, 0, 0, 0⟩ : png) with
          raw_data := array_add create_array
            ((([137, 80, 78, 71, 13, 10, 26, 10,
              0, 0, 0, 15, 73, 68, 65, 84, 120, 1, 1, 4, 0, 251, 255, 0, 16, 32, 48,
              0, 0, 0, 0, 0, 0, 0, 0,
              0, 0, 0, 13, 73, 72, 68, 82, 0, 0, 0, 1, 0, 0, 0, 1, 8, 2, 0, 0, 0, 0, 0, 0, 0,
              0, 0, 0, 0, 73, 69, 78, 68, 0, 0, 0, 0] : List Nat).drop (8 + 8)).take 15) 15 }
        ⟨[137, 80, 78, 71, 13, 10, 26, 10,
          0, 0, 0, 15, 73, 68, 65, 84, 120, 1, 1, 4, 0, 251, 255, 0, 16, 32, 48, 0, 0, 0, 0,
          0, 0, 0, 0,
          0, 0, 0, 13, 73, 72, 68, 82, 0, 0, 0, 1, 0, 0, 0, 1, 8, 2, 0, 0, 0, 0, 0, 0, 0,
          0, 0, 0, 0, 73, 69, 78, 68, 0, 0, 0, 0], 8 + 8 + 15 + 4⟩ :=
  read_chunks_IDAT_in_any_state Host.little 0
    ⟨create_array, create_array, 0, 0, 0, 0, 0, 0, 0, 0, 0⟩
    ⟨[137, 80, 78, 71, 13, 10, 26, 10,
      0, 0, 0, 15, 73, 68, 65, 84, 120, 1, 1, 4, 0, 251, 255, 0, 16, 32, 48, 0, 0, 0, 0,
      0, 0, 0, 0,
      0, 0, 0, 13, 73, 72, 68, 82, 0, 0, 0, 1, 0, 0, 0, 1, 8, 2, 0, 0, 0, 0, 0, 0, 0,
      0, 0, 0, 0, 73, 69, 78, 68, 0, 0, 0, 0], 8⟩
    15 rfl (by decide) (by decide) (by decide) (by decide)

/-! ## Scanlines with a filter byte above 4 (C28) -/

/-- One step of the inner loop of `handle_filter` appends one byte for a filter type in `0..4` and
nothing for any other filter byte. -/
theorem filter_step_append (bpp : Nat) (os pd : dynamic_array) (n y p q : Int) (f i : Nat) :
    (f ≤ 4 → ∃ v, (filter_step bpp os n y p q f pd i).data = pd.data ++ [v]) ∧
    (f > 4 → filter_step bpp os n y p q f pd i = pd) := by
  rcases f with _ | _ | _ | _ | _ | f
  · exact ⟨fun _ => ⟨_, push_byte_data _ _⟩, fun h => absurd h (by omega)⟩
  · exact ⟨fun _ => ⟨_, push_byte_data _ _⟩, fun h => absurd h (by omega)⟩
  · exact ⟨fun _ => ⟨_, push_byte_data _ _⟩, fun h => absurd h (by omega)⟩
  · exact ⟨fun _ => ⟨_, push_byte_data _ _⟩, fun h => absurd h (by omega)⟩
  · exact ⟨fun _ => ⟨_, push_byte_data _ _⟩, fun h => absurd h (by omega)⟩
  · exact ⟨fun h => absurd h (by omega), fun _ => rfl⟩

/-- The inner loop appends `m` bytes for a filter type in `0..4` and nothing for any
other filter byte. -/
theorem filter_row_append (bpp : Nat) (os : dynamic_array) (n y p q : Int) (f m : Nat)
    (pd : dynamic_array) :
    (f ≤ 4 → ∃ r, ((List.range m).foldl (filter_step bpp os n y p q f) pd).data
        = pd.data ++ r ∧ r.length = m) ∧
    (f > 4 → (List.range m).foldl (filter_step bpp os n y p q f) pd = pd) := by
  induction m with
  | zero => exact ⟨fun _ => ⟨[], by simp, rfl⟩, fun _ => rfl⟩
  | succ m ih =>
    rw [List.range_succ, List.foldl_append]
    simp only [List.foldl_cons, List.foldl_nil]
    obtain ⟨s1, s2⟩ := filter_step_append bpp os
      ((List.range m).foldl (filter_step bpp os n y p q f) pd) n y p q f m
    refine ⟨?_, ?_⟩
    · intro hf
      obtain ⟨r, hr, hl⟩ := ih.1 hf
      obtain ⟨v, hv⟩ := s1 hf
      exact ⟨r ++ [v], by rw [hv, hr, List.append_assoc], by simp [hl]⟩
    · intro hf
      rw [s2 hf, ih.2 hf]

/-- One scanline of `handle_filter` appends `n` bytes for a filter byte in `0..4` and nothing for
any other filter byte. -/
theorem filter_scanline_append (bpp n y : Nat) (os pd : dynamic_array)
    (hos : os.count ≤ os.max_size) (hrow : (y + 1) * (1 + n) ≤ os.data.length)
    (hsize : (y + 1) * (1 + n) < 2147483648) :
    (os.data.getD (y * (1 + n)) 0 ≤ 4 →
      ∃ r, (filter_scanline bpp os (n : Int) pd y).data = pd.data ++ r ∧ r.length = n) ∧
    (os.data.getD (y * (1 + n)) 0 > 4 → filter_scanline bpp os (n : Int) pd y = pd) := by
  rw [filter_scanline_eq bpp n y os pd hos hrow hsize]
  exact filter_row_append bpp os _ _ _ _ _ n pd

/-- The outer loop: after `k` scanlines the pixel buffer lacks `n` bytes for every
scanline among them whose filter byte is above 4, and it only grows. -/
theorem filter_rows_append (bpp n H : Nat) (os pd : dynamic_array)
    (hos : os.count ≤ os.max_size) (hlen : os.data.length = H * (1 + n))
    (hsize : H * (1 + n) < 2147483648) (k : Nat) (hk : k ≤ H) :
    ((List.range k).foldl (filter_scanline bpp os (n : Int)) pd).data.length
        + n * ((List.range k).filter (fun j => decide (os.data.getD (j * (1 + n)) 0 > 4))).length
      = pd.data.length + k * n ∧
    ∀ j, j ≤ k → ((List.range j).foldl (filter_scanline bpp os (n : Int)) pd).data
      <+: ((List.range k).foldl (filter_scanline bpp os (n : Int)) pd).data := by
  induction k with
  | zero =>
    refine ⟨by simp, ?_⟩
    intro j hj
    have : j = 0 := by omega
    subst this
    exact List.prefix_refl _
  | succ k ih =>
    obtain ⟨i1, i2⟩ := ih (by omega)
    have hmul : (k + 1) * (1 + n) ≤ H * (1 + n) := Nat.mul_le_mul_right _ hk
    obtain ⟨s1, s2⟩ := filter_scanline_append bpp n k os
      ((List.range k).foldl (filter_scanline bpp os (n : Int)) pd) hos (by omega) (by omega)
    have e : (List.range (k + 1)).foldl (filter_scanline bpp os (n : Int)) pd
        = filter_scanline bpp os (n : Int)
            ((List.range k).foldl (filter_scanline bpp os (n : Int)) pd) k := by
      rw [List.range_succ, List.foldl_append]
      rfl
    rw [e, List.range_succ, List.filter_append]
    by_cases hf : os.data.getD (k * (1 + n)) 0 ≤ 4
    · obtain ⟨r, hr, hl⟩ := s1 hf
      rw [hr]
      refine ⟨?_, ?_⟩
      · rw [List.filter_cons_of_neg (by simpa using hf)]
        simp only [List.filter_nil, List.append_nil, List.length_append]
        rw [Nat.succ_mul]
        omega
      · intro j hj
        rcases Nat.lt_or_ge j (k + 1) with h | h
        · exact (i2 j (by omega)).trans (List.prefix_append _ _)
        · have : j = k + 1 := by omega
          subst this
          rw [e, hr]
    · rw [s2 (by omega)]
      refine ⟨?_, ?_⟩
      · rw [List.filter_cons_of_pos (by simpa using hf)]
        simp only [List.filter_nil, List.length_append, List.length_singleton]
        rw [Nat.succ_mul, Nat.mul_add]
        omega
      · intro j hj
        rcases Nat.lt_or_ge j (k + 1) with h | h
        · exact i2 j (by omega)
        · have : j = k + 1 := by omega
          subst this
          rw [e, s2 (by omega)]

/-- C28: a scanline whose filter byte is above 4.  On an inflated stream of `H`
scanlines of `1 + W * bpp` bytes and an empty pixel buffer, for every scanline `y < H`:
if its filter byte is above 4, the scanline leaves the pixel buffer as it is (no byte is
appended, nothing fails); if it is in `0..4`, the scanline appends `W * bpp` bytes; the
scanline is written at the offset `y * W * bpp` minus `W * bpp` for every earlier
scanline with a filter byte above 4, and stays there in the final buffer; and the final
buffer is shorter than `W * H * bpp` by `W * bpp` for every scanline with a filter byte
above 4. -/
theorem handle_filter_bad_filter_byte (cur : png) (os : dynamic_array) (W H y : Nat)
    (hw : cur.w = W) (hh : cur.h = H) (hempty : cur.pixel_data.data = [])
    (hos : os.count ≤ os.max_size)
    (hlen : os.data.length = H * (1 + W * cur.bytes_per_pixel))
    (_hbytes : ∀ v ∈ os.data, v < 256)
    (hsize : H * (1 + W * cur.bytes_per_pixel) < 2147483648) (hy : y < H) :
    (os.data.getD (y * (1 + W * cur.bytes_per_pixel)) 0 > 4 →
      (List.range (y + 1)).foldl (filter_scanline cur.bytes_per_pixel os
          ((W * cur.bytes_per_pixel : Nat) : Int)) cur.pixel_data
        = (List.range y).foldl (filter_scanline cur.bytes_per_pixel os
          ((W * cur.bytes_per_pixel : Nat) : Int)) cur.pixel_data) ∧
    (os.data.getD (y * (1 + W * cur.bytes_per_pixel)) 0 ≤ 4 →
      ∃ r, ((List.range (y + 1)).foldl (filter_scanline cur.bytes_per_pixel os
          ((W * cur.bytes_per_pixel : Nat) : Int)) cur.pixel_data).data
        = ((List.range y).foldl (filter_scanline cur.bytes_per_pixel os
          ((W * cur.bytes_per_pixel : Nat) : Int)) cur.pixel_data).data ++ r ∧
        r.length = W * cur.bytes_per_pixel) ∧
    ((List.range y).foldl (filter_scanline cur.bytes_per_pixel os
          ((W * cur.bytes_per_pixel : Nat) : Int)) cur.pixel_data).data.length
        + W * cur.bytes_per_pixel * ((List.range y).filter (fun j =>
            decide (os.data.getD (j * (1 + W * cur.bytes_per_pixel)) 0 > 4))).length
      = y * (W * cur.bytes_per_pixel) ∧
    ((List.range (y + 1)).foldl (filter_scanline cur.bytes_per_pixel os
          ((W * cur.bytes_per_pixel : Nat) : Int)) cur.pixel_data).data
      <+: (handle_filter cur os).pixel_data.data ∧
    (handle_filter cur os).pixel_data.data.length
        + W * cur.bytes_per_pixel * ((List.range H).filter (fun j =>
            decide (os.data.getD (j * (1 + W * cur.bytes_per_pixel)) 0 > 4))).length
      = W * H * cur.bytes_per_pixel := by
  have hmul : (y + 1) * (1 + W * cur.bytes_per_pixel) ≤ H * (1 + W * cur.bytes_per_pixel) :=
    Nat.mul_le_mul_right _ hy
  obtain ⟨s1, s2⟩ := filter_scanline_append cur.bytes_per_pixel (W * cur.bytes_per_pixel) y os
    ((List.range y).foldl (filter_scanline cur.bytes_per_pixel os
      ((W * cur.bytes_per_pixel : Nat) : Int)) cur.pixel_data) hos (by omega) (by omega)
  have e : (List.range (y + 1)).foldl (filter_scanline cur.bytes_per_pixel os
        ((W * cur.bytes_per_pixel : Nat) : Int)) cur.pixel_data
      = filter_scanline cur.bytes_per_pixel os ((W * cur.bytes_per_pixel : Nat) : Int)
          ((List.range y).foldl (filter_scanline cur.bytes_per_pixel os
            ((W * cur.bytes_per_pixel : Nat) : Int)) cur.pixel_data) y := by
    rw [List.range_succ, List.foldl_append]
    rfl
  obtain ⟨a1, _⟩ := filter_rows_append cur.bytes_per_pixel (W * cur.bytes_per_pixel) H os
    cur.pixel_data hos hlen hsize y (by omega)
  obtain ⟨b1, b2⟩ := filter_rows_append cur.bytes_per_pixel (W * cur.bytes_per_pixel) H os
    cur.pixel_data hos hlen hsize H (le_refl H)
  rw [hempty] at a1 b1
  rw [handle_filter_data cur os W H hw hh hsize (by omega)]
  refine ⟨fun hf => by rw [e]; exact s2 hf, fun hf => by rw [e]; exact s1 hf, ?_,
    b2 (y + 1) (by omega), ?_⟩
  · rw [a1]; simp
  · rw [b1]; simp only [List.length_nil, Nat.zero_add]; ring

/-- C28 on the 2x2 RGB stream `05 01 02 03 04 05 06 00 07 08 09 0A 0B 0C`: the first scanline
(filter byte 5) appends nothing and the second is written at offset 0. -/
theorem handle_filter_bad_filter_byte_witness :
    (handle_filter ⟨create_array, create_array, 2, 2, 3, 0, 2, 0, 0, 0, 1⟩
        ⟨[5, 1, 2, 3, 4, 5, 6, 0, 7, 8, 9, 10, 11, 12], 10025, 0, 0⟩).pixel_data.data
      = [7, 8, 9, 10, 11, 12] ∧
    (handle_filter ⟨create_array, create_array, 2, 2, 3, 0, 2, 0, 0, 0, 1⟩
        ⟨[5, 1, 2, 3, 4, 5, 6, 0, 7, 8, 9, 10, 11, 12], 10025, 0, 0⟩).pixel_data.data.length
        + 2 * 3 * ((List.range 2).filter (fun j => decide
            ([5, 1, 2, 3, 4, 5, 6, 0, 7, 8, 9, 10, 11, 12].getD (j * (1 + 2 * 3)) 0
              > 4))).length
      = 2 * 2 * 3 :=
  ⟨by decide, (handle_filter_bad_filter_byte ⟨create_array, create_array, 2, 2, 3, 0, 2, 0, 0, 0, 1⟩
    ⟨[5, 1, 2, 3, 4, 5, 6, 0, 7, 8, 9, 10, 11, 12], 10025, 0, 0⟩ 2 2 0 rfl rfl rfl
    (by decide) (by decide) (by decide) (by decide) (by decide)).2.2.2.2⟩

/-! ## Canonical codes without the Kraft condition (C26) -/

theorem div_pow_mod_two_of_mod (c m : Nat) (hm : m < 32) :
    c % 4294967296 / 2 ^ m % 2 = c / 2 ^ m % 2 := by
  interval_cases m <;> omega

/-- The reversal of the `l ≤ 32` low bits only depends on the value modulo `2^32`. -/
theorem reversed_mod (c l : Nat) (hl : l ≤ 32) : reversed (c % 4294967296) l = reversed c l := by
  induction l with
  | zero => rfl
  | succ l ih =>
    unfold reversed
    rw [ih (by omega), div_pow_mod_two_of_mod c l (by omega)]

theorem reverse_bits_mod (c l : Nat) (hl : l ≤ 32) :
    reverse_bits (c % 4294967296) l = reverse_bits c l := by
  rw [reverse_bits_eq _ _ hl, reverse_bits_eq _ _ hl, reversed_mod c l hl]

/-- The second loop of `generate_codes` computes the first code of every length, modulo `2^32`. -/
theorem next_code_fold_mod (L : List Nat) (bl : List Nat) (amax : Nat)
    (hbl : ∀ k, k < 33 → bl.getD k 0 = if k = 0 then 0 else L.count k)
    (m : Nat) (hm : m ≤ amax) (hamax : amax ≤ 15) :
    ((List.range m).foldl (next_code_step bl) (List.replicate (amax + 1) 0, 0)).1.length
      = amax + 1 ∧
    ((List.range m).foldl (next_code_step bl) (List.replicate (amax + 1) 0, 0)).2
      = spec_first L m % 4294967296 ∧
    (∀ b, 1 ≤ b → b ≤ m →
      ((List.range m).foldl (next_code_step bl) (List.replicate (amax + 1) 0, 0)).1.getD b 0
        = spec_first L b % 4294967296) := by
  induction m with
  | zero =>
    refine ⟨by simp, by simp [spec_first], ?_⟩
    intro b h1 h2
    omega
  | succ m ih =>
    obtain ⟨h1, h2, h3⟩ := ih (by omega)
    rw [List.range_succ, List.foldl_append]
    simp only [List.foldl_cons, List.foldl_nil]
    generalize (List.range m).foldl (next_code_step bl) (List.replicate (amax + 1) 0, 0) = st
      at h1 h2 h3 ⊢
    unfold next_code_step
    simp only
    have hcode : ((st.2 + bl.getD m 0) <<< 1) % 4294967296
        = spec_first L (m + 1) % 4294967296 := by
      rw [h2, hbl m (by omega), Nat.shiftLeft_eq]
      have e : spec_first L (m + 1)
          = (spec_first L m + (if m = 0 then 0 else L.count m)) * 2 := rfl
      rw [e]
      generalize spec_first L m = a
      generalize (if m = 0 then 0 else L.count m) = c
      omega
    rw [hcode]
    refine ⟨by rw [List.length_set, h1], rfl, ?_⟩
    intro b hb1 hb2
    by_cases hb : m + 1 = b
    · subst hb
      rw [getD_set_self _ _ _ (by omega)]
    · rw [getD_set_ne _ _ _ _ hb]
      exact h3 b hb1 (by omega)

/-- The loop of `create_dynamic_tree` inserts every symbol of positive length under its
canonical code, whatever the lengths (the codes are kept modulo `2^32`, and
`reverse_bits` only reads their low bits). -/
theorem dynamic_tree_fold_mod (L : List Nat) (nc : List Nat) (amax : Nat) (hamax : amax ≤ 15)
    (hL : ∀ l ∈ L, l ≤ amax) (hlen : nc.length = amax + 1)
    (hnc : ∀ b, 1 ≤ b → b ≤ amax → nc.getD b 0 = spec_first L b % 4294967296)
    (m : Nat) (hm : m ≤ L.length) :
    ((List.range m).foldl (dynamic_tree_step L) (create_node, nc)).1
      = canonical_tree_upto L m ∧
    ((List.range m).foldl (dynamic_tree_step L) (create_node, nc)).2.length = amax + 1 ∧
    (∀ b, 1 ≤ b → b ≤ amax →
      ((List.range m).foldl (dynamic_tree_step L) (create_node, nc)).2.getD b 0
        = (spec_first L b + (L.take m).count b) % 4294967296) := by
  induction m with
  | zero =>
    refine ⟨rfl, hlen, ?_⟩
    intro b h1 h2
    simpa using hnc b h1 h2
  | succ m ih =>
    obtain ⟨h1, h2, h3⟩ := ih (by omega)
    rw [List.range_succ, List.foldl_append]
    simp only [List.foldl_cons, List.foldl_nil]
    generalize (List.range m).foldl (dynamic_tree_step L) (create_node, nc) = st
      at h1 h2 h3 ⊢
    have htake := take_succ_getD L m (by omega)
    have hlm : L.getD m 0 ≤ amax := by
      rw [List.getD_eq_getElem _ _ (by omega)]
      exact hL _ (List.getElem_mem _)
    unfold dynamic_tree_step
    simp only
    by_cases hpos : L.getD m 0 > 0
    · rw [if_pos hpos, canonical_tree_upto_succ, if_pos hpos]
      have hcode : reverse_bits (st.2.getD (L.getD m 0) 0) (L.getD m 0)
          = reverse_bits (canonical_code L m) (L.getD m 0) := by
        rw [h3 _ hpos hlm, reverse_bits_mod _ _ (by omega)]
        rfl
      refine ⟨by rw [hcode, h1], by rw [List.length_set, h2], ?_⟩
      intro b hb1 hb2
      rw [htake, List.count_append, List.count_singleton]
      by_cases hb : L.getD m 0 = b
      · subst hb
        rw [getD_set_self _ _ _ (by omega), h3 _ hb1 hb2]
        simp only [beq_self_eq_true, if_true]
        omega
      · rw [getD_set_ne _ _ _ _ hb, h3 _ hb1 hb2]
        have : (L.getD m 0 == b) = false := by simpa using hb
        rw [this]
        simp
    · rw [if_neg hpos, canonical_tree_upto_succ, if_neg hpos]
      refine ⟨h1, h2, ?_⟩
      intro b hb1 hb2
      rw [htake, List.count_append, List.count_singleton, h3 _ hb1 hb2]
      have : (L.getD m 0 == b) = false := by
        have : L.getD m 0 ≠ b := by omega
        simpa using this
      rw [this]
      simp

/-- The tree of `create_dynamic_tree` is the fold of `add_node` over the canonical codes, for
all lengths up to 15. -/
theorem create_dynamic_tree_fold (L : List Nat) (hL : ∀ l ∈ L, l ≤ 15)
    (hn : L.length < 4294967296) :
    create_dynamic_tree L L.length = canonical_tree_upto L L.length := by
  obtain ⟨h1, h2, h3, h4⟩ := count_lengths_fold L hL hn L.length (le_refl _)
  rw [List.take_length] at h2 h3
  unfold create_dynamic_tree generate_codes
  simp only
  generalize (List.range L.length).foldl (count_lengths_step L) (List.replicate 33 0, 0) = st
    at h1 h2 h3 h4 ⊢
  have hbl : ∀ k, k < 33 → (st.1.set 0 0).getD k 0 = if k = 0 then 0 else L.count k := by
    intro k hk33
    by_cases h0 : k = 0
    · subst h0
      rw [getD_set_self _ _ _ (by omega)]
      simp
    · rw [getD_set_ne _ _ _ _ (by omega), h2 k, if_pos hk33, if_neg h0]
  obtain ⟨g1, _, g3⟩ := next_code_fold_mod L (st.1.set 0 0) st.2 hbl st.2 (le_refl _) h4
  exact (dynamic_tree_fold_mod L _ st.2 h4 h3 g1 g3 L.length (le_refl _)).1

/-- C26: for every array `L` of `n` code lengths in `0..15`, the tree of
`create_dynamic_tree L n` is the result of inserting, for `i = 0, 1, .., n - 1` in this
order, each symbol `i` with `L[i] > 0` under the code
`first[L[i]] + #{j < i : L[j] = L[i]}` of length `L[i]`, starting from the empty root;
here `first[1] = 0` and `first[b] = (first[b-1] + bl_count[b-1]) * 2` for `b ≥ 2`, with
`bl_count[b]` the number of symbols of length `b`; symbols of length 0 are neither
counted nor inserted.  (`n < 2^31`: the loop counter is an `int`.) -/
theorem create_dynamic_tree_canonical (L : List Nat) (hL : ∀ l ∈ L, l ≤ 15)
    (hn : L.length < 2147483648) :
    create_dynamic_tree L L.length = canonical_tree_upto L L.length ∧
    canonical_tree_upto L 0 = create_node ∧
    (∀ i, canonical_tree_upto L (i + 1) =
      if L.getD i 0 > 0 then add_node (canonical_tree_upto L i) i
        (reverse_bits (canonical_code L i) (L.getD i 0)) (L.getD i 0)
      else canonical_tree_upto L i) ∧
    (∀ i, canonical_code L i = spec_first L (L.getD i 0) + (L.take i).count (L.getD i 0)) ∧
    spec_first L 1 = 0 ∧
    (∀ b, 2 ≤ b → spec_first L b = (spec_first L (b - 1) + L.count (b - 1)) * 2) := by
  refine ⟨create_dynamic_tree_fold L hL (by omega), rfl, canonical_tree_upto_succ L,
    fun _ => rfl, rfl, ?_⟩
  intro b hb
  obtain ⟨c, rfl⟩ : ∃ c, b = c + 2 := ⟨b - 2, by omega⟩
  show (spec_first L (c + 1) + (if c + 1 = 0 then 0 else L.count (c + 1))) * 2 = _
  rw [if_neg (by omega)]
  rfl

/-- C26 on the lengths `3 3 3 3 3 2 4 4`. -/
theorem create_dynamic_tree_canonical_witness :
    create_dynamic_tree [3, 3, 3, 3, 3, 2, 4, 4] [3, 3, 3, 3, 3, 2, 4, 4].length
      = canonical_tree_upto [3, 3, 3, 3, 3, 2, 4, 4] [3, 3, 3, 3, 3, 2, 4, 4].length :=
  (create_dynamic_tree_canonical [3, 3, 3, 3, 3, 2, 4, 4] (by decide) (by decide)).1

end PngDecoder
